import Mathlib

/-!
# MTD editor: free-area administration and file-pair index

A shallow embedding of `freearea.cpp` and of the index-maintaining part of
`filepair.cpp`.  `unsigned long` is the 32-bit type of the Win32 targets the
program is written for: every sum, difference and product of such values is
reduced modulo `2^32`.
-/

set_option autoImplicit false

/-! ## Machine arithmetic -/

/-- Number of values of the 32-bit `unsigned long` / `uint32_t` type. -/
def ULONG_RANGE : Nat := 4294967296

/-- Sum of two `unsigned long` values. -/
def uadd (a b : Nat) : Nat := (a + b) % ULONG_RANGE

/-- Difference of two `unsigned long` values. -/
def usub (a b : Nat) : Nat := (a + (ULONG_RANGE - b % ULONG_RANGE)) % ULONG_RANGE

/-- Product of two `unsigned long` values. -/
def umul (a b : Nat) : Nat := (a * b) % ULONG_RANGE

/-! ## freearea.h / freearea.cpp -/

/-- The `FreeArea::RECT` structure. -/
structure RECT where
  x : Nat
  y : Nat
  w : Nat
  h : Nat
deriving DecidableEq, Repr

/-- The `FreeArea` class: the vector `Rects` and the stack `Recycled`
(the head of the list is the top of the stack). -/
structure FreeArea where
  Rects : List RECT
  Recycled : List Nat
deriving DecidableEq, Repr

namespace FreeArea

/-- A freshly constructed `FreeArea`: both containers empty. -/
def empty : FreeArea := ⟨[], []⟩

/-- The containment test of `addRect` and `removeRect`
(freearea.cpp lines 18-19 and 47-48): `rect` lies inside `p`. -/
def containedIn (rect p : RECT) : Bool :=
  decide (rect.x ≥ p.x) && decide (uadd rect.x rect.w ≤ uadd p.x p.w) &&
  decide (rect.y ≥ p.y) && decide (uadd rect.y rect.h ≤ uadd p.y p.h)

/-- The intersection test of `removeRect` (freearea.cpp lines 42-44). -/
def intersects (rect p : RECT) : Bool :=
  decide (p.w ≠ 0) &&
  decide (uadd rect.x rect.w > p.x) && decide (rect.x < uadd p.x p.w) &&
  decide (uadd rect.y rect.h > p.y) && decide (rect.y < uadd p.y p.h)

/-- `FreeArea::addRect`: drop `rect` when an existing slot contains it, else
store it in the slot on top of `Recycled`, or append it when `Recycled` is
empty. -/
def addRect (rect : RECT) (s : FreeArea) : FreeArea :=
  if s.Rects.any (containedIn rect) then s
  else
    match s.Recycled with
    | [] => { s with Rects := s.Rects ++ [rect] }
    | top :: rest => { Rects := s.Rects.set top rect, Recycled := rest }

/-- The four conditional `addRect` calls of `removeRect`
(freearea.cpp lines 59-86) for the removed slot value `r`. -/
def addRemainders (rect r : RECT) (s : FreeArea) : FreeArea :=
  let s1 := if rect.x > r.x then
      addRect ⟨r.x, r.y, usub rect.x r.x, r.h⟩ s else s
  let s2 := if rect.y > r.y then
      addRect ⟨r.x, r.y, r.w, usub rect.y r.y⟩ s1 else s1
  let s3 := if uadd rect.x rect.w < uadd r.x r.w then
      addRect ⟨uadd rect.x rect.w, r.y, usub (uadd r.x r.w) (uadd rect.x rect.w), r.h⟩ s2
    else s2
  if uadd rect.y rect.h < uadd r.y r.h then
    addRect ⟨r.x, uadd rect.y rect.h, r.w, usub (uadd r.y r.h) (uadd rect.y rect.h)⟩ s3
  else s3

/-- The body of the `for` loop of `removeRect` for a slot `i` holding `r` that
passed the intersection test: the slot is emptied (`w = 0`), its index is
pushed on `Recycled`, and the remainders are added. -/
def splitSlot (rect : RECT) (i : Nat) (r : RECT) (s : FreeArea) : FreeArea :=
  addRemainders rect r
    { Rects := s.Rects.set i { r with w := 0 }, Recycled := i :: s.Recycled }

/-- The `for` loop of `removeRect`, from index `i` on, with `complete` the
flag accumulated so far.  `fuel` bounds the number of iterations; `none`
means the bound was reached before `i` reached `Rects.size()`. -/
def removeRectLoop (rect : RECT) : Nat → Nat → Bool → FreeArea → Option (Bool × FreeArea)
  | fuel, i, complete, s =>
    match s.Rects[i]? with
    | none => some (complete, s)
    | some r =>
      match fuel with
      | 0 => none
      | fuel + 1 =>
        if intersects rect r then
          removeRectLoop rect fuel (i + 1) (complete || containedIn rect r)
            (splitSlot rect i r s)
        else
          removeRectLoop rect fuel (i + 1) complete s

/-- `FreeArea::removeRect`.  The loop is run with `5 * Rects.size()`
iterations of fuel, which `removeRect_terminates` shows to be always enough. -/
def removeRect (rect : RECT) (s : FreeArea) : Option (Bool × FreeArea) :=
  removeRectLoop rect (5 * s.Rects.length) 0 false s

/-- `FreeArea::getFreeArea`: first-fit scan in slot order.  On success the
result is `true` together with the `area` written back to the caller
(origin of the slot found, requested size) and the state after
`removeRect`; on failure `area` and the state are returned as they were. -/
def getFreeArea (area : RECT) (s : FreeArea) : Option (Bool × RECT × FreeArea) :=
  match s.Rects.find? (fun p => decide (p.w ≥ area.w) && decide (p.h ≥ area.h)) with
  | some p =>
    let rect : RECT := ⟨p.x, p.y, area.w, area.h⟩
    (removeRect rect s).map (fun res => (true, rect, res.2))
  | none => some (false, area, s)

/-- Conversion of an `int` argument to `unsigned long`. -/
def ofInt (v : Int) : Nat := (v % (ULONG_RANGE : Int)).toNat

/-- `FreeArea::addUsedArea`. -/
def addUsedArea (x y width height : Int) (s : FreeArea) : Option (Bool × FreeArea) :=
  removeRect ⟨ofInt x, ofInt y, ofInt width, ofInt height⟩ s

/-- `FreeArea::addFreeArea`. -/
def addFreeArea (x y width height : Int) (s : FreeArea) : FreeArea :=
  addRect ⟨ofInt x, ofInt y, ofInt width, ofInt height⟩ s

end FreeArea


/-! ## Exact geometry of rectangles -/

namespace RECT

/-- No sum of an origin and an extent of `r` reaches `2^32`. -/
def InRange (r : RECT) : Prop := r.x + r.w < ULONG_RANGE ∧ r.y + r.h < ULONG_RANGE

/-- Rectangle `a` lies completely inside rectangle `b` (exact integers). -/
def Inside (a b : RECT) : Prop :=
  b.x ≤ a.x ∧ a.x + a.w ≤ b.x + b.w ∧ b.y ≤ a.y ∧ a.y + a.h ≤ b.y + b.h

/-- The pixel `(px, py)` belongs to `r`. -/
def HasPixel (r : RECT) (px py : Nat) : Prop :=
  r.x ≤ px ∧ px < r.x + r.w ∧ r.y ≤ py ∧ py < r.y + r.h

/-- The open interiors of `a` and `b` meet (exact integers). -/
def Overlaps (a b : RECT) : Prop :=
  a.x < b.x + b.w ∧ b.x < a.x + a.w ∧ a.y < b.y + b.h ∧ b.y < a.y + a.h

instance (r : RECT) : Decidable r.InRange := by unfold InRange; infer_instance
instance (a b : RECT) : Decidable (a.Inside b) := by unfold Inside; infer_instance
instance (r : RECT) (px py : Nat) : Decidable (r.HasPixel px py) := by
  unfold HasPixel; infer_instance
instance (a b : RECT) : Decidable (a.Overlaps b) := by unfold Overlaps; infer_instance

end RECT

namespace FreeArea

/-- Every slot of the free set is in range. -/
def InRange (s : FreeArea) : Prop := ∀ p ∈ s.Rects, p.InRange

/-- The recycle pool is consistent: its entries are distinct indices of emptied
slots (`w = 0`) of `Rects`. -/
def PoolOK (s : FreeArea) : Prop :=
  s.Recycled.Nodup ∧ ∀ k ∈ s.Recycled, ∃ p, s.Rects[k]? = some p ∧ p.w = 0

/-- The pixel `(px, py)` is covered by a stored free rectangle. -/
def Covered (s : FreeArea) (px py : Nat) : Prop := ∃ p ∈ s.Rects, p.HasPixel px py

/-- The remainders `removeRect` adds for a removed slot value `r`, in the
order of the four `if` statements. -/
def remainders (rect r : RECT) : List RECT :=
  (if rect.x > r.x then [(⟨r.x, r.y, usub rect.x r.x, r.h⟩ : RECT)] else []) ++
  (if rect.y > r.y then [(⟨r.x, r.y, r.w, usub rect.y r.y⟩ : RECT)] else []) ++
  (if uadd rect.x rect.w < uadd r.x r.w then
    [(⟨uadd rect.x rect.w, r.y, usub (uadd r.x r.w) (uadd rect.x rect.w), r.h⟩ : RECT)]
   else []) ++
  (if uadd rect.y rect.h < uadd r.y r.h then
    [(⟨r.x, uadd rect.y rect.h, r.w, usub (uadd r.y r.h) (uadd rect.y rect.h)⟩ : RECT)]
   else [])

end FreeArea

namespace FreeArea

/-- The part of the loop invariant of `removeRect` that speaks of the slots
only: every slot lies inside a slot of the initial state `s0`, the slots below
`i` fail the intersection test, and every slot either fails that test or still
holds its initial value. -/
def SlotInv (rect : RECT) (s0 : FreeArea) (i : Nat) (s : FreeArea) : Prop :=
  (∀ p ∈ s.Rects, ∃ q ∈ s0.Rects, p.Inside q) ∧
  (∀ (j : Nat) (p : RECT), j < i → s.Rects[j]? = some p → intersects rect p = false) ∧
  (∀ (j : Nat) (p : RECT), s.Rects[j]? = some p →
    intersects rect p = false ∨ s0.Rects[j]? = some p)

/-- Loop invariant of `removeRect` that needs no assumption on the recycle
pool: `SlotInv`, and `complete` is only set when a slot of `s0` contains
`rect`. -/
def LoopInv (rect : RECT) (s0 : FreeArea) (i : Nat) (c : Bool) (s : FreeArea) : Prop :=
  SlotInv rect s0 i s ∧ (c = true → ∃ q ∈ s0.Rects, rect.Inside q)

/-- The part of the loop invariant of `removeRect` that relies on a consistent
recycle pool: the pool stays consistent, the non-empty slots of `s0` from `i`
on are untouched, and every pixel covered in `s0` outside `rect` is still
covered. -/
def PoolInv (rect : RECT) (s0 : FreeArea) (i : Nat) (s : FreeArea) : Prop :=
  PoolOK s ∧
  (∀ (j : Nat) (q : RECT), i ≤ j → s0.Rects[j]? = some q → q.w ≠ 0 → s.Rects[j]? = some q) ∧
  (∀ px py, Covered s0 px py → ¬ rect.HasPixel px py → Covered s px py)

/-- The full loop invariant of `removeRect` for in-range inputs with a
consistent pool; its last part records that `complete` has been set once a
slot of `s0` containing a non-empty `rect` has been visited. -/
def FullInv (rect : RECT) (s0 : FreeArea) (i : Nat) (c : Bool) (s : FreeArea) : Prop :=
  LoopInv rect s0 i c s ∧ PoolInv rect s0 i s ∧
  (0 < rect.w → 0 < rect.h →
    ∀ (j : Nat) (q : RECT), j < i → s0.Rects[j]? = some q → rect.Inside q → c = true)

instance (s : FreeArea) : Decidable s.InRange := by unfold InRange; infer_instance

end FreeArea

/-! ## filepair.h / filepair.cpp -/

/-- `std::wstring`: a sequence of wide characters. -/
abbrev wstring := List Char

/-- The `FileInfo` structure of filepair.h; the coordinates are
`unsigned long`, `used` is an `unsigned char`. -/
structure FileInfo where
  x : Nat
  y : Nat
  w : Nat
  h : Nat
  used : Nat
deriving DecidableEq, Repr

/-- The packed on-disk record `FILEINFO` of filepair.cpp: 64 name bytes, four
`uint32_t` and one `uint8_t`. -/
structure FILEINFO where
  name : List Nat
  x : Nat
  y : Nat
  w : Nat
  h : Nat
  used : Nat
deriving DecidableEq, Repr

/-- `std::map<std::wstring, FileInfo>`, kept as the list of its entries in
iteration order. -/
abbrev FileMap := List (wstring × FileInfo)

namespace FileMap

/-- `map::find`: the value stored under `k`, if any. -/
def find : FileMap → wstring → Option FileInfo
  | [], _ => none
  | e :: m, k => if e.1 = k then some e.2 else find m k

/-- Position of a new key in iteration order: before the first greater key. -/
def place : FileMap → wstring → FileInfo → FileMap
  | [], k, v => [(k, v)]
  | e :: m, k, v => if k < e.1 then (k, v) :: e :: m else e :: place m k v

/-- `map::insert`: a key already present keeps its old value. -/
def insert (m : FileMap) (k : wstring) (v : FileInfo) : FileMap :=
  if (find m k).isSome then m else place m k v

/-- `map::erase` of the entry found under `k`. -/
def erase (m : FileMap) (k : wstring) : FileMap :=
  m.filter (fun e => decide (e.1 ≠ k))

end FileMap

/-- A FreeImage bitmap of 32-bit pixels: its size and the pixel at
(column, row), rows counted from the top. -/
structure FIBITMAP where
  width : Nat
  height : Nat
  bits : Nat → Nat → Nat

/-- The exceptions of the file pair, named by the resource id of their message. -/
inductive wruntime_error where
  | IDS_ERROR_FORMAT_UNSUPPORTED
  | IDS_ERROR_IMAGE_LOAD
  | IDS_ERROR_IMAGE_CONVERT
  | IDS_ERROR_BITMAP_EXPAND
  | IDS_ERROR_BITMAP_CREATE
  | IDS_ERROR_FILE_OPEN
  | IDS_ERROR_FILE_READ
deriving DecidableEq, Repr

/-- What the model cannot continue from: a loop that used up its iteration
bound, or an element access outside a vector (undefined behaviour in C++). -/
inductive Fault where
  | fuel
  | bounds
deriving DecidableEq, Repr

/-- Outcome of decoding an image file in `ReadBitmapFile`. -/
inductive LoadResult where
  | unsupported
  | loadFailed
  | convertFailed
  | loaded (dib : FIBITMAP)

/-- The collaborators outside the repository: the image files on disk as the
FreeImage decoder sees them, whether `FreeImage_Allocate` finds memory for a
bitmap of a given size, and the pixel `FreeImage_Paste` with alpha 255 writes
for a source pixel over a destination pixel. -/
structure FreeImage where
  Load : wstring → LoadResult
  Allocate : Nat → Nat → Bool
  Combine : Nat → Nat → Nat

/-- Largest value of `int`. -/
def INT_MAX : Nat := 2147483647

namespace FreeImage

/-- The library only hands out bitmaps whose width and height are positive
values of `int`, the type of the size arguments of `FreeImage_Allocate`: a
request outside that range fails, and so does decoding such an image. -/
def WellBehaved (lib : FreeImage) : Prop :=
  (∀ w h, lib.Allocate w h = true → 0 < w ∧ w ≤ INT_MAX ∧ 0 < h ∧ h ≤ INT_MAX) ∧
  (∀ name dib, lib.Load name = LoadResult.loaded dib →
    0 < dib.width ∧ dib.width ≤ INT_MAX ∧ 0 < dib.height ∧ dib.height ≤ INT_MAX)

end FreeImage

/-- `FreeImage_Allocate(width, height, 32)`: a zeroed bitmap, or NULL. -/
def FreeImage_Allocate (lib : FreeImage) (width height : Nat) : Option FIBITMAP :=
  if lib.Allocate width height then some ⟨width, height, fun _ _ => 0⟩ else none

/-- `FreeImage_Paste(dst, src, left, top, 255)`: when `src` fits into `dst` at
`(left, top)` every pixel of that area is combined with the source pixel;
otherwise `dst` is left as it is. -/
def FreeImage_Paste (lib : FreeImage) (dst src : FIBITMAP) (left top : Nat) : FIBITMAP :=
  if left ≤ INT_MAX ∧ top ≤ INT_MAX ∧
      left + src.width ≤ dst.width ∧ top + src.height ≤ dst.height then
    { dst with bits := fun c r =>
        if left ≤ c ∧ c < left + src.width ∧ top ≤ r ∧ r < top + src.height then
          lib.Combine (src.bits (c - left) (r - top)) (dst.bits c r)
        else dst.bits c r }
  else dst

/-- `FilePairImpl::ReadBitmapFile`. -/
def ReadBitmapFile (lib : FreeImage) (filename : wstring) : Except wruntime_error FIBITMAP :=
  match lib.Load filename with
  | LoadResult.unsupported => Except.error wruntime_error.IDS_ERROR_FORMAT_UNSUPPORTED
  | LoadResult.loadFailed => Except.error wruntime_error.IDS_ERROR_IMAGE_LOAD
  | LoadResult.convertFailed => Except.error wruntime_error.IDS_ERROR_IMAGE_CONVERT
  | LoadResult.loaded dib => Except.ok dib

/-- The bit `IMAGE` of `modified`. -/
def IMAGE : Nat := 1

/-- The bit `INDEX` of `modified`. -/
def INDEX : Nat := 2

/-- The data members of `FilePair::FilePairImpl`.  `selected` points into
`files` and is kept as the key of the entry it points to. -/
structure FilePairImpl where
  selected : Option wstring
  indexFilename : wstring
  imageFilename : wstring
  freearea : FreeArea
  bitmap : FIBITMAP
  readOnly : Bool
  modified : Nat
  files : FileMap

/-- `GetArea`: the product of the two `unsigned` dimensions. -/
def GetArea (bitmap : FIBITMAP) : Nat := umul bitmap.width bitmap.height

/-- Element access `v[i]` of a vector with an `int` index. -/
def vecGet {α : Type} (v : List α) (i : Int) : Except Fault α :=
  if 0 ≤ i then
    match v[i.toNat]? with
    | some a => Except.ok a
    | none => Except.error Fault.bounds
  else Except.error Fault.bounds

/-- `swap(v[k], v[m])`. -/
def vecSwap {α : Type} (v : List α) (k m : Int) : Except Fault (List α) :=
  match vecGet v k, vecGet v m with
  | Except.ok a, Except.ok b => Except.ok ((v.set k.toNat b).set m.toNat a)
  | _, _ => Except.error Fault.bounds

/-- The loop `while (GetArea(bitmaps[k]) > pivot) k++;`. -/
def scanUp (bitmaps : List FIBITMAP) (pivot : Nat) : Nat → Int → Except Fault Int
  | 0, _ => Except.error Fault.fuel
  | fuel + 1, k =>
    match vecGet bitmaps k with
    | Except.error e => Except.error e
    | Except.ok b => if GetArea b > pivot then scanUp bitmaps pivot fuel (k + 1) else Except.ok k

/-- The loop `while (GetArea(bitmaps[m]) < pivot) m--;`. -/
def scanDown (bitmaps : List FIBITMAP) (pivot : Nat) : Nat → Int → Except Fault Int
  | 0, _ => Except.error Fault.fuel
  | fuel + 1, m =>
    match vecGet bitmaps m with
    | Except.error e => Except.error e
    | Except.ok b =>
      if GetArea b < pivot then scanDown bitmaps pivot fuel (m - 1) else Except.ok m

/-- The two vectors and the two running indices of `QuickSortAreaDesc`. -/
structure SortState where
  filenames : List wstring
  bitmaps : List FIBITMAP
  k : Int
  m : Int

/-- The `do ... while (k <= m)` loop of `QuickSortAreaDesc`. -/
def partitionLoop (pivot : Nat) : Nat → SortState → Except Fault SortState
  | 0, _ => Except.error Fault.fuel
  | fuel + 1, st =>
    match scanUp st.bitmaps pivot (st.bitmaps.length + 1) st.k with
    | Except.error e => Except.error e
    | Except.ok k1 =>
      match scanDown st.bitmaps pivot (st.bitmaps.length + 1) st.m with
      | Except.error e => Except.error e
      | Except.ok m1 =>
        if k1 ≤ m1 then
          match vecSwap st.filenames k1 m1, vecSwap st.bitmaps k1 m1 with
          | Except.ok fn, Except.ok bm =>
            if k1 + 1 ≤ m1 - 1 then partitionLoop pivot fuel ⟨fn, bm, k1 + 1, m1 - 1⟩
            else Except.ok ⟨fn, bm, k1 + 1, m1 - 1⟩
          | _, _ => Except.error Fault.bounds
        else Except.ok ⟨st.filenames, st.bitmaps, k1, m1⟩

/-- `QuickSortAreaDesc(filenames, bitmaps, start, end)`, with `last` for the
parameter `end`; `fuel` bounds the depth of the recursion. -/
def QuickSortAreaDesc : Nat → List wstring → List FIBITMAP → Int → Int →
    Except Fault (List wstring × List FIBITMAP)
  | 0, _, _, _, _ => Except.error Fault.fuel
  | fuel + 1, filenames, bitmaps, start, last =>
    match vecGet bitmaps ((start + last).tdiv 2) with
    | Except.error e => Except.error e
    | Except.ok pb =>
      match partitionLoop (GetArea pb) (bitmaps.length + 1) ⟨filenames, bitmaps, start, last⟩ with
      | Except.error e => Except.error e
      | Except.ok st =>
        match (if start < st.m then QuickSortAreaDesc fuel st.filenames st.bitmaps start st.m
               else Except.ok (st.filenames, st.bitmaps)) with
        | Except.error e => Except.error e
        | Except.ok (fn, bm) =>
          if st.k < last then QuickSortAreaDesc fuel fn bm st.k last
          else Except.ok (fn, bm)

/-- The local variables of the allocation loop of `insertFiles`. -/
structure AllocState where
  freearea : FreeArea
  newBitmap : Option FIBITMAP
  newWidth : Nat
  newHeight : Nat

/-- The doubling step of the growth loop (filepair.cpp lines 221-230): the
newly exposed region is added to the free set and one dimension is
doubled. -/
def growStep (st : AllocState) : AllocState :=
  if st.newHeight < st.newWidth then
    { st with
      freearea := st.freearea.addFreeArea 0 st.newHeight st.newWidth st.newHeight
      newHeight := umul st.newHeight 2 }
  else
    { st with
      freearea := st.freearea.addFreeArea st.newWidth 0 st.newWidth st.newHeight
      newWidth := umul st.newWidth 2 }

/-- The loop `while (!freearea.getFreeArea(area))` of `insertFiles` for one
item: the inner result is the exception of a failed `FreeImage_Allocate`, or
the area found and the locals after the loop. -/
def allocArea (lib : FreeImage) (area : RECT) :
    Nat → AllocState → Except Fault (Except wruntime_error (RECT × AllocState))
  | 0, _ => Except.error Fault.fuel
  | fuel + 1, st =>
    match st.freearea.getFreeArea area with
    | none => Except.error Fault.fuel
    | some (true, found, fa) => Except.ok (Except.ok (found, { st with freearea := fa }))
    | some (false, _, fa) =>
      let st1 := growStep { st with freearea := fa }
      match FreeImage_Allocate lib st1.newWidth st1.newHeight with
      | none => Except.ok (Except.error wruntime_error.IDS_ERROR_BITMAP_EXPAND)
      | some nb => allocArea lib area fuel { st1 with newBitmap := some nb }

/-- The allocation loop of `insertFiles` (filepair.cpp lines 206-240) over the
sorted bitmaps; the areas are collected in order. -/
def allocAreas (lib : FreeImage) (fuel : Nat) :
    List FIBITMAP → AllocState → Except Fault (Except wruntime_error (List RECT × AllocState))
  | [], st => Except.ok (Except.ok ([], st))
  | dib :: rest, st =>
    match allocArea lib ⟨0, 0, uadd dib.width 2, uadd dib.height 2⟩ fuel st with
    | Except.error f => Except.error f
    | Except.ok (Except.error e) => Except.ok (Except.error e)
    | Except.ok (Except.ok (area, st1)) =>
      match allocAreas lib fuel rest st1 with
      | Except.error f => Except.error f
      | Except.ok (Except.error e) => Except.ok (Except.error e)
      | Except.ok (Except.ok (areas, st2)) => Except.ok (Except.ok (area :: areas, st2))

/-- The name under which `insertFiles` files an item: the text after the last
backslash, cut to 63 characters, upper-cased. -/
def normalizeName (filename : wstring) : wstring :=
  (((filename.reverse.takeWhile (fun c => decide (c ≠ Char.ofNat 92))).reverse).take 63).map
    Char.toUpper

/-- One pass of the border loop (filepair.cpp lines 295-296) on row `row`. -/
def copyBorderRow (fi : FileInfo) (bits : Nat → Nat → Nat) (row : Nat) : Nat → Nat → Nat :=
  let b1 : Nat → Nat → Nat := fun c r =>
    if c = fi.x - 1 ∧ r = row then bits fi.x row else bits c r
  fun c r => if c = fi.x + fi.w ∧ r = row then b1 (fi.x + fi.w - 1) row else b1 c r

/-- A `memcpy` of `len` pixels from row `src` to row `dst`, from column `x0`. -/
def copyRow (bits : Nat → Nat → Nat) (dst src x0 len : Nat) : Nat → Nat → Nat :=
  fun c r => if r = dst ∧ x0 ≤ c ∧ c < x0 + len then bits c src else bits c r

/-- The border copy of `insertFiles` (filepair.cpp lines 291-301). -/
def copyBorder (fi : FileInfo) (bitmap : FIBITMAP) : FIBITMAP :=
  let b1 := (List.range fi.h).foldl (fun bits y => copyBorderRow fi bits (fi.y + y)) bitmap.bits
  let b2 := copyRow b1 (fi.y - 1) fi.y (fi.x - 1) (fi.w + 2)
  let b3 := copyRow b2 (fi.y + fi.h) (fi.y + fi.h - 1) (fi.x - 1) (fi.w + 2)
  { bitmap with bits := b3 }

/-- The release of the entry `old` found under a name (filepair.cpp lines
269-276, and lines 578-585 of `deleteFile`): its bordered area is blanked when
a scratch bitmap can be allocated, and is added to the free set. -/
def releaseArea (lib : FreeImage) (old : FileInfo) (bitmap : FIBITMAP) (fa : FreeArea) :
    FIBITMAP × FreeArea :=
  let bm :=
    match FreeImage_Allocate lib (uadd old.w 2) (uadd old.h 2) with
    | some dib => FreeImage_Paste lib bitmap dib (usub old.x 1) (usub old.y 1)
    | none => bitmap
  (bm, fa.addFreeArea (usub old.x 1) (usub old.y 1) (uadd old.w 2) (uadd old.h 2))

/-- One pass of the copy loop of `insertFiles` (filepair.cpp lines 256-304). -/
def placeFile (lib : FreeImage) (s : FilePairImpl) (filename : wstring) (dib : FIBITMAP)
    (area : RECT) : FilePairImpl :=
  let name := normalizeName filename
  let s1 : FilePairImpl :=
    match s.files.find name with
    | some old =>
      let rel := releaseArea lib old s.bitmap s.freearea
      { s with bitmap := rel.1, freearea := rel.2, files := s.files.erase name }
    | none => s
  let fi : FileInfo :=
    { used := 1, x := uadd area.x 1, y := uadd area.y 1, w := usub area.w 2, h := usub area.h 2 }
  let bm := copyBorder fi (FreeImage_Paste lib s1.bitmap dib fi.x fi.y)
  { s1 with bitmap := bm, files := s1.files.insert name fi }

/-- The copy loop of `insertFiles` over the items and their areas. -/
def placeFiles (lib : FreeImage) :
    FilePairImpl → List wstring → List FIBITMAP → List RECT → FilePairImpl
  | s, filename :: fs, dib :: ds, area :: as =>
    placeFiles lib (placeFile lib s filename dib area) fs ds as
  | s, _, _, _ => s

/-- The first loop of `insertFiles`: every file is read, the first failure is
thrown. -/
def readFiles (lib : FreeImage) : List wstring → Except wruntime_error (List FIBITMAP)
  | [] => Except.ok []
  | f :: fs =>
    match ReadBitmapFile lib f with
    | Except.error e => Except.error e
    | Except.ok dib =>
      match readFiles lib fs with
      | Except.error e => Except.error e
      | Except.ok dibs => Except.ok (dib :: dibs)

/-- What a call of `insertFiles` leaves behind: the caller's vector of file
names, which the call reorders, the exception thrown, if any, and the object
state. -/
structure InsertOutcome where
  filenames : List wstring
  error : Option wruntime_error
  state : FilePairImpl

namespace FilePairImpl

/-- `FilePairImpl::insertFiles`; `fuel` bounds the iterations of each growth
loop. -/
def insertFiles (lib : FreeImage) (fuel : Nat) (filenames : List wstring) (s : FilePairImpl) :
    Except Fault InsertOutcome :=
  if s.readOnly then Except.ok ⟨filenames, none, s⟩
  else
    match readFiles lib filenames with
    | Except.error e => Except.ok ⟨filenames, some e, s⟩
    | Except.ok bitmaps =>
      match QuickSortAreaDesc (filenames.length + 1) filenames bitmaps 0
          ((filenames.length : Int) - 1) with
      | Except.error f => Except.error f
      | Except.ok (fn, bm) =>
        match allocAreas lib fuel bm ⟨s.freearea, none, s.bitmap.width, s.bitmap.height⟩ with
        | Except.error f => Except.error f
        | Except.ok (Except.error e) => Except.ok ⟨fn, some e, s⟩
        | Except.ok (Except.ok (areas, st)) =>
          let bitmap1 :=
            match st.newBitmap with
            | some nb => FreeImage_Paste lib nb s.bitmap 0 0
            | none => s.bitmap
          let s1 := placeFiles lib { s with freearea := st.freearea, bitmap := bitmap1 } fn bm areas
          Except.ok ⟨fn, none, { s1 with modified := IMAGE ||| INDEX }⟩

/-- The constructor `FilePairImpl(width, height)`: an empty image and
directory. -/
def create (lib : FreeImage) (width height : Nat) : Except wruntime_error FilePairImpl :=
  match FreeImage_Allocate lib width height with
  | none => Except.error wruntime_error.IDS_ERROR_BITMAP_CREATE
  | some bitmap =>
    Except.ok
      { selected := none, indexFilename := [], imageFilename := [],
        freearea := FreeArea.empty.addFreeArea 0 0 width height,
        bitmap := bitmap, readOnly := false, modified := 0, files := [] }

end FilePairImpl

namespace FilePair

/-- `FilePair::renameFile`: the result and the object state afterwards. -/
def renameFile (filename target : wstring) (s : FilePairImpl) : Bool × FilePairImpl :=
  if !s.readOnly && decide (target ≠ []) then
    match s.files.find target with
    | some _ => (false, s)
    | none =>
      match s.files.find filename with
      | some fi =>
        (true, { s with files := (s.files.erase filename).insert target fi,
                        modified := IMAGE ||| INDEX })
      | none => (false, s)
  else (false, s)

/-- `FilePair::deleteFile`. -/
def deleteFile (lib : FreeImage) (filename : wstring) (s : FilePairImpl) : FilePairImpl :=
  if !s.readOnly then
    match s.files.find filename with
    | some old =>
      let rel := releaseArea lib old s.bitmap s.freearea
      { s with bitmap := rel.1, freearea := rel.2, files := s.files.erase filename,
               modified := IMAGE ||| INDEX }
    | none => s
  else s

end FilePair

/-- `MultiByteToWideChar` on the name bytes, for a single-byte code page whose
characters are the code points of the same number. -/
def MultiByteToWideChar (bytes : List Nat) : wstring := bytes.map Char.ofNat

/-- The name `ReadIndexFile` files a record under (filepair.cpp lines
388-398): the first 63 name bytes up to the first NUL, as wide characters,
upper-cased. -/
def decodeName (name : List Nat) : wstring :=
  (MultiByteToWideChar ((name.take 63).takeWhile (fun b => decide (b ≠ 0)))).map Char.toUpper

/-- The `FileInfo` built from a record (filepair.cpp lines 390-391). -/
def FILEINFO.toFileInfo (input : FILEINFO) : FileInfo :=
  { x := input.x, y := input.y, w := input.w, h := input.h, used := input.used }

/-- The body of the record loop of `ReadIndexFile` after a successful read
(filepair.cpp lines 388-416), for an image of the given size. -/
def readRecord (width height : Nat) (input : FILEINFO) (s : FilePairImpl) :
    Except Fault FilePairImpl :=
  let fi := input.toFileInfo
  let s1 : FilePairImpl := { s with files := s.files.insert (decodeName input.name) fi }
  if fi.x = 0 ∨ fi.y = 0 ∨ uadd fi.x fi.w > usub width 1 ∨ uadd fi.y fi.h > usub height 1 then
    Except.ok { s1 with readOnly := true }
  else if !s1.readOnly then
    match s1.freearea.addUsedArea (usub fi.x 1) (usub fi.y 1) (uadd fi.w 2) (uadd fi.h 2) with
    | none => Except.error Fault.fuel
    | some (true, fa) => Except.ok { s1 with freearea := fa }
    | some (false, fa) => Except.ok { s1 with freearea := fa, readOnly := true }
  else Except.ok s1

/-- The record loop of `ReadIndexFile`: `nStrings` records are read from the
records left in the file; a missing record throws. -/
def readRecords (width height : Nat) :
    Nat → List FILEINFO → FilePairImpl → Except Fault (Option wruntime_error × FilePairImpl)
  | 0, _, s => Except.ok (none, s)
  | _ + 1, [], s => Except.ok (some wruntime_error.IDS_ERROR_FILE_READ, s)
  | n + 1, input :: rest, s =>
    match readRecord width height input s with
    | Except.error f => Except.error f
    | Except.ok s1 => readRecords width height n rest s1

namespace FilePairImpl

/-- `FilePairImpl::ReadIndexFile` on an index file that could be opened and
holds the count `nStrings` followed by the complete records `records`: the
exception thrown, if any, and the object state. -/
def ReadIndexFile (nStrings : Nat) (records : List FILEINFO) (s : FilePairImpl) :
    Except Fault (Option wruntime_error × FilePairImpl) :=
  readRecords s.bitmap.width s.bitmap.height nStrings records { s with readOnly := false }

/-- The constructor `FilePairImpl(filename1, filename2)` on an index file
holding `nStrings` and `records`; an exception leaves no object. -/
def load (lib : FreeImage) (filename1 filename2 : wstring) (nStrings : Nat)
    (records : List FILEINFO) : Except Fault (Except wruntime_error FilePairImpl) :=
  match ReadBitmapFile lib filename2 with
  | Except.error e => Except.ok (Except.error e)
  | Except.ok bitmap =>
    let s0 : FilePairImpl :=
      { selected := none, indexFilename := [], imageFilename := [],
        freearea := FreeArea.empty.addFreeArea 0 0 bitmap.width bitmap.height,
        bitmap := bitmap, readOnly := false, modified := 0, files := [] }
    match ReadIndexFile nStrings records s0 with
    | Except.error f => Except.error f
    | Except.ok (some e, _) => Except.ok (Except.error e)
    | Except.ok (none, s1) =>
      Except.ok (Except.ok { s1 with indexFilename := filename1, imageFilename := filename2,
                                     selected := none, modified := 0 })

end FilePairImpl

/-! ## Concrete data used in the examples -/

/-- A library that decodes `a` to a 62 x 62 image, `b` to a 1 x 1 image, `c`
to an 8 x 8 image and `d` to an 88 x 88 image, and allocates any bitmap of at
most 64 x 64 pixels or, with `roomy`, of any `int` size. -/
def exampleLib (roomy : Bool) : FreeImage :=
  { Load := fun name =>
      if name = ['a'] then LoadResult.loaded ⟨62, 62, fun _ _ => 7⟩
      else if name = ['b'] then LoadResult.loaded ⟨1, 1, fun _ _ => 9⟩
      else if name = ['c'] then LoadResult.loaded ⟨8, 8, fun _ _ => 5⟩
      else if name = ['d'] then LoadResult.loaded ⟨88, 88, fun _ _ => 3⟩
      else LoadResult.loadFailed
    Allocate := fun w h =>
      decide (0 < w) && decide (0 < h) &&
        (if roomy then decide (w ≤ INT_MAX) && decide (h ≤ INT_MAX)
         else decide (w ≤ 64) && decide (h ≤ 64))
    Combine := fun src _ => src }

/-- A 64 x 64 atlas filled completely by one 62 x 62 image and its border. -/
def fullAtlas64 : FilePairImpl :=
  { selected := none, indexFilename := [], imageFilename := [],
    freearea := ⟨[⟨0, 0, 0, 64⟩], [0]⟩,
    bitmap := ⟨64, 64, fun _ _ => 7⟩, readOnly := false, modified := 3,
    files := [(['A'], ⟨1, 1, 62, 62, 1⟩)] }

/-- A 160 x 100 atlas with the free rectangles `(0,0,50,50)` and
`(60,0,100,100)`. -/
def twoHoleAtlas : FilePairImpl :=
  { selected := none, indexFilename := [], imageFilename := [],
    freearea := ⟨[⟨0, 0, 50, 50⟩, ⟨60, 0, 100, 100⟩], []⟩,
    bitmap := ⟨160, 100, fun _ _ => 0⟩, readOnly := false, modified := 0, files := [] }

/-- The file pair obtained by creating an empty 64 x 64 pair and inserting the
batch `a` (62 x 62), `b` (1 x 1) with the roomy example library. -/
def exampleInserted : FilePairImpl :=
  match FilePairImpl.create (exampleLib true) 64 64 with
  | Except.ok s0 =>
    match FilePairImpl.insertFiles (exampleLib true) 4 [['a'], ['b']] s0 with
    | Except.ok o => o.state
    | Except.error _ => s0
  | Except.error _ => fullAtlas64

/-! ## Predicates used to state the behaviour of the sort -/

/-- Every bitmap at a position in `[lo, hi]` has an area satisfying `P`. -/
def AreasIn (bm : List FIBITMAP) (lo hi : Int) (P : Nat → Prop) : Prop :=
  ∀ (i : Nat) (b : FIBITMAP), lo ≤ (i : Int) → (i : Int) ≤ hi → bm[i]? = some b → P (GetArea b)

/-- How the two vectors after a sorting step on the positions `[start, last]`
relate to the vectors before it: same lengths, the pairs (name, bitmap) are
permuted, the bitmaps outside the range stay in place, and whatever holds for
all areas in the range still holds for them. -/
def SortRel (start last : Int) (fn0 : List wstring) (bm0 : List FIBITMAP)
    (fn : List wstring) (bm : List FIBITMAP) : Prop :=
  fn.length = fn0.length ∧ bm.length = bm0.length ∧
  (List.zip fn bm).Perm (List.zip fn0 bm0) ∧
  (∀ (i : Nat), ((i : Int) < start ∨ last < (i : Int)) → bm[i]? = bm0[i]?) ∧
  (∀ (P : Nat → Prop), AreasIn bm0 start last P → AreasIn bm start last P)

/-- The facts that hold each time the `do ... while` loop of
`QuickSortAreaDesc` starts an iteration with the indices `k` and `m`. -/
structure PartHead (pivot start last : Nat) (fn : List wstring) (bm : List FIBITMAP)
    (k m : Nat) : Prop where
  len : fn.length = bm.length
  last_lt : last < bm.length
  start_le : start ≤ k
  k_le : k ≤ m
  le_last : m ≤ last
  left : AreasIn bm start ((k : Int) - 1) (fun a => pivot ≤ a)
  right : AreasIn bm ((m : Int) + 1) last (fun a => a ≤ pivot)
  sentUp : ∃ (j : Nat) (bj : FIBITMAP), k ≤ j ∧ j ≤ last ∧ bm[j]? = some bj ∧ GetArea bj ≤ pivot
  sentDown : ∃ (j : Nat) (bj : FIBITMAP), start ≤ j ∧ j ≤ m ∧ bm[j]? = some bj ∧
    pivot ≤ GetArea bj
  progress : (k = start ∧ m = last ∧
      ∃ (j : Nat) (bj : FIBITMAP), start ≤ j ∧ j ≤ last ∧ bm[j]? = some bj ∧ GetArea bj = pivot) ∨
    (start < k ∧ m < last)

/-- The facts that hold when the `do ... while` loop of `QuickSortAreaDesc`
has ended in the state `st`, having started from the vectors `fn`, `bm`. -/
structure PartPost (pivot start last : Nat) (fn : List wstring) (bm : List FIBITMAP)
    (st : SortState) : Prop where
  k_nonneg : 0 ≤ st.k
  start_lt : (start : Int) < st.k
  lt_last : st.m < (last : Int)
  m_lt_k : st.m < st.k
  k_le : st.k ≤ (last : Int) + 1
  le_m : (start : Int) ≤ st.m + 1
  left : AreasIn st.bitmaps start (st.k - 1) (fun a => pivot ≤ a)
  right : AreasIn st.bitmaps (st.m + 1) last (fun a => a ≤ pivot)
  rel : SortRel start last fn bm st.filenames st.bitmaps

/-- The areas at the positions `[start, last]` are in non-increasing order. -/
def SortedIn (bm : List FIBITMAP) (start last : Int) : Prop :=
  ∀ (i j : Nat) (bi bj : FIBITMAP), start ≤ (i : Int) → i ≤ j → (j : Int) ≤ last →
    bm[i]? = some bi → bm[j]? = some bj → GetArea bj ≤ GetArea bi

/-! ## The packing invariant of the atlas -/

/-- The rectangle `r` lies inside an image of `W` by `H` pixels. -/
def RECT.Within (r : RECT) (W H : Nat) : Prop := r.x + r.w ≤ W ∧ r.y + r.h ≤ H

/-- The bordered rectangle `(x-1, y-1, w+2, h+2)` of an index entry. -/
def FileInfo.bordered (e : FileInfo) : RECT := ⟨e.x - 1, e.y - 1, e.w + 2, e.h + 2⟩

/-- The free set `fa` and the used rectangles `used` share an image of `W` by
`H` pixels: every rectangle lies inside the image, the used rectangles are
pairwise disjoint, and no non-empty free rectangle overlaps a used one. -/
structure Packed (fa : FreeArea) (W H : Nat) (used : List RECT) : Prop where
  width_le : W ≤ INT_MAX
  height_le : H ≤ INT_MAX
  free_within : ∀ p ∈ fa.Rects, p.Within W H
  used_within : ∀ u ∈ used, u.Within W H
  used_disjoint : used.Pairwise (fun a b => ¬ a.Overlaps b)
  free_disjoint : ∀ p ∈ fa.Rects, p.w ≠ 0 → ∀ u ∈ used, ¬ p.Overlaps u

/-- The invariant of a file pair: free set and bordered rectangles of the
index entries are packed in the bitmap, and no entry touches the left or the
top edge. -/
def AtlasInv (s : FilePairImpl) : Prop :=
  Packed s.freearea s.bitmap.width s.bitmap.height (s.files.map (fun e => e.2.bordered)) ∧
  ∀ e ∈ s.files, 1 ≤ e.2.x ∧ 1 ≤ e.2.y

/-- The file pairs that can be reached from a newly created empty pair by
calls of `insertFiles`, `deleteFile` and `renameFile` that return. -/
inductive Reachable (lib : FreeImage) : FilePairImpl → Prop where
  | create (width height : Nat) (s : FilePairImpl) :
      0 < width → 0 < height → FilePairImpl.create lib width height = Except.ok s →
      Reachable lib s
  | insert (s : FilePairImpl) (fuel : Nat) (filenames : List wstring) (o : InsertOutcome) :
      Reachable lib s → FilePairImpl.insertFiles lib fuel filenames s = Except.ok o →
      Reachable lib o.state
  | delete (s : FilePairImpl) (filename : wstring) :
      Reachable lib s → Reachable lib (FilePair.deleteFile lib filename s)
  | rename (s : FilePairImpl) (filename target : wstring) :
      Reachable lib s → Reachable lib (FilePair.renameFile filename target s).2

/-- The bitmap allocated last by the growth loop, if any, has the size the
loop has reached; without one the size is still the original `W0` by `H0`. -/
def AllocState.DimsOf (st : AllocState) (W0 H0 : Nat) : Prop :=
  match st.newBitmap with
  | some nb => nb.width = st.newWidth ∧ nb.height = st.newHeight
  | none => st.newWidth = W0 ∧ st.newHeight = H0

/-- The invariant of the copy loop of `insertFiles`: the areas still to be
filed (`pending`) and the bordered rectangles of the index entries are packed
with the free set, and no entry touches the left or the top edge. -/
def PlaceInv (s : FilePairImpl) (pending : List RECT) : Prop :=
  Packed s.freearea s.bitmap.width s.bitmap.height
    (pending ++ s.files.map (fun e => e.2.bordered)) ∧
  ∀ e ∈ s.files, 1 ≤ e.2.x ∧ 1 ≤ e.2.y

/-! ## The index file as bytes -/

/-- Modelled from the spec: the macro `htolel` is not among the sources; the
spec gives every integer of the index file as a little-endian u32.  The four
bytes, in file order, of the `uint32_t` value of `v`. -/
def htolel (v : Nat) : List Nat :=
  [v % 256, v / 256 % 256, v / 65536 % 256, v / 16777216 % 256]

/-- Modelled from the spec: the macro `letohl` is not among the sources; the
value of four bytes read as a little-endian u32. -/
def letohl (bytes : List Nat) : Nat :=
  bytes.getD 0 0 + 256 * bytes.getD 1 0 + 65536 * bytes.getD 2 0 + 16777216 * bytes.getD 3 0

/-- `WideCharToMultiByte(CP_ACP, WC_NO_BEST_FIT_CHARS, ..., output.name, 64,
"_", NULL)`, for a single-byte code page whose characters are the code points
of the same number: a character outside the code page becomes `_`.  The buffer
takes 64 bytes; for a longer name the call fails and the model keeps the
first 64 bytes. -/
def WideCharToMultiByte (s : wstring) : List Nat :=
  (s.map (fun c => if c.toNat < 256 then c.toNat else 95)).take 64

/-- The record `saveIndex` fills in for one entry (filepair.cpp lines
108-116): the name field is zeroed, then the converted name is written over
its start. -/
def outputRecord (name : wstring) (fi : FileInfo) : FILEINFO :=
  { name := WideCharToMultiByte name ++ List.replicate (64 - (WideCharToMultiByte name).length) 0
    x := fi.x, y := fi.y, w := fi.w, h := fi.h, used := fi.used }

/-- The 81 bytes of a packed `FILEINFO` as `WriteFile` puts them out. -/
def FILEINFO.toBytes (r : FILEINFO) : List Nat :=
  r.name ++ htolel r.x ++ htolel r.y ++ htolel r.w ++ htolel r.h ++ [r.used % 256]

/-- The packed `FILEINFO` that `ReadFile` fills from 81 bytes. -/
def FILEINFO.ofBytes (b : List Nat) : FILEINFO :=
  { name := b.take 64
    x := letohl ((b.drop 64).take 4), y := letohl ((b.drop 68).take 4)
    w := letohl ((b.drop 72).take 4), h := letohl ((b.drop 76).take 4)
    used := b.getD 80 0 }

/-- The complete records in the bytes of an index file after its count;
`fuel` bounds their number. -/
def recordsOf : Nat → List Nat → List FILEINFO
  | 0, _ => []
  | fuel + 1, bytes =>
    if bytes.length < 81 then []
    else FILEINFO.ofBytes (bytes.take 81) :: recordsOf fuel (bytes.drop 81)

namespace FilePairImpl

/-- `FilePairImpl::saveIndex` on a file that can be created and written: the
bytes written and the object state afterwards.  `modified &= ~INDEX` clears
the bit by an exclusive or with the bit as set. -/
def saveIndex (filename : wstring) (s : FilePairImpl) : List Nat × FilePairImpl :=
  (htolel (s.files.length % ULONG_RANGE) ++
      (s.files.map (fun e => (outputRecord e.1 e.2).toBytes)).flatten,
   { s with indexFilename := filename, modified := s.modified ^^^ (s.modified &&& INDEX) })

/-- The constructor `FilePairImpl(filename1, filename2)` on an index file with
the given bytes: fewer than four bytes fail the read of the count. -/
def loadFile (lib : FreeImage) (filename1 filename2 : wstring) (index : List Nat) :
    Except Fault (Except wruntime_error FilePairImpl) :=
  if index.length < 4 then
    match ReadBitmapFile lib filename2 with
    | Except.error e => Except.ok (Except.error e)
    | Except.ok _ => Except.ok (Except.error wruntime_error.IDS_ERROR_FILE_READ)
  else
    load lib filename1 filename2 (letohl (index.take 4)) (recordsOf index.length (index.drop 4))

end FilePairImpl

/-- The index of the round-trip example: `A` at (1,1) of size 10 x 10 and `B`
at (20,1) of size 5 x 5. -/
def exampleIndex : FilePairImpl :=
  { selected := none, indexFilename := [], imageFilename := [],
    freearea := ⟨[⟨12, 0, 7, 62⟩, ⟨0, 12, 62, 50⟩, ⟨26, 0, 36, 62⟩, ⟨12, 7, 50, 55⟩], []⟩,
    bitmap := ⟨62, 62, fun _ _ => 7⟩, readOnly := false, modified := 3,
    files := [(['A'], ⟨1, 1, 10, 10, 1⟩), (['B'], ⟨20, 1, 5, 5, 1⟩)] }

/-- An upper-case ASCII name: every character is an ASCII character other
than NUL that upper-casing leaves as it is. -/
def UpperAscii (name : wstring) : Prop :=
  ∀ c ∈ name, c.toNat ≠ 0 ∧ c.toNat < 128 ∧ c.toUpper = c

instance (name : wstring) : Decidable (UpperAscii name) := by
  unfold UpperAscii; infer_instance

/-- The fields of an entry have the range of their C++ types. -/
def FileInfo.Typed (e : FileInfo) : Prop :=
  e.x < ULONG_RANGE ∧ e.y < ULONG_RANGE ∧ e.w < ULONG_RANGE ∧ e.h < ULONG_RANGE ∧ e.used < 256

instance (e : FileInfo) : Decidable e.Typed := by
  unfold FileInfo.Typed; infer_instance

/-- The bytes of record `i` in an index file: 81 bytes from offset
`4 + 81 * i`. -/
def recordAt (bytes : List Nat) (i : Nat) : List Nat := (bytes.drop (4 + 81 * i)).take 81

/-- The index `min(max(i, 0), n - 1)` of the pixel that clamp-to-edge
addressing reads for `i`. -/
def clampTo (i : Int) (n : Nat) : Nat := (min (max i 0) ((n : Int) - 1)).toNat

/-- A library that decodes `t` to a 13 x 10 image, `p\b` to an 8 x 8 image
and `e` to a 1 x 1 image, and allocates any bitmap of positive `int` size. -/
def overwriteLib : FreeImage :=
  { Load := fun name =>
      if name = ['t'] then LoadResult.loaded ⟨13, 10, fun _ _ => 0⟩
      else if name = ['p', Char.ofNat 92, 'b'] then LoadResult.loaded ⟨8, 8, fun _ _ => 5⟩
      else if name = ['e'] then LoadResult.loaded ⟨1, 1, fun _ _ => 9⟩
      else LoadResult.loadFailed
    Allocate := fun w h =>
      decide (0 < w) && decide (0 < h) && decide (w ≤ INT_MAX) && decide (h ≤ INT_MAX)
    Combine := fun src _ => src }

/-- The pair loaded from the 13 x 10 image `t` and an index with the 1 x 1
image `B` at (1,1) and the 1 x 5 image `Z` at (1,4); its only free rectangle
that is not empty is `(3, 0, 10, 10)`. -/
def overwriteAtlas : FilePairImpl :=
  match FilePairImpl.load overwriteLib ['i'] ['t'] 2
      [⟨[66], 1, 1, 1, 1, 1⟩, ⟨[90], 1, 4, 1, 5, 1⟩] with
  | Except.ok (Except.ok s) => s
  | _ => fullAtlas64

/-- The call `removeRect` of `(1, 1, 10, 10)` on the free set that holds the
single rectangle `(0, 0, 64, 64)`. -/
def removeRectExample : Option (Bool × FreeArea) :=
  FreeArea.removeRect ⟨1, 1, 10, 10⟩ ⟨[⟨0, 0, 64, 64⟩], []⟩

/-- The free set while `ReadIndexFile` seeds it from the records read so far,
whose bordered rectangles are `used`: it is packed with them in the image of
`W` by `H` pixels, its recycle pool is consistent, and every rectangle of
positive size inside the image that overlaps none of `used` lies inside one
single stored rectangle. -/
structure Seeded (fa : FreeArea) (W H : Nat) (used : List RECT) : Prop where
  packed : Packed fa W H used
  pool : fa.PoolOK
  maximal : ∀ Q : RECT, 0 < Q.w → 0 < Q.h → Q.Within W H → (∀ u ∈ used, ¬ Q.Overlaps u) →
    ∃ p ∈ fa.Rects, Q.Inside p

/-- A record of a valid index for an image of `W` by `H` pixels: `x ≥ 1`,
`y ≥ 1`, `x + w + 1 ≤ W` and `y + h + 1 ≤ H`. -/
def FILEINFO.ValidIn (r : FILEINFO) (W H : Nat) : Prop :=
  1 ≤ r.x ∧ 1 ≤ r.y ∧ r.x + r.w + 1 ≤ W ∧ r.y + r.h + 1 ≤ H

instance (r : FILEINFO) (W H : Nat) : Decidable (r.ValidIn W H) := by
  unfold FILEINFO.ValidIn; infer_instance

/-- The object state in which the constructor `FilePairImpl(filename1,
filename2)` calls `ReadIndexFile`, for the bitmap read (filepair.cpp lines
443-445). -/
def loadStart (bitmap : FIBITMAP) : FilePairImpl :=
  { selected := none, indexFilename := [], imageFilename := [],
    freearea := FreeArea.empty.addFreeArea 0 0 bitmap.width bitmap.height,
    bitmap := bitmap, readOnly := false, modified := 0, files := [] }

/-- A library that decodes every file to a 1 x 1 image and allocates any
bitmap of positive `int` size. -/
def tieLib : FreeImage :=
  { Load := fun _ => LoadResult.loaded ⟨1, 1, fun _ _ => 9⟩
    Allocate := fun w h =>
      decide (0 < w) && decide (0 < h) && decide (w ≤ INT_MAX) && decide (h ≤ INT_MAX)
    Combine := fun src _ => src }

/-- The locals of the allocation loop after some growth steps from an atlas of
`W0` by `H0` pixels: width and height have `int` size, are `W0` and `H0` times
a power of two, and are the size of the bitmap allocated last, if any. -/
def AllocState.GrownFrom (st : AllocState) (W0 H0 : Nat) : Prop :=
  st.newWidth ≤ INT_MAX ∧ st.newHeight ≤ INT_MAX ∧ (∃ a, st.newWidth = W0 * 2 ^ a) ∧
    (∃ b, st.newHeight = H0 * 2 ^ b) ∧ st.DimsOf W0 H0

/-- The writable pair loaded from the 62 x 62 image `a` and an index whose
only record is `B` at (5, 1) with width 4294967292 and height 1. -/
def wrapAtlas : FilePairImpl :=
  match FilePairImpl.load (exampleLib true) ['i'] ['a'] 1 [⟨[66], 5, 1, 4294967292, 1, 1⟩] with
  | Except.ok (Except.ok s) => s
  | _ => fullAtlas64

/-- A library that decodes `w` to a 200 x 62 image and allocates any bitmap
of positive `int` size. -/
def wideLib : FreeImage :=
  { Load := fun name =>
      if name = ['w'] then LoadResult.loaded ⟨200, 62, fun _ _ => 7⟩
      else LoadResult.loadFailed
    Allocate := fun w h =>
      decide (0 < w) && decide (0 < h) && decide (w ≤ INT_MAX) && decide (h ≤ INT_MAX)
    Combine := fun src _ => src }

/-- The writable pair loaded from the 200 x 62 image `w` and an index with
the records `A` at (5, 1) of width 4294967292 and height 1 and `B` at
(101, 1) of width 3 and height 1. -/
def wideAtlas : FilePairImpl :=
  match FilePairImpl.load wideLib ['i'] ['w'] 2
      [⟨[65], 5, 1, 4294967292, 1, 1⟩, ⟨[66], 101, 1, 3, 1, 1⟩] with
  | Except.ok (Except.ok s) => s
  | _ => fullAtlas64

theorem uadd_eq_of_lt {a b : Nat} (h : a + b < ULONG_RANGE) : uadd a b = a + b := by
  unfold uadd; exact Nat.mod_eq_of_lt h

theorem usub_eq_of_le {a b : Nat} (h : b ≤ a) (ha : a < ULONG_RANGE) : usub a b = a - b := by
  unfold usub ULONG_RANGE at *
  omega

namespace FreeArea

theorem containedIn_iff {rect p : RECT} (hr : rect.InRange) (hp : p.InRange) :
    containedIn rect p = true ↔ rect.Inside p := by
  unfold containedIn RECT.Inside
  rw [uadd_eq_of_lt hr.1, uadd_eq_of_lt hr.2, uadd_eq_of_lt hp.1, uadd_eq_of_lt hp.2]
  simp only [Bool.and_eq_true, decide_eq_true_eq, ge_iff_le]
  tauto

theorem intersects_iff {rect p : RECT} (hr : rect.InRange) (hp : p.InRange) :
    intersects rect p = true ↔ p.w ≠ 0 ∧ rect.Overlaps p := by
  unfold intersects RECT.Overlaps
  rw [uadd_eq_of_lt hr.1, uadd_eq_of_lt hr.2, uadd_eq_of_lt hp.1, uadd_eq_of_lt hp.2]
  simp only [Bool.and_eq_true, decide_eq_true_eq, gt_iff_lt]
  tauto

theorem addRemainders_eq_foldl (rect r : RECT) (s : FreeArea) :
    addRemainders rect r s = (remainders rect r).foldl (fun t a => addRect a t) s := by
  unfold addRemainders remainders
  by_cases h1 : rect.x > r.x <;> by_cases h2 : rect.y > r.y <;>
  by_cases h3 : uadd rect.x rect.w < uadd r.x r.w <;>
  by_cases h4 : uadd rect.y rect.h < uadd r.y r.h <;>
  simp [h1, h2, h3, h4]

/-- No remainder passes the intersection test again, whatever the inputs. -/
theorem intersects_remainder {rect r a : RECT} (ha : a ∈ remainders rect r) :
    intersects rect a = false := by
  unfold remainders at ha
  simp only [List.mem_append] at ha
  rcases ha with ((ha | ha) | ha) | ha <;> split at ha <;>
    simp only [List.mem_singleton, List.not_mem_nil] at ha <;>
    subst ha <;>
    simp only [intersects, uadd, usub, ULONG_RANGE, Bool.and_eq_false_imp, Bool.and_eq_true,
      decide_eq_true_eq, decide_eq_false_iff_not] <;>
    omega

end FreeArea

namespace FreeArea

/-! ## `addRect` -/

theorem addRect_cases (rect : RECT) (s : FreeArea) :
    (s.Rects.any (containedIn rect) = true ∧ addRect rect s = s) ∨
    (s.Rects.any (containedIn rect) = false ∧ s.Recycled = [] ∧
      addRect rect s = ⟨s.Rects ++ [rect], []⟩) ∨
    (s.Rects.any (containedIn rect) = false ∧ ∃ top rest, s.Recycled = top :: rest ∧
      addRect rect s = ⟨s.Rects.set top rect, rest⟩) := by
  unfold addRect
  cases h : s.Rects.any (containedIn rect)
  · right
    cases hrec : s.Recycled with
    | nil => left; simp [hrec]
    | cons top rest => right; exact ⟨rfl, top, rest, rfl, by simp⟩
  · left; simp

theorem addRect_length_le (rect : RECT) (s : FreeArea) :
    (addRect rect s).Rects.length ≤ s.Rects.length + 1 := by
  rcases addRect_cases rect s with ⟨_, h⟩ | ⟨_, _, h⟩ | ⟨_, top, rest, _, h⟩ <;> rw [h] <;> simp

theorem le_addRect_length (rect : RECT) (s : FreeArea) :
    s.Rects.length ≤ (addRect rect s).Rects.length := by
  rcases addRect_cases rect s with ⟨_, h⟩ | ⟨_, _, h⟩ | ⟨_, top, rest, _, h⟩ <;> rw [h] <;> simp

theorem mem_addRect {rect p : RECT} {s : FreeArea} (h : p ∈ (addRect rect s).Rects) :
    p ∈ s.Rects ∨ p = rect := by
  rcases addRect_cases rect s with ⟨_, e⟩ | ⟨_, _, e⟩ | ⟨_, top, rest, _, e⟩ <;> rw [e] at h
  · exact Or.inl h
  · simpa using h
  · rcases List.mem_or_eq_of_mem_set h with h | h
    · exact Or.inl h
    · exact Or.inr h

theorem getElem?_addRect {rect p : RECT} {s : FreeArea} {j : Nat}
    (h : (addRect rect s).Rects[j]? = some p) : s.Rects[j]? = some p ∨ p = rect := by
  rcases addRect_cases rect s with ⟨_, e⟩ | ⟨_, _, e⟩ | ⟨_, top, rest, _, e⟩ <;> rw [e] at h
  · exact Or.inl h
  · simp only [List.getElem?_append] at h
    split at h
    · exact Or.inl h
    · right
      have := List.getElem?_mem h
      simpa using this
  · simp only [List.getElem?_set] at h
    split at h
    · split at h
      · right; simpa using h.symm
      · simp at h
    · exact Or.inl h

/-! ## Termination of `removeRect` -/

theorem countP_set_le {p : RECT → Bool} {a : RECT} (ha : p a = false) :
    ∀ (l : List RECT) (i : Nat), (l.set i a).countP p ≤ l.countP p := by
  intro l
  induction l with
  | nil => intro i; simp
  | cons b l ih =>
    intro i
    cases i with
    | zero =>
      simp only [List.set_cons_zero, List.countP_cons, ha]
      simp
    | succ i =>
      simp only [List.set_cons_succ, List.countP_cons]
      have := ih i
      omega

theorem countP_set_lt {p : RECT → Bool} {a b : RECT} (ha : p a = false) (hb : p b = true) :
    ∀ (l : List RECT) (i : Nat), l[i]? = some b → (l.set i a).countP p + 1 ≤ l.countP p := by
  intro l
  induction l with
  | nil => intro i h; simp at h
  | cons c l ih =>
    intro i h
    cases i with
    | zero =>
      simp only [List.getElem?_cons_zero, Option.some.injEq] at h
      subst h
      simp [List.countP_cons, ha, hb]
    | succ i =>
      simp only [List.getElem?_cons_succ] at h
      simp only [List.set_cons_succ, List.countP_cons]
      have := ih i h
      omega

theorem countP_addRect_le {rect a : RECT} (ha : intersects rect a = false) (s : FreeArea) :
    (addRect a s).Rects.countP (intersects rect) ≤ s.Rects.countP (intersects rect) := by
  rcases addRect_cases a s with ⟨_, e⟩ | ⟨_, _, e⟩ | ⟨_, top, rest, _, e⟩ <;> rw [e]
  · simp [List.countP_append, ha]
  · exact countP_set_le ha _ _

theorem foldl_addRect_length_le (l : List RECT) (s : FreeArea) :
    (l.foldl (fun t a => addRect a t) s).Rects.length ≤ s.Rects.length + l.length := by
  induction l generalizing s with
  | nil => simp
  | cons a l ih =>
    simp only [List.foldl_cons, List.length_cons]
    have h1 := ih (addRect a s)
    have h2 := addRect_length_le a s
    omega

theorem le_foldl_addRect_length (l : List RECT) (s : FreeArea) :
    s.Rects.length ≤ (l.foldl (fun t a => addRect a t) s).Rects.length := by
  induction l generalizing s with
  | nil => simp
  | cons a l ih =>
    simp only [List.foldl_cons]
    exact le_trans (le_addRect_length a s) (ih (addRect a s))

theorem countP_foldl_addRect_le {rect : RECT} (l : List RECT)
    (hl : ∀ a ∈ l, intersects rect a = false) (s : FreeArea) :
    (l.foldl (fun t a => addRect a t) s).Rects.countP (intersects rect) ≤
      s.Rects.countP (intersects rect) := by
  induction l generalizing s with
  | nil => simp
  | cons a l ih =>
    simp only [List.foldl_cons]
    have h1 := ih (fun b hb => hl b (List.mem_cons_of_mem _ hb)) (addRect a s)
    have h2 := countP_addRect_le (hl a (List.mem_cons_self _ _)) s
    omega

theorem remainders_length_le (rect r : RECT) : (remainders rect r).length ≤ 4 := by
  unfold remainders
  simp only [List.length_append]
  repeat' split
  all_goals simp

theorem splitSlot_length_le (rect : RECT) (i : Nat) (r : RECT) (s : FreeArea) :
    (splitSlot rect i r s).Rects.length ≤ s.Rects.length + 4 := by
  unfold splitSlot
  rw [addRemainders_eq_foldl]
  have h1 := foldl_addRect_length_le (remainders rect r)
    ⟨s.Rects.set i { r with w := 0 }, i :: s.Recycled⟩
  have h2 := remainders_length_le rect r
  simp only [List.length_set] at h1
  omega

theorem le_splitSlot_length (rect : RECT) (i : Nat) (r : RECT) (s : FreeArea) :
    s.Rects.length ≤ (splitSlot rect i r s).Rects.length := by
  unfold splitSlot
  rw [addRemainders_eq_foldl]
  have h1 := le_foldl_addRect_length (remainders rect r)
    ⟨s.Rects.set i { r with w := 0 }, i :: s.Recycled⟩
  simpa using h1

theorem splitSlot_countP_lt {rect r : RECT} {i : Nat} {s : FreeArea}
    (hi : s.Rects[i]? = some r) (hr : intersects rect r = true) :
    (splitSlot rect i r s).Rects.countP (intersects rect) + 1 ≤
      s.Rects.countP (intersects rect) := by
  unfold splitSlot
  rw [addRemainders_eq_foldl]
  have h1 := countP_foldl_addRect_le (remainders rect r)
    (fun a ha => intersects_remainder ha) ⟨s.Rects.set i { r with w := 0 }, i :: s.Recycled⟩
  have h0 : intersects rect { r with w := 0 } = false := by simp [intersects]
  have h2 := countP_set_lt h0 hr s.Rects i hi
  simp only at h1
  omega

theorem removeRectLoop_terminates (rect : RECT) :
    ∀ (fuel i : Nat) (c : Bool) (s : FreeArea),
      4 * s.Rects.countP (intersects rect) + (s.Rects.length - i) ≤ fuel →
      ∃ res, removeRectLoop rect fuel i c s = some res := by
  intro fuel
  induction fuel with
  | zero =>
    intro i c s h
    unfold removeRectLoop
    have hlen : s.Rects.length ≤ i := by omega
    rw [List.getElem?_eq_none hlen]
    exact ⟨_, rfl⟩
  | succ fuel ih =>
    intro i c s h
    unfold removeRectLoop
    cases hi : s.Rects[i]? with
    | none => exact ⟨_, rfl⟩
    | some r =>
      have hlt : i < s.Rects.length := by
        by_contra hge
        rw [List.getElem?_eq_none (by omega)] at hi
        cases hi
      simp only
      split
      · rename_i hr
        apply ih
        have h1 := splitSlot_countP_lt hi hr
        have h2 := splitSlot_length_le rect i r s
        omega
      · apply ih
        omega

/-- The loop of `removeRect` always ends within the fuel `removeRect` gives it. -/
theorem removeRect_terminates (rect : RECT) (s : FreeArea) :
    ∃ res, removeRect rect s = some res := by
  unfold removeRect
  apply removeRectLoop_terminates
  have := List.countP_le_length (intersects rect) (l := s.Rects)
  omega

end FreeArea

namespace FreeArea

/-! ## The remainders in exact arithmetic -/

theorem remainder_inside {rect r a : RECT} (hrect : rect.InRange) (hr : r.InRange)
    (hint : intersects rect r = true) (ha : a ∈ remainders rect r) :
    a.Inside r ∧ a.w ≠ 0 := by
  rw [intersects_iff hrect hr] at hint
  unfold remainders at ha
  unfold RECT.InRange at hrect hr
  unfold RECT.Overlaps at hint
  simp only [List.mem_append] at ha
  rcases ha with ((ha | ha) | ha) | ha <;> split at ha <;>
    simp only [List.mem_singleton, List.not_mem_nil] at ha <;>
    subst ha <;>
    simp only [RECT.Inside, uadd, usub, ULONG_RANGE] at * <;>
    omega

theorem remainder_cover {rect r : RECT} (hrect : rect.InRange) (hr : r.InRange)
    {px py : Nat} (hp : r.HasPixel px py) (hn : ¬ rect.HasPixel px py) :
    ∃ a ∈ remainders rect r, a.HasPixel px py := by
  unfold RECT.InRange at hrect hr
  unfold RECT.HasPixel at hp hn
  by_cases h1 : px < rect.x
  · refine ⟨⟨r.x, r.y, usub rect.x r.x, r.h⟩, ?_, ?_⟩
    · unfold remainders
      have : rect.x > r.x := by omega
      simp [this]
    · simp only [RECT.HasPixel, usub, ULONG_RANGE] at *
      omega
  by_cases h2 : py < rect.y
  · refine ⟨⟨r.x, r.y, r.w, usub rect.y r.y⟩, ?_, ?_⟩
    · unfold remainders
      have : rect.y > r.y := by omega
      simp [this]
    · simp only [RECT.HasPixel, usub, ULONG_RANGE] at *
      omega
  by_cases h3 : rect.x + rect.w ≤ px
  · refine ⟨⟨uadd rect.x rect.w, r.y, usub (uadd r.x r.w) (uadd rect.x rect.w), r.h⟩, ?_, ?_⟩
    · unfold remainders
      have : uadd rect.x rect.w < uadd r.x r.w := by
        simp only [uadd, ULONG_RANGE] at *
        omega
      simp [this]
    · simp only [RECT.HasPixel, uadd, usub, ULONG_RANGE] at *
      omega
  · refine ⟨⟨r.x, uadd rect.y rect.h, r.w, usub (uadd r.y r.h) (uadd rect.y rect.h)⟩, ?_, ?_⟩
    · unfold remainders
      have : uadd rect.y rect.h < uadd r.y r.h := by
        simp only [uadd, ULONG_RANGE] at *
        omega
      simp [this]
    · simp only [RECT.HasPixel, uadd, usub, ULONG_RANGE] at *
      omega

theorem RECT_inside_inRange {a b : RECT} (h : a.Inside b) (hb : b.InRange) : a.InRange := by
  unfold RECT.Inside at h
  unfold RECT.InRange at *
  omega

theorem RECT_inside_trans {a b c : RECT} (h1 : a.Inside b) (h2 : b.Inside c) : a.Inside c := by
  unfold RECT.Inside at *
  omega

theorem RECT_inside_refl (a : RECT) : a.Inside a := by
  unfold RECT.Inside
  omega

theorem RECT_hasPixel_of_inside {a b : RECT} (h : a.Inside b) {px py : Nat}
    (hp : a.HasPixel px py) : b.HasPixel px py := by
  unfold RECT.Inside at h
  unfold RECT.HasPixel at *
  omega

/-- A rule for the four remainder insertions: what holds before and is kept by
adding any one remainder holds afterwards. -/
theorem addRemainders_induct (rect r : RECT) (Q : FreeArea → Prop) (s : FreeArea) (h0 : Q s)
    (hstep : ∀ a ∈ remainders rect r, ∀ t, Q t → Q (addRect a t)) :
    Q (addRemainders rect r s) := by
  rw [addRemainders_eq_foldl]
  generalize remainders rect r = l at hstep
  induction l generalizing s with
  | nil => simpa using h0
  | cons a l ih =>
    simp only [List.foldl_cons]
    apply ih
    · exact hstep a (List.mem_cons_self _ _) s h0
    · intro b hb t ht
      exact hstep b (List.mem_cons_of_mem _ hb) t ht

/-- A rule for the loop of `removeRect`: a property that holds on entry and is
kept by both branches of the loop body holds when the loop ends. -/
theorem removeRectLoop_invariant (rect : RECT) (P : Nat → Bool → FreeArea → Prop)
    (hhit : ∀ i c s r, P i c s → s.Rects[i]? = some r → intersects rect r = true →
      P (i + 1) (c || containedIn rect r) (splitSlot rect i r s))
    (hmiss : ∀ i c s r, P i c s → s.Rects[i]? = some r → intersects rect r = false →
      P (i + 1) c s) :
    ∀ (fuel i : Nat) (c : Bool) (s : FreeArea) (b : Bool) (t : FreeArea),
      P i c s → removeRectLoop rect fuel i c s = some (b, t) →
      ∃ n, t.Rects.length ≤ n ∧ P n b t := by
  intro fuel
  induction fuel with
  | zero =>
    intro i c s b t hP h
    unfold removeRectLoop at h
    cases hi : s.Rects[i]? with
    | none =>
      rw [hi] at h
      simp only [Option.some.injEq, Prod.mk.injEq] at h
      obtain ⟨rfl, rfl⟩ := h
      exact ⟨i, by simpa using hi, hP⟩
    | some r => rw [hi] at h; simp at h
  | succ fuel ih =>
    intro i c s b t hP h
    unfold removeRectLoop at h
    cases hi : s.Rects[i]? with
    | none =>
      rw [hi] at h
      simp only [Option.some.injEq, Prod.mk.injEq] at h
      obtain ⟨rfl, rfl⟩ := h
      exact ⟨i, by simpa using hi, hP⟩
    | some r =>
      rw [hi] at h
      simp only at h
      split at h
      · rename_i hr
        exact ih _ _ _ _ _ (hhit i c s r hP hi hr) h
      · rename_i hr
        exact ih _ _ _ _ _ (hmiss i c s r hP hi (by simpa using hr)) h

end FreeArea

namespace FreeArea

theorem intersects_emptied (rect r : RECT) : intersects rect { r with w := 0 } = false := by
  simp [intersects]

theorem emptied_inside (r : RECT) : RECT.Inside { r with w := 0 } r := by
  simp [RECT.Inside]

theorem loopInv_init (rect : RECT) (s0 : FreeArea) : LoopInv rect s0 0 false s0 := by
  refine ⟨⟨fun p hp => ⟨p, hp, RECT_inside_refl p⟩, ?_, ?_⟩, ?_⟩
  · intro j p hj; omega
  · intro j p h; exact Or.inr h
  · intro h; cases h

theorem loopInv_miss {rect : RECT} {s0 : FreeArea} {i : Nat} {c : Bool} {s : FreeArea}
    {r : RECT} (hP : LoopInv rect s0 i c s) (hi : s.Rects[i]? = some r)
    (hr : intersects rect r = false) : LoopInv rect s0 (i + 1) c s := by
  obtain ⟨⟨h1, h2, h3⟩, h4⟩ := hP
  refine ⟨⟨h1, ?_, h3⟩, h4⟩
  intro j p hj hp
  rcases Nat.lt_succ_iff_lt_or_eq.mp hj with hlt | rfl
  · exact h2 j p hlt hp
  · rw [hi] at hp
    cases hp
    exact hr

theorem slotInv_splitSlot {rect : RECT} {s0 : FreeArea} (hrect : rect.InRange)
    (hs0 : s0.InRange) {i : Nat} {s : FreeArea} {r : RECT} (hP : SlotInv rect s0 i s)
    (hi : s.Rects[i]? = some r) (hr : intersects rect r = true) :
    SlotInv rect s0 (i + 1) (splitSlot rect i r s) := by
  obtain ⟨h1, h2, h3⟩ := hP
  have hrmem : r ∈ s.Rects := List.getElem?_mem hi
  obtain ⟨q, hq, hrq⟩ := h1 r hrmem
  have hrR : r.InRange := RECT_inside_inRange hrq (hs0 q hq)
  unfold splitSlot
  refine addRemainders_induct rect r (SlotInv rect s0 (i + 1)) _ ?_ ?_
  · refine ⟨?_, ?_, ?_⟩
    · intro p hp
      rcases List.mem_or_eq_of_mem_set hp with hp | rfl
      · exact h1 p hp
      · exact ⟨q, hq, RECT_inside_trans (emptied_inside r) hrq⟩
    · intro j p hj hp
      simp only [List.getElem?_set] at hp
      split at hp
      · split at hp
        · cases hp; exact intersects_emptied rect r
        · cases hp
      · exact h2 j p (by omega) hp
    · intro j p hp
      simp only [List.getElem?_set] at hp
      split at hp
      · split at hp
        · cases hp; exact Or.inl (intersects_emptied rect r)
        · cases hp
      · exact h3 j p hp
  · intro a ha t ⟨k1, k2, k3⟩
    have hins := remainder_inside hrect hrR hr ha
    refine ⟨?_, ?_, ?_⟩
    · intro p hp
      rcases mem_addRect hp with hp | rfl
      · exact k1 p hp
      · exact ⟨q, hq, RECT_inside_trans hins.1 hrq⟩
    · intro j p hj hp
      rcases getElem?_addRect hp with hp | rfl
      · exact k2 j p hj hp
      · exact intersects_remainder ha
    · intro j p hp
      rcases getElem?_addRect hp with hp | rfl
      · exact k3 j p hp
      · exact Or.inl (intersects_remainder ha)

theorem loopInv_hit {rect : RECT} {s0 : FreeArea} (hrect : rect.InRange) (hs0 : s0.InRange)
    {i : Nat} {c : Bool} {s : FreeArea} {r : RECT} (hP : LoopInv rect s0 i c s)
    (hi : s.Rects[i]? = some r) (hr : intersects rect r = true) :
    LoopInv rect s0 (i + 1) (c || containedIn rect r) (splitSlot rect i r s) := by
  refine ⟨slotInv_splitSlot hrect hs0 hP.1 hi hr, ?_⟩
  obtain ⟨⟨h1, _, _⟩, h4⟩ := hP
  obtain ⟨q, hq, hrq⟩ := h1 r (List.getElem?_mem hi)
  have hrR : r.InRange := RECT_inside_inRange hrq (hs0 q hq)
  intro hc
  simp only [Bool.or_eq_true] at hc
  rcases hc with hc | hc
  · exact h4 hc
  · exact ⟨q, hq, RECT_inside_trans ((containedIn_iff hrect hrR).mp hc) hrq⟩

/-- What `removeRect` guarantees for every in-range input: it returns, every
slot of the result lies inside a slot of the input and fails the intersection
test with `rect`, and a `true` result means a slot of the input contained
`rect`. -/
theorem removeRect_sound {rect : RECT} {s : FreeArea} (hrect : rect.InRange) (hs : s.InRange) :
    ∃ b t, removeRect rect s = some (b, t) ∧
      (∀ p ∈ t.Rects, ∃ q ∈ s.Rects, p.Inside q) ∧
      (∀ p ∈ t.Rects, intersects rect p = false) ∧
      (b = true → ∃ q ∈ s.Rects, rect.Inside q) := by
  obtain ⟨⟨b, t⟩, hres⟩ := removeRect_terminates rect s
  refine ⟨b, t, hres, ?_⟩
  unfold removeRect at hres
  obtain ⟨n, hn, ⟨h1, h2, _⟩, h4⟩ := removeRectLoop_invariant rect (LoopInv rect s)
    (fun i c u r hP hi hr => loopInv_hit hrect hs hP hi hr)
    (fun i c u r hP hi hr => loopInv_miss hP hi hr)
    _ _ _ _ _ _ (loopInv_init rect s) hres
  refine ⟨h1, ?_, h4⟩
  intro p hp
  obtain ⟨j, hj⟩ := List.mem_iff_getElem?.mp hp
  have hlt : j < t.Rects.length := by
    by_contra hge
    rw [List.getElem?_eq_none (by omega)] at hj
    cases hj
  exact h2 j p (by omega) hj

end FreeArea

namespace FreeArea

/-! ## The recycle pool -/

theorem poolOK_empty : PoolOK empty := by
  refine ⟨List.nodup_nil, ?_⟩
  intro k hk
  cases hk

theorem poolOK_addRect {a : RECT} {t : FreeArea} (h : PoolOK t) : PoolOK (addRect a t) := by
  rcases addRect_cases a t with ⟨_, e⟩ | ⟨_, _, e⟩ | ⟨_, top, rest, hrec, e⟩ <;> rw [e]
  · exact h
  · refine ⟨List.nodup_nil, ?_⟩
    intro k hk
    cases hk
  · obtain ⟨hnd, hslots⟩ := h
    rw [hrec] at hnd hslots
    have hnotin : top ∉ rest := (List.nodup_cons.mp hnd).1
    refine ⟨(List.nodup_cons.mp hnd).2, ?_⟩
    intro k hk
    obtain ⟨p, hp, hw⟩ := hslots k (List.mem_cons_of_mem _ hk)
    refine ⟨p, ?_, hw⟩
    have hne : top ≠ k := fun e => hnotin (e ▸ hk)
    simp only [List.getElem?_set, hne, if_false]
    exact hp

theorem poolOK_emptied {s : FreeArea} {i : Nat} {r : RECT} (h : PoolOK s)
    (hi : s.Rects[i]? = some r) (hw : r.w ≠ 0) :
    PoolOK ⟨s.Rects.set i { r with w := 0 }, i :: s.Recycled⟩ := by
  obtain ⟨hnd, hslots⟩ := h
  have hnotin : i ∉ s.Recycled := by
    intro hmem
    obtain ⟨p, hp, hpw⟩ := hslots i hmem
    rw [hi] at hp
    cases hp
    exact hw hpw
  have hlt : i < s.Rects.length := by
    by_contra hge
    rw [List.getElem?_eq_none (by omega)] at hi
    cases hi
  refine ⟨List.nodup_cons.mpr ⟨hnotin, hnd⟩, ?_⟩
  intro k hk
  rcases List.mem_cons.mp hk with rfl | hk
  · exact ⟨{ r with w := 0 }, by simp [List.getElem?_set, hlt], rfl⟩
  · obtain ⟨p, hp, hpw⟩ := hslots k hk
    refine ⟨p, ?_, hpw⟩
    have hne : i ≠ k := fun e => hnotin (e ▸ hk)
    simp only [List.getElem?_set, hne, if_false]
    exact hp

theorem intersects_w_ne_zero {rect r : RECT} (h : intersects rect r = true) : r.w ≠ 0 := by
  unfold intersects at h
  simp only [Bool.and_eq_true, decide_eq_true_eq] at h
  exact h.1.1.1.1

theorem poolOK_splitSlot {rect : RECT} {s : FreeArea} {i : Nat} {r : RECT} (h : PoolOK s)
    (hi : s.Rects[i]? = some r) (hr : intersects rect r = true) :
    PoolOK (splitSlot rect i r s) := by
  unfold splitSlot
  refine addRemainders_induct rect r PoolOK _ (poolOK_emptied h hi (intersects_w_ne_zero hr)) ?_
  intro a _ t ht
  exact poolOK_addRect ht

/-- The recycle pool stays consistent through `removeRect`, whatever the
rectangle. -/
theorem poolOK_removeRect {rect : RECT} {s : FreeArea} (h : PoolOK s) {b : Bool}
    {t : FreeArea} (hres : removeRect rect s = some (b, t)) : PoolOK t := by
  unfold removeRect at hres
  obtain ⟨n, _, hn⟩ := removeRectLoop_invariant rect (fun _ _ u => PoolOK u)
    (fun i c u r hP hi hr => poolOK_splitSlot hP hi hr)
    (fun i c u r hP hi hr => hP)
    _ _ _ _ _ _ h hres
  exact hn

theorem getElem?_addRect_of_live {a q : RECT} {t : FreeArea} {j : Nat} (h : PoolOK t)
    (hj : t.Rects[j]? = some q) (hq : q.w ≠ 0) : (addRect a t).Rects[j]? = some q := by
  rcases addRect_cases a t with ⟨_, e⟩ | ⟨_, _, e⟩ | ⟨_, top, rest, hrec, e⟩ <;> rw [e]
  · exact hj
  · have hlt : j < t.Rects.length := by
      by_contra hge
      rw [List.getElem?_eq_none (by omega)] at hj
      cases hj
    simp only [List.getElem?_append, hlt, if_true]
    exact hj
  · obtain ⟨p, hp, hpw⟩ := h.2 top (by rw [hrec]; exact List.mem_cons_self _ _)
    have hne : top ≠ j := by
      rintro rfl
      rw [hj] at hp
      cases hp
      exact hq hpw
    simp only [List.getElem?_set, hne, if_false]
    exact hj

theorem inRange_addRect {a : RECT} {t : FreeArea} (ha : a.InRange) (ht : t.InRange) :
    (addRect a t).InRange := by
  intro p hp
  rcases mem_addRect hp with hp | rfl
  · exact ht p hp
  · exact ha

theorem covered_addRect_self {a : RECT} {t : FreeArea} (h : PoolOK t) (ha : a.InRange)
    (ht : t.InRange) {px py : Nat} (hp : a.HasPixel px py) : Covered (addRect a t) px py := by
  rcases addRect_cases a t with ⟨hc, e⟩ | ⟨_, _, e⟩ | ⟨_, top, rest, hrec, e⟩ <;> rw [e]
  · obtain ⟨p, hpm, hpc⟩ := List.any_eq_true.mp hc
    exact ⟨p, hpm, RECT_hasPixel_of_inside ((containedIn_iff ha (ht p hpm)).mp hpc) hp⟩
  · exact ⟨a, by simp, hp⟩
  · obtain ⟨p, hpt, _⟩ := h.2 top (by rw [hrec]; exact List.mem_cons_self _ _)
    have hlt : top < t.Rects.length := by
      by_contra hge
      rw [List.getElem?_eq_none (by omega)] at hpt
      cases hpt
    exact ⟨a, List.mem_iff_getElem?.mpr ⟨top, by simp [List.getElem?_set, hlt]⟩, hp⟩

theorem foldl_addRect_pool (l : List RECT) :
    ∀ (t : FreeArea), PoolOK t → t.InRange → (∀ a ∈ l, a.InRange) →
      PoolOK (l.foldl (fun u a => addRect a u) t) ∧
      (l.foldl (fun u a => addRect a u) t).InRange ∧
      (∀ (j : Nat) (q : RECT), t.Rects[j]? = some q → q.w ≠ 0 →
        (l.foldl (fun u a => addRect a u) t).Rects[j]? = some q) ∧
      (∀ a ∈ l, ∀ px py, a.HasPixel px py →
        Covered (l.foldl (fun u a => addRect a u) t) px py) := by
  induction l with
  | nil =>
    intro t hp hr _
    refine ⟨hp, hr, fun j q hj _ => hj, ?_⟩
    intro a ha
    cases ha
  | cons a l ih =>
    intro t hp hr hl
    have ha : a.InRange := hl a (List.mem_cons_self _ _)
    obtain ⟨k1, k2, k3, k4⟩ := ih (addRect a t) (poolOK_addRect hp) (inRange_addRect ha hr)
      (fun b hb => hl b (List.mem_cons_of_mem _ hb))
    simp only [List.foldl_cons]
    refine ⟨k1, k2, ?_, ?_⟩
    · intro j q hj hq
      exact k3 j q (getElem?_addRect_of_live hp hj hq) hq
    · intro b hb px py hpix
      rcases List.mem_cons.mp hb with rfl | hb
      · obtain ⟨p, hpm, hpp⟩ := covered_addRect_self hp ha hr hpix
        obtain ⟨j, hj⟩ := List.mem_iff_getElem?.mp hpm
        have hpw : p.w ≠ 0 := by
          unfold RECT.HasPixel at hpp
          omega
        exact ⟨p, List.getElem?_mem (k3 j p hj hpw), hpp⟩
      · exact k4 b hb px py hpix

end FreeArea

namespace FreeArea

theorem inside_intersects {rect q : RECT} (hrect : rect.InRange) (hq : q.InRange)
    (hw : 0 < rect.w) (hh : 0 < rect.h) (h : rect.Inside q) :
    intersects rect q = true ∧ q.w ≠ 0 := by
  rw [intersects_iff hrect hq]
  unfold RECT.Inside at h
  unfold RECT.Overlaps
  refine ⟨⟨?_, ?_⟩, ?_⟩ <;> omega

theorem inRange_of_slotInv {rect : RECT} {s0 s : FreeArea} {i : Nat} (hs0 : s0.InRange)
    (h : SlotInv rect s0 i s) : s.InRange := by
  intro p hp
  obtain ⟨q, hq, hpq⟩ := h.1 p hp
  exact RECT_inside_inRange hpq (hs0 q hq)

theorem fullInv_init {rect : RECT} {s0 : FreeArea} (hpool : PoolOK s0) :
    FullInv rect s0 0 false s0 := by
  refine ⟨loopInv_init rect s0, ⟨hpool, fun j q _ hj _ => hj, fun px py h _ => h⟩, ?_⟩
  intro _ _ j q hj
  omega

theorem fullInv_miss {rect : RECT} {s0 : FreeArea} (hrect : rect.InRange) (hs0 : s0.InRange)
    {i : Nat} {c : Bool} {s : FreeArea} {r : RECT} (hP : FullInv rect s0 i c s)
    (hi : s.Rects[i]? = some r) (hr : intersects rect r = false) :
    FullInv rect s0 (i + 1) c s := by
  obtain ⟨hL, ⟨hp1, hp2, hp3⟩, hC⟩ := hP
  refine ⟨loopInv_miss hL hi hr, ⟨hp1, fun j q hj => hp2 j q (by omega), hp3⟩, ?_⟩
  intro hw hh j q hj hq hins
  rcases Nat.lt_succ_iff_lt_or_eq.mp hj with hlt | rfl
  · exact hC hw hh j q hlt hq hins
  · exfalso
    have hqR : q.InRange := hs0 q (List.getElem?_mem hq)
    obtain ⟨hint, hqw⟩ := inside_intersects hrect hqR hw hh hins
    have := hp2 j q (le_refl _) hq hqw
    rw [hi] at this
    cases this
    rw [hint] at hr
    cases hr

theorem fullInv_hit {rect : RECT} {s0 : FreeArea} (hrect : rect.InRange) (hs0 : s0.InRange)
    {i : Nat} {c : Bool} {s : FreeArea} {r : RECT} (hP : FullInv rect s0 i c s)
    (hi : s.Rects[i]? = some r) (hr : intersects rect r = true) :
    FullInv rect s0 (i + 1) (c || containedIn rect r) (splitSlot rect i r s) := by
  obtain ⟨hL, ⟨hp1, hp2, hp3⟩, hC⟩ := hP
  have hsR : s.InRange := inRange_of_slotInv hs0 hL.1
  have hrR : r.InRange := hsR r (List.getElem?_mem hi)
  have hlt : i < s.Rects.length := by
    by_contra hge
    rw [List.getElem?_eq_none (by omega)] at hi
    cases hi
  have h1R : FreeArea.InRange ⟨s.Rects.set i { r with w := 0 }, i :: s.Recycled⟩ := by
    intro p hp
    rcases List.mem_or_eq_of_mem_set hp with hp | rfl
    · exact hsR p hp
    · exact RECT_inside_inRange (emptied_inside r) hrR
  obtain ⟨k1, _, k3, k4⟩ := foldl_addRect_pool (remainders rect r) _
    (poolOK_emptied hp1 hi (intersects_w_ne_zero hr)) h1R
    (fun a ha => RECT_inside_inRange (remainder_inside hrect hrR hr ha).1 hrR)
  rw [← addRemainders_eq_foldl] at k1 k3 k4
  have keep : ∀ (j : Nat) (q : RECT), j ≠ i → s.Rects[j]? = some q → q.w ≠ 0 →
      (splitSlot rect i r s).Rects[j]? = some q := by
    intro j q hne hj hq
    apply k3 j q _ hq
    have hne2 : i ≠ j := fun e => hne e.symm
    simp only [List.getElem?_set, hne2, if_false]
    exact hj
  refine ⟨loopInv_hit hrect hs0 hL hi hr, ⟨k1, ?_, ?_⟩, ?_⟩
  · intro j q hj hq hqw
    exact keep j q (by omega) (hp2 j q (by omega) hq hqw) hqw
  · intro px py hcov hn
    obtain ⟨p, hpm, hpp⟩ := hp3 px py hcov hn
    obtain ⟨j, hj⟩ := List.mem_iff_getElem?.mp hpm
    have hpw : p.w ≠ 0 := by
      unfold RECT.HasPixel at hpp
      omega
    by_cases hji : j = i
    · subst hji
      rw [hi] at hj
      cases hj
      obtain ⟨a, ha, hap⟩ := remainder_cover hrect hrR hpp hn
      exact k4 a ha px py hap
    · exact ⟨p, List.getElem?_mem (keep j p hji hj hpw), hpp⟩
  · intro hw hh j q hj hq hins
    rcases Nat.lt_succ_iff_lt_or_eq.mp hj with hlt2 | rfl
    · simp [hC hw hh j q hlt2 hq hins]
    · have hqR : q.InRange := hs0 q (List.getElem?_mem hq)
      obtain ⟨_, hqw⟩ := inside_intersects hrect hqR hw hh hins
      have := hp2 j q (le_refl _) hq hqw
      rw [hi] at this
      cases this
      simp [(containedIn_iff hrect hrR).mpr hins]

/-- The result of `removeRect` on an in-range state with a consistent pool. -/
theorem removeRect_full {rect : RECT} {s : FreeArea} (hrect : rect.InRange) (hs : s.InRange)
    (hpool : PoolOK s) :
    ∃ b t n, removeRect rect s = some (b, t) ∧ t.Rects.length ≤ n ∧ FullInv rect s n b t := by
  obtain ⟨⟨b, t⟩, hres⟩ := removeRect_terminates rect s
  refine ⟨b, t, ?_⟩
  have hres2 := hres
  unfold removeRect at hres2
  obtain ⟨n, hn, hF⟩ := removeRectLoop_invariant rect (FullInv rect s)
    (fun i c u r hP hi hr => fullInv_hit hrect hs hP hi hr)
    (fun i c u r hP hi hr => fullInv_miss hrect hs hP hi hr)
    _ _ _ _ _ _ (fullInv_init hpool) hres2
  exact ⟨n, hres, hn, hF⟩

end FreeArea

namespace FreeArea

theorem ofInt_natCast {n : Nat} (h : n < ULONG_RANGE) : ofInt (n : Int) = n := by
  unfold ofInt
  have : ((n : Int) % (ULONG_RANGE : Int)) = ((n % ULONG_RANGE : Nat) : Int) := by
    simp
  rw [this, Nat.mod_eq_of_lt h]
  simp

theorem addUsedArea_natCast {rect : RECT} (h : rect.InRange) (s : FreeArea) :
    addUsedArea rect.x rect.y rect.w rect.h s = removeRect rect s := by
  unfold addUsedArea
  unfold RECT.InRange at h
  rw [ofInt_natCast (by omega), ofInt_natCast (by omega), ofInt_natCast (by omega),
    ofInt_natCast (by omega)]

theorem addFreeArea_natCast {rect : RECT} (h : rect.InRange) (s : FreeArea) :
    addFreeArea rect.x rect.y rect.w rect.h s = addRect rect s := by
  unfold addFreeArea
  unfold RECT.InRange at h
  rw [ofInt_natCast (by omega), ofInt_natCast (by omega), ofInt_natCast (by omega),
    ofInt_natCast (by omega)]

theorem find?_first {f : RECT → Bool} :
    ∀ (l : List RECT) (k : Nat) (p : RECT), l[k]? = some p → f p = true →
      (∀ (j : Nat) (q : RECT), j < k → l[j]? = some q → f q = false) →
      l.find? f = some p := by
  intro l
  induction l with
  | nil => intro k p h; simp at h
  | cons a l ih =>
    intro k p hk hp hfirst
    cases k with
    | zero =>
      simp only [List.getElem?_cons_zero, Option.some.injEq] at hk
      subst hk
      simp [List.find?_cons, hp]
    | succ k =>
      have ha : f a = false := hfirst 0 a (by omega) (by simp)
      simp only [List.find?_cons, ha]
      apply ih k p
      · simpa using hk
      · exact hp
      · intro j q hj hq
        exact hfirst (j + 1) q (by omega) (by simpa using hq)

end FreeArea

/-! ## The free set: allocation, marking used, marking free -/

/-- C2: for every free-set state and every request `(w, h)` with `w ≥ 1` and
`h ≥ 1`, if slot `k` holds a rectangle at least `w` wide and `h` high and no
earlier slot does, `getFreeArea` returns `true` and writes back
`(x, y, w, h)` with `(x, y)` the origin of slot `k`, the state being the one
`removeRect` of that rectangle leaves; if no slot is large enough it returns
`false` and leaves the request and the free set as they were. -/
theorem getFreeArea_first_fit (s : FreeArea) (x0 y0 w h : Nat) (hw : 1 ≤ w) (hh : 1 ≤ h) :
    (∀ (k : Nat) (p : RECT), s.Rects[k]? = some p → w ≤ p.w → h ≤ p.h →
      (∀ (j : Nat) (q : RECT), j < k → s.Rects[j]? = some q → ¬ (w ≤ q.w ∧ h ≤ q.h)) →
      ∃ b t, FreeArea.removeRect ⟨p.x, p.y, w, h⟩ s = some (b, t) ∧
        FreeArea.getFreeArea ⟨x0, y0, w, h⟩ s = some (true, ⟨p.x, p.y, w, h⟩, t)) ∧
    ((∀ p ∈ s.Rects, ¬ (w ≤ p.w ∧ h ≤ p.h)) →
      FreeArea.getFreeArea ⟨x0, y0, w, h⟩ s = some (false, ⟨x0, y0, w, h⟩, s)) := by
  have _ := hw
  have _ := hh
  constructor
  · intro k p hk hpw hph hfirst
    obtain ⟨⟨b, t⟩, hres⟩ := FreeArea.removeRect_terminates ⟨p.x, p.y, w, h⟩ s
    refine ⟨b, t, hres, ?_⟩
    unfold FreeArea.getFreeArea
    have hfind : s.Rects.find? (fun p => decide (p.w ≥ w) && decide (p.h ≥ h)) = some p := by
      apply FreeArea.find?_first s.Rects k p hk
      · simp [hpw, hph]
      · intro j q hj hq
        have := hfirst j q hj hq
        simp only [ge_iff_le, Bool.and_eq_false_imp, decide_eq_true_eq, decide_eq_false_iff_not]
        intro h1 h2
        exact this ⟨h1, h2⟩
    simp only [hfind, hres, Option.map_some']
  · intro hnone
    unfold FreeArea.getFreeArea
    have hfind : s.Rects.find? (fun p => decide (p.w ≥ w) && decide (p.h ≥ h)) = none := by
      rw [List.find?_eq_none]
      intro p hp
      have := hnone p hp
      simp only [ge_iff_le, Bool.and_eq_true, decide_eq_true_eq]
      exact this
    simp only [hfind]

/-- Witness of C2 on the free set `[(0,0,50,50), (60,0,100,100)]` and the
request `(90, 90)`. -/
theorem getFreeArea_first_fit_witness :
    (∀ (k : Nat) (p : RECT),
      (⟨[⟨0, 0, 50, 50⟩, ⟨60, 0, 100, 100⟩], []⟩ : FreeArea).Rects[k]? = some p →
      90 ≤ p.w → 90 ≤ p.h →
      (∀ (j : Nat) (q : RECT), j < k →
        (⟨[⟨0, 0, 50, 50⟩, ⟨60, 0, 100, 100⟩], []⟩ : FreeArea).Rects[j]? = some q →
        ¬ (90 ≤ q.w ∧ 90 ≤ q.h)) →
      ∃ b t, FreeArea.removeRect ⟨p.x, p.y, 90, 90⟩
          ⟨[⟨0, 0, 50, 50⟩, ⟨60, 0, 100, 100⟩], []⟩ = some (b, t) ∧
        FreeArea.getFreeArea ⟨0, 0, 90, 90⟩ ⟨[⟨0, 0, 50, 50⟩, ⟨60, 0, 100, 100⟩], []⟩ =
          some (true, ⟨p.x, p.y, 90, 90⟩, t)) ∧
    ((∀ p ∈ (⟨[⟨0, 0, 50, 50⟩, ⟨60, 0, 100, 100⟩], []⟩ : FreeArea).Rects,
        ¬ (90 ≤ p.w ∧ 90 ≤ p.h)) →
      FreeArea.getFreeArea ⟨0, 0, 90, 90⟩ ⟨[⟨0, 0, 50, 50⟩, ⟨60, 0, 100, 100⟩], []⟩ =
        some (false, ⟨0, 0, 90, 90⟩, ⟨[⟨0, 0, 50, 50⟩, ⟨60, 0, 100, 100⟩], []⟩)) :=
  getFreeArea_first_fit ⟨[⟨0, 0, 50, 50⟩, ⟨60, 0, 100, 100⟩], []⟩ 0 0 90 90
    (by decide) (by decide)

/-- The return value of `removeRect` where no sum wraps:
for every in-range free-set state with a consistent recycle pool and
every in-range rectangle `rect` of positive width and height, `removeRect`
(and `addUsedArea` with the same four values) returns, and returns `true`
if and only if some single slot of the state before the call contains
`rect`. -/
theorem removeRect_true_iff (s : FreeArea) (rect : RECT) (hs : s.InRange)
    (hpool : s.PoolOK) (hrect : rect.InRange) (hw : 0 < rect.w) (hh : 0 < rect.h) :
    ∃ b t, FreeArea.removeRect rect s = some (b, t) ∧
      FreeArea.addUsedArea rect.x rect.y rect.w rect.h s = some (b, t) ∧
      (b = true ↔ ∃ q ∈ s.Rects, rect.Inside q) := by
  obtain ⟨b, t, n, hres, hn, ⟨⟨_, h4⟩, ⟨_, hkeep, _⟩, hC⟩⟩ :=
    FreeArea.removeRect_full hrect hs hpool
  refine ⟨b, t, hres, by rw [FreeArea.addUsedArea_natCast hrect, hres], h4, ?_⟩
  rintro ⟨q, hq, hins⟩
  obtain ⟨j, hj⟩ := List.mem_iff_getElem?.mp hq
  obtain ⟨_, hqw⟩ := FreeArea.inside_intersects hrect (hs q hq) hw hh hins
  have hjn : j < n := by
    by_contra hge
    have := hkeep j q (by omega) hj hqw
    rw [List.getElem?_eq_none (by omega)] at this
    cases this
  exact hC hw hh j q hjn hj hins

/-- Example of `removeRect_true_iff`: a rectangle inside the single free rectangle of a fresh
64 x 64 free set. -/
theorem removeRect_true_iff_witness :
    ∃ b t, FreeArea.removeRect ⟨1, 1, 10, 10⟩ ⟨[⟨0, 0, 64, 64⟩], []⟩ = some (b, t) ∧
      FreeArea.addUsedArea (1 : Nat) (1 : Nat) (10 : Nat) (10 : Nat) ⟨[⟨0, 0, 64, 64⟩], []⟩ =
        some (b, t) ∧
      (b = true ↔ ∃ q ∈ (⟨[⟨0, 0, 64, 64⟩], []⟩ : FreeArea).Rects,
        RECT.Inside ⟨1, 1, 10, 10⟩ q) :=
  removeRect_true_iff ⟨[⟨0, 0, 64, 64⟩], []⟩ ⟨1, 1, 10, 10⟩ (by decide)
    ⟨List.nodup_nil, fun k hk => by cases hk⟩ (by decide) (by decide) (by decide)

/-- The pixels left by `removeRect` where no sum wraps:
for every in-range free-set state with a consistent recycle pool and
every in-range rectangle `rect`, `removeRect` (and `addUsedArea` with the same
four values) returns, and the pixels covered by the stored rectangles
afterwards are exactly the pixels covered before that are not pixels of
`rect`; in particular no stored rectangle shares a pixel with `rect`
afterwards. -/
theorem removeRect_covered (s : FreeArea) (rect : RECT) (hs : s.InRange)
    (hpool : s.PoolOK) (hrect : rect.InRange) :
    ∃ b t, FreeArea.removeRect rect s = some (b, t) ∧
      FreeArea.addUsedArea rect.x rect.y rect.w rect.h s = some (b, t) ∧
      (∀ px py, t.Covered px py ↔ (s.Covered px py ∧ ¬ rect.HasPixel px py)) ∧
      (∀ p ∈ t.Rects, ∀ px py, p.HasPixel px py → ¬ rect.HasPixel px py) := by
  obtain ⟨b, t, n, hres, hn, ⟨⟨hS, _⟩, ⟨_, _, hcov⟩, _⟩⟩ :=
    FreeArea.removeRect_full hrect hs hpool
  have hdisj : ∀ p ∈ t.Rects, ∀ px py, p.HasPixel px py → ¬ rect.HasPixel px py := by
    intro p hp px py hpp hrp
    obtain ⟨j, hj⟩ := List.mem_iff_getElem?.mp hp
    have hjlt : j < t.Rects.length := by
      by_contra hge
      rw [List.getElem?_eq_none (by omega)] at hj
      cases hj
    have hmiss := hS.2.1 j p (by omega) hj
    have hpR : p.InRange := FreeArea.inRange_of_slotInv hs hS p hp
    have : FreeArea.intersects rect p = true := by
      rw [FreeArea.intersects_iff hrect hpR]
      unfold RECT.HasPixel at hpp hrp
      unfold RECT.Overlaps
      refine ⟨?_, ?_⟩ <;> omega
    rw [this] at hmiss
    cases hmiss
  refine ⟨b, t, hres, by rw [FreeArea.addUsedArea_natCast hrect, hres], ?_, hdisj⟩
  intro px py
  constructor
  · rintro ⟨p, hp, hpp⟩
    obtain ⟨q, hq, hpq⟩ := hS.1 p hp
    exact ⟨⟨q, hq, FreeArea.RECT_hasPixel_of_inside hpq hpp⟩, hdisj p hp px py hpp⟩
  · rintro ⟨h1, h2⟩
    exact hcov px py h1 h2

/-- Example of `removeRect_covered`: taking `(1,1,10,10)` out of a fresh 64 x 64 free set. -/
theorem removeRect_covered_witness :
    ∃ b t, FreeArea.removeRect ⟨1, 1, 10, 10⟩ ⟨[⟨0, 0, 64, 64⟩], []⟩ = some (b, t) ∧
      FreeArea.addUsedArea (1 : Nat) (1 : Nat) (10 : Nat) (10 : Nat) ⟨[⟨0, 0, 64, 64⟩], []⟩ =
        some (b, t) ∧
      (∀ px py, t.Covered px py ↔
        ((⟨[⟨0, 0, 64, 64⟩], []⟩ : FreeArea).Covered px py ∧
          ¬ RECT.HasPixel ⟨1, 1, 10, 10⟩ px py)) ∧
      (∀ p ∈ t.Rects, ∀ px py, p.HasPixel px py → ¬ RECT.HasPixel ⟨1, 1, 10, 10⟩ px py) :=
  removeRect_covered ⟨[⟨0, 0, 64, 64⟩], []⟩ ⟨1, 1, 10, 10⟩ (by decide)
    ⟨List.nodup_nil, fun k hk => by cases hk⟩ (by decide)

/-- The three cases of `addRect` where no sum wraps:
for every in-range free-set state with a consistent recycle pool and
every in-range rectangle `rect`, `addRect` (and `addFreeArea` with the same
four values) leaves the free set unchanged when some slot contains `rect`;
otherwise it appends `rect` when the pool is empty, and when the pool is
non-empty it pops the pool and stores `rect` in the slot that was on top,
keeping the length and every other slot. -/
theorem addRect_spec (s : FreeArea) (rect : RECT) (hs : s.InRange) (hpool : s.PoolOK)
    (hrect : rect.InRange) :
    FreeArea.addFreeArea rect.x rect.y rect.w rect.h s = FreeArea.addRect rect s ∧
    ((∃ p ∈ s.Rects, rect.Inside p) → FreeArea.addRect rect s = s) ∧
    ((¬ ∃ p ∈ s.Rects, rect.Inside p) →
      (s.Recycled = [] → FreeArea.addRect rect s = ⟨s.Rects ++ [rect], []⟩) ∧
      (∀ top rest, s.Recycled = top :: rest →
        (FreeArea.addRect rect s).Recycled = rest ∧
        (FreeArea.addRect rect s).Rects.length = s.Rects.length ∧
        (FreeArea.addRect rect s).Rects[top]? = some rect ∧
        ∀ (j : Nat), j ≠ top → (FreeArea.addRect rect s).Rects[j]? = s.Rects[j]?)) := by
  refine ⟨FreeArea.addFreeArea_natCast hrect s, ?_, ?_⟩
  · rintro ⟨p, hp, hins⟩
    have : s.Rects.any (FreeArea.containedIn rect) = true :=
      List.any_eq_true.mpr ⟨p, hp, (FreeArea.containedIn_iff hrect (hs p hp)).mpr hins⟩
    unfold FreeArea.addRect
    simp [this]
  · intro hnot
    have hany : s.Rects.any (FreeArea.containedIn rect) = false := by
      cases h : s.Rects.any (FreeArea.containedIn rect)
      · rfl
      · obtain ⟨p, hp, hc⟩ := List.any_eq_true.mp h
        exact absurd ⟨p, hp, (FreeArea.containedIn_iff hrect (hs p hp)).mp hc⟩ hnot
    constructor
    · intro hrec
      unfold FreeArea.addRect
      simp [hany, hrec]
    · intro top rest hrec
      have e : FreeArea.addRect rect s = ⟨s.Rects.set top rect, rest⟩ := by
        unfold FreeArea.addRect
        simp [hany, hrec]
      obtain ⟨p, hp, _⟩ := hpool.2 top (by rw [hrec]; exact List.mem_cons_self _ _)
      have hlt : top < s.Rects.length := by
        by_contra hge
        rw [List.getElem?_eq_none (by omega)] at hp
        cases hp
      rw [e]
      refine ⟨rfl, by simp, by simp [List.getElem?_set, hlt], ?_⟩
      intro j hj
      have hne : top ≠ j := fun h => hj h.symm
      simp [List.getElem?_set, hne]

/-- Example of `addRect_spec`: a free set whose slot 0 has been emptied and recycled. -/
theorem addRect_spec_witness :
    FreeArea.addFreeArea (20 : Nat) (0 : Nat) (5 : Nat) (5 : Nat)
        ⟨[⟨0, 0, 0, 8⟩, ⟨8, 0, 8, 8⟩], [0]⟩ =
      FreeArea.addRect ⟨20, 0, 5, 5⟩ ⟨[⟨0, 0, 0, 8⟩, ⟨8, 0, 8, 8⟩], [0]⟩ ∧
    ((∃ p ∈ (⟨[⟨0, 0, 0, 8⟩, ⟨8, 0, 8, 8⟩], [0]⟩ : FreeArea).Rects,
        RECT.Inside ⟨20, 0, 5, 5⟩ p) →
      FreeArea.addRect ⟨20, 0, 5, 5⟩ ⟨[⟨0, 0, 0, 8⟩, ⟨8, 0, 8, 8⟩], [0]⟩ =
        ⟨[⟨0, 0, 0, 8⟩, ⟨8, 0, 8, 8⟩], [0]⟩) ∧
    ((¬ ∃ p ∈ (⟨[⟨0, 0, 0, 8⟩, ⟨8, 0, 8, 8⟩], [0]⟩ : FreeArea).Rects,
        RECT.Inside ⟨20, 0, 5, 5⟩ p) →
      ((⟨[⟨0, 0, 0, 8⟩, ⟨8, 0, 8, 8⟩], [0]⟩ : FreeArea).Recycled = [] →
        FreeArea.addRect ⟨20, 0, 5, 5⟩ ⟨[⟨0, 0, 0, 8⟩, ⟨8, 0, 8, 8⟩], [0]⟩ =
          ⟨(⟨[⟨0, 0, 0, 8⟩, ⟨8, 0, 8, 8⟩], [0]⟩ : FreeArea).Rects ++ [⟨20, 0, 5, 5⟩], []⟩) ∧
      (∀ top rest, (⟨[⟨0, 0, 0, 8⟩, ⟨8, 0, 8, 8⟩], [0]⟩ : FreeArea).Recycled = top :: rest →
        (FreeArea.addRect ⟨20, 0, 5, 5⟩ ⟨[⟨0, 0, 0, 8⟩, ⟨8, 0, 8, 8⟩], [0]⟩).Recycled = rest ∧
        (FreeArea.addRect ⟨20, 0, 5, 5⟩ ⟨[⟨0, 0, 0, 8⟩, ⟨8, 0, 8, 8⟩], [0]⟩).Rects.length =
          (⟨[⟨0, 0, 0, 8⟩, ⟨8, 0, 8, 8⟩], [0]⟩ : FreeArea).Rects.length ∧
        (FreeArea.addRect ⟨20, 0, 5, 5⟩ ⟨[⟨0, 0, 0, 8⟩, ⟨8, 0, 8, 8⟩], [0]⟩).Rects[top]? =
          some ⟨20, 0, 5, 5⟩ ∧
        ∀ (j : Nat), j ≠ top →
          (FreeArea.addRect ⟨20, 0, 5, 5⟩ ⟨[⟨0, 0, 0, 8⟩, ⟨8, 0, 8, 8⟩], [0]⟩).Rects[j]? =
            (⟨[⟨0, 0, 0, 8⟩, ⟨8, 0, 8, 8⟩], [0]⟩ : FreeArea).Rects[j]?)) :=
  addRect_spec ⟨[⟨0, 0, 0, 8⟩, ⟨8, 0, 8, 8⟩], [0]⟩ ⟨20, 0, 5, 5⟩ (by decide)
    ⟨by decide, fun k hk => by
      simp only [List.mem_singleton] at hk
      subst hk
      exact ⟨⟨0, 0, 0, 8⟩, rfl, rfl⟩⟩ (by decide)

/-! ## Growth, failure and read-only behaviour of the file pair -/

/-- Doubling an `unsigned long` below `2^31` does not wrap. -/
theorem umul_two_eq {n : Nat} (h : n ≤ INT_MAX) : umul n 2 = 2 * n := by
  unfold umul ULONG_RANGE
  unfold INT_MAX at h
  omega

/-- C7, amended: a growth step doubles the height when the height is smaller
than the width, and doubles the width otherwise, hence also when width and
height are equal; the other dimension is kept. -/
theorem growStep_doubles (st : AllocState) (hw : st.newWidth ≤ INT_MAX)
    (hh : st.newHeight ≤ INT_MAX) :
    (st.newHeight < st.newWidth →
      (growStep st).newHeight = 2 * st.newHeight ∧ (growStep st).newWidth = st.newWidth) ∧
    (st.newWidth < st.newHeight →
      (growStep st).newWidth = 2 * st.newWidth ∧ (growStep st).newHeight = st.newHeight) ∧
    (st.newWidth = st.newHeight →
      (growStep st).newWidth = 2 * st.newWidth ∧ (growStep st).newHeight = st.newHeight) := by
  refine ⟨?_, ?_, ?_⟩
  · intro h
    simp [growStep, h, umul_two_eq hh]
  · intro h
    have : ¬ st.newHeight < st.newWidth := by omega
    simp [growStep, this, umul_two_eq hw]
  · intro h
    have : ¬ st.newHeight < st.newWidth := by omega
    simp [growStep, this, umul_two_eq hw]

/-- Witness of the amended C7 at the locals of a 64 x 64 atlas. -/
theorem growStep_doubles_witness :
    ((64 : Nat) < 64 →
      (growStep ⟨fullAtlas64.freearea, none, 64, 64⟩).newHeight = 2 * 64 ∧
      (growStep ⟨fullAtlas64.freearea, none, 64, 64⟩).newWidth = 64) ∧
    ((64 : Nat) < 64 →
      (growStep ⟨fullAtlas64.freearea, none, 64, 64⟩).newWidth = 2 * 64 ∧
      (growStep ⟨fullAtlas64.freearea, none, 64, 64⟩).newHeight = 64) ∧
    ((64 : Nat) = 64 →
      (growStep ⟨fullAtlas64.freearea, none, 64, 64⟩).newWidth = 2 * 64 ∧
      (growStep ⟨fullAtlas64.freearea, none, 64, 64⟩).newHeight = 64) :=
  growStep_doubles ⟨fullAtlas64.freearea, none, 64, 64⟩ (by decide) (by decide)

/-- C7 fails as stated: inserting a 1 x 1 image into the full 64 x 64 atlas
grows it to width 128 and height 64, not to width 64 and height 128. -/
theorem growth_tie_doubles_width :
    ∃ o, FilePairImpl.insertFiles (exampleLib true) 4 [['b']] fullAtlas64 = Except.ok o ∧
      o.error = none ∧ o.state.bitmap.width = 128 ∧ o.state.bitmap.height = 64 ∧
      ¬ (o.state.bitmap.width = 64 ∧ o.state.bitmap.height = 128) :=
  ⟨_, rfl, rfl, rfl, rfl, by decide⟩

/-- C8: whenever `insertFiles` throws the exception of a failed bitmap
allocation in the growth loop, the object state it leaves (free set, index,
bitmap with its size, modified flags, read-only flag, file names, selection)
is the state before the call, for every batch, library and fuel. -/
theorem insertFiles_expand_failure_restores (lib : FreeImage) (fuel : Nat)
    (filenames : List wstring) (s : FilePairImpl) (o : InsertOutcome)
    (h : FilePairImpl.insertFiles lib fuel filenames s = Except.ok o)
    (he : o.error = some wruntime_error.IDS_ERROR_BITMAP_EXPAND) : o.state = s := by
  unfold FilePairImpl.insertFiles at h
  split at h
  · cases h; rfl
  · split at h
    · cases h; rfl
    · split at h
      · cases h
      · split at h
        · cases h
        · cases h; rfl
        · cases h
          cases he

/-- Witness of C8: the full 64 x 64 atlas and a library that cannot allocate
more than 64 x 64 pixels; the growth for a 1 x 1 image fails. -/
theorem insertFiles_expand_failure_restores_witness :
    FilePairImpl.insertFiles (exampleLib false) 4 [['b']] fullAtlas64 =
      Except.ok ⟨[['b']], some wruntime_error.IDS_ERROR_BITMAP_EXPAND, fullAtlas64⟩ ∧
    (⟨[['b']], some wruntime_error.IDS_ERROR_BITMAP_EXPAND, fullAtlas64⟩ : InsertOutcome).state =
      fullAtlas64 :=
  ⟨rfl, insertFiles_expand_failure_restores (exampleLib false) 4 [['b']] fullAtlas64
    ⟨[['b']], some wruntime_error.IDS_ERROR_BITMAP_EXPAND, fullAtlas64⟩ rfl rfl⟩

/-- C9: on a read-only file pair `insertFiles` returns without an exception,
`deleteFile` returns, and `renameFile` returns `false`, each leaving the whole
object state (index, free set, bitmap, modified flags) as it was. -/
theorem readOnly_operations_do_nothing (lib : FreeImage) (fuel : Nat) (s : FilePairImpl)
    (hro : s.readOnly = true) :
    (∀ filenames, FilePairImpl.insertFiles lib fuel filenames s =
      Except.ok ⟨filenames, none, s⟩) ∧
    (∀ filename, FilePair.deleteFile lib filename s = s) ∧
    (∀ filename target, FilePair.renameFile filename target s = (false, s)) := by
  refine ⟨?_, ?_, ?_⟩
  · intro filenames
    simp [FilePairImpl.insertFiles, hro]
  · intro filename
    simp [FilePair.deleteFile, hro]
  · intro filename target
    simp [FilePair.renameFile, hro]

/-- Witness of C9: the full 64 x 64 atlas with the read-only flag set. -/
theorem readOnly_operations_do_nothing_witness :
    (∀ filenames, FilePairImpl.insertFiles (exampleLib true) 4 filenames
        { fullAtlas64 with readOnly := true } =
      Except.ok ⟨filenames, none, { fullAtlas64 with readOnly := true }⟩) ∧
    (∀ filename, FilePair.deleteFile (exampleLib true) filename
        { fullAtlas64 with readOnly := true } = { fullAtlas64 with readOnly := true }) ∧
    (∀ filename target, FilePair.renameFile filename target
        { fullAtlas64 with readOnly := true } =
      (false, { fullAtlas64 with readOnly := true })) :=
  readOnly_operations_do_nothing (exampleLib true) 4 { fullAtlas64 with readOnly := true } rfl

/-! ## The index map -/

namespace FileMap

theorem find_place_ne (m : FileMap) (k : wstring) (v : FileInfo) (k1 : wstring) (h : k1 ≠ k) :
    find (place m k v) k1 = find m k1 := by
  induction m with
  | nil =>
    have : ¬ k = k1 := fun e => h e.symm
    simp [place, find, this]
  | cons e m ih =>
    unfold place
    split
    · have : ¬ k = k1 := fun e => h e.symm
      simp [find, this]
    · simp only [find, ih]

theorem find_place_self (m : FileMap) (k : wstring) (v : FileInfo) (h : find m k = none) :
    find (place m k v) k = some v := by
  induction m with
  | nil => simp [place, find]
  | cons e m ih =>
    unfold find at h
    split at h
    · cases h
    · rename_i hne
      unfold place
      split
      · simp [find]
      · simp only [find, hne, if_false]
        exact ih h

theorem find_insert (m : FileMap) (k : wstring) (v : FileInfo) (k1 : wstring) :
    find (insert m k v) k1 =
      if k1 = k then some ((find m k).getD v) else find m k1 := by
  unfold insert
  by_cases hk : k1 = k
  · subst hk
    simp only [if_true]
    cases hf : find m k1 with
    | none => simp [find_place_self m k1 v hf]
    | some old => simp [hf]
  · simp only [hk, if_false]
    split
    · rfl
    · exact find_place_ne m k v k1 hk

end FileMap

theorem readRecord_files {width height : Nat} {input : FILEINFO} {s s1 : FilePairImpl}
    (h : readRecord width height input s = Except.ok s1) :
    s1.files = s.files.insert (decodeName input.name) input.toFileInfo := by
  unfold readRecord at h
  simp only at h
  split at h
  · cases h; rfl
  · split at h
    · split at h
      · cases h
      · cases h; rfl
      · cases h; rfl
    · cases h; rfl

theorem readRecords_find {width height : Nat} :
    ∀ (n : Nat) (records : List FILEINFO) (s : FilePairImpl) (e : Option wruntime_error)
      (s1 : FilePairImpl), readRecords width height n records s = Except.ok (e, s1) →
      ∀ name, s1.files.find name =
        ((s.files.find name).orElse fun _ =>
          ((records.take n).find? (fun r => decide (decodeName r.name = name))).map
            FILEINFO.toFileInfo) := by
  intro n
  induction n with
  | zero =>
    intro records s e s1 h name
    unfold readRecords at h
    cases h
    cases hf : s.files.find name <;> simp [hf]
  | succ n ih =>
    intro records s e s1 h name
    cases records with
    | nil =>
      unfold readRecords at h
      cases h
      cases hf : s.files.find name <;> simp [hf]
    | cons input rest =>
      unfold readRecords at h
      split at h
      · cases h
      · rename_i s2 hs2
        rw [ih rest s2 e s1 h name, readRecord_files hs2, FileMap.find_insert]
        by_cases hk : name = decodeName input.name
        · subst hk
          cases hf : s.files.find (decodeName input.name) <;>
            simp [hf, List.find?_cons]
        · have hk2 : ¬ decodeName input.name = name := fun e => hk e.symm
          simp [hk, hk2, List.find?_cons]

/-- C10, amended: after a successful load the index maps every name to the
rectangle and used flag of the first record, among the `nStrings` records
read, whose name decodes (upper-cased) to it; later records of the same name
are not stored. -/
theorem load_keeps_first_record (lib : FreeImage) (filename1 filename2 : wstring)
    (nStrings : Nat) (records : List FILEINFO) (s : FilePairImpl)
    (h : FilePairImpl.load lib filename1 filename2 nStrings records = Except.ok (Except.ok s))
    (name : wstring) :
    s.files.find name =
      ((records.take nStrings).find? (fun r => decide (decodeName r.name = name))).map
        FILEINFO.toFileInfo := by
  unfold FilePairImpl.load at h
  split at h
  · cases h
  · simp only at h
    split at h
    · cases h
    · cases h
    · rename_i s1 hs1
      cases h
      unfold FilePairImpl.ReadIndexFile at hs1
      have := readRecords_find _ _ _ _ _ hs1 name
      simpa [FileMap.find] using this

/-- Witness of the amended C10: two records named `A` and `a` in the index of
a 62 x 62 image. -/
theorem load_keeps_first_record_witness :
    FilePairImpl.load (exampleLib true) ['i'] ['a'] 2
        [⟨[65], 1, 1, 2, 2, 1⟩, ⟨[97], 10, 10, 3, 3, 1⟩] =
      Except.ok (Except.ok (FilePairImpl.mk none ['i'] ['a']
        ⟨[⟨4, 0, 5, 62⟩, ⟨0, 4, 9, 58⟩, ⟨4, 0, 58, 9⟩, ⟨14, 0, 48, 62⟩, ⟨0, 4, 62, 5⟩,
          ⟨0, 14, 62, 48⟩], []⟩
        ⟨62, 62, fun _ _ => 7⟩ false 0 [(['A'], ⟨1, 1, 2, 2, 1⟩)])) ∧
    (FilePairImpl.mk none ['i'] ['a']
        ⟨[⟨4, 0, 5, 62⟩, ⟨0, 4, 9, 58⟩, ⟨4, 0, 58, 9⟩, ⟨14, 0, 48, 62⟩, ⟨0, 4, 62, 5⟩,
          ⟨0, 14, 62, 48⟩], []⟩
        ⟨62, 62, fun _ _ => 7⟩ false 0 [(['A'], ⟨1, 1, 2, 2, 1⟩)]).files.find ['A'] =
      (([⟨[65], 1, 1, 2, 2, 1⟩, ⟨[97], 10, 10, 3, 3, 1⟩].take 2).find?
        (fun r => decide (decodeName r.name = ['A']))).map FILEINFO.toFileInfo :=
  ⟨rfl, load_keeps_first_record (exampleLib true) ['i'] ['a'] 2
    [⟨[65], 1, 1, 2, 2, 1⟩, ⟨[97], 10, 10, 3, 3, 1⟩] _ rfl ['A']⟩

/-- C10 fails as stated: loading two records whose names are equal after
upper-casing leaves the name mapped to the earlier record, not the later. -/
theorem load_duplicate_keeps_earlier :
    ∃ s, FilePairImpl.load (exampleLib true) ['i'] ['a'] 2
        [⟨[65], 1, 1, 2, 2, 1⟩, ⟨[97], 10, 10, 3, 3, 1⟩] = Except.ok (Except.ok s) ∧
      decodeName [65] = decodeName [97] ∧
      s.files.find (decodeName [97]) = some ⟨1, 1, 2, 2, 1⟩ ∧
      s.files.find (decodeName [97]) ≠ some ⟨10, 10, 3, 3, 1⟩ :=
  ⟨_, rfl, by decide, by decide, by decide⟩

/-! ## Sorting the batch: `QuickSortAreaDesc` -/

theorem cons_set_perm {α : Type} (x b : α) :
    ∀ (xs : List α) (j : Nat), xs[j]? = some b → (b :: xs.set j x).Perm (x :: xs) := by
  intro xs
  induction xs with
  | nil => intro j h; simp at h
  | cons y ys ih =>
    intro j h
    cases j with
    | zero =>
      simp only [List.getElem?_cons_zero, Option.some.injEq] at h
      subst h
      simp only [List.set_cons_zero]
      exact List.Perm.swap _ _ _
    | succ j =>
      simp only [List.getElem?_cons_succ] at h
      simp only [List.set_cons_succ]
      exact ((List.Perm.swap y b _).trans ((ih j h).cons y)).trans (List.Perm.swap x y ys)

/-- Exchanging two elements of a list gives a permutation of it. -/
theorem set_set_perm_of_getElem? {α : Type} :
    ∀ (v : List α) (k m : Nat) (a b : α), v[k]? = some a → v[m]? = some b →
      ((v.set k b).set m a).Perm v := by
  intro v
  induction v with
  | nil => intro k m a b h; simp at h
  | cons x xs ih =>
    intro k m a b hk hm
    cases k with
    | zero =>
      simp only [List.getElem?_cons_zero, Option.some.injEq] at hk
      subst hk
      cases m with
      | zero =>
        simp only [List.getElem?_cons_zero, Option.some.injEq] at hm
        subst hm
        simp
      | succ j =>
        simp only [List.getElem?_cons_succ] at hm
        simp only [List.set_cons_zero, List.set_cons_succ]
        exact cons_set_perm x b xs j hm
    | succ i =>
      simp only [List.getElem?_cons_succ] at hk
      cases m with
      | zero =>
        simp only [List.getElem?_cons_zero, Option.some.injEq] at hm
        subst hm
        simp only [List.set_cons_zero, List.set_cons_succ]
        exact cons_set_perm x a xs i hk
      | succ j =>
        simp only [List.getElem?_cons_succ] at hm
        simp only [List.set_cons_succ]
        exact (ih i j a b hk hm).cons x

theorem zip_set_set {α β : Type} :
    ∀ (xs : List α) (ys : List β) (i : Nat) (a : α) (b : β),
      List.zip (xs.set i a) (ys.set i b) = (List.zip xs ys).set i (a, b) := by
  intro xs
  induction xs with
  | nil => intro ys i a b; simp
  | cons x xs ih =>
    intro ys i a b
    cases ys with
    | nil => simp
    | cons y ys =>
      cases i with
      | zero => simp
      | succ i => simp [ih]

theorem getElem?_zip_eq_some {α β : Type} {xs : List α} {ys : List β} {i : Nat} {a : α} {b : β}
    (ha : xs[i]? = some a) (hb : ys[i]? = some b) : (List.zip xs ys)[i]? = some (a, b) := by
  induction xs generalizing ys i with
  | nil => simp at ha
  | cons x xs ih =>
    cases ys with
    | nil => simp at hb
    | cons y ys =>
      cases i with
      | zero =>
        simp only [List.getElem?_cons_zero, Option.some.injEq] at ha hb
        simp [ha, hb]
      | succ i =>
        simp only [List.getElem?_cons_succ] at ha hb
        simpa using ih ha hb

theorem getElem?_set_set {α : Type} (v : List α) (k m i : Nat) (a b : α)
    (hk : k < v.length) (hm : m < v.length) :
    ((v.set k b).set m a)[i]? =
      if i = m then some a else if i = k then some b else v[i]? := by
  simp only [List.getElem?_set, List.length_set]
  by_cases h1 : m = i
  · subst h1
    simp [hm]
  · have h1b : ¬ i = m := fun e => h1 e.symm
    simp only [h1, h1b, if_false]
    by_cases h2 : k = i
    · subst h2
      simp [hk]
    · have h2b : ¬ i = k := fun e => h2 e.symm
      simp [h2, h2b]

theorem vecGet_natCast {α : Type} (v : List α) (i : Nat) :
    vecGet v (i : Int) =
      match v[i]? with
      | some a => Except.ok a
      | none => Except.error Fault.bounds := by
  unfold vecGet
  simp

theorem vecGet_of_getElem? {α : Type} {v : List α} {i : Nat} {a : α} (h : v[i]? = some a) :
    vecGet v (i : Int) = Except.ok a := by
  rw [vecGet_natCast, h]

theorem vecSwap_natCast {α : Type} {v : List α} {k m : Nat} {a b : α} (hk : v[k]? = some a)
    (hm : v[m]? = some b) :
    vecSwap v (k : Int) (m : Int) = Except.ok ((v.set k b).set m a) := by
  unfold vecSwap
  rw [vecGet_of_getElem? hk, vecGet_of_getElem? hm]
  simp

theorem getElem?_exists_of_lt {α : Type} {v : List α} {i : Nat} (h : i < v.length) :
    ∃ a, v[i]? = some a := ⟨v[i], List.getElem?_eq_getElem h⟩

theorem lt_length_of_getElem? {α : Type} {v : List α} {i : Nat} {a : α} (h : v[i]? = some a) :
    i < v.length := by
  by_contra hge
  rw [List.getElem?_eq_none (by omega)] at h
  cases h

/-- The upward scan stops, at or before a position whose area does not exceed
the pivot, on the first such position. -/
theorem scanUp_spec (bm : List FIBITMAP) (pivot : Nat) :
    ∀ (fuel k j : Nat) (bj : FIBITMAP), k ≤ j → bm[j]? = some bj → GetArea bj ≤ pivot →
      j - k < fuel →
      ∃ (k1 : Nat) (b1 : FIBITMAP), scanUp bm pivot fuel (k : Int) = Except.ok (k1 : Int) ∧
        k ≤ k1 ∧ k1 ≤ j ∧ bm[k1]? = some b1 ∧ GetArea b1 ≤ pivot ∧
        ∀ (i : Nat) (b : FIBITMAP), k ≤ i → i < k1 → bm[i]? = some b → pivot < GetArea b := by
  intro fuel
  induction fuel with
  | zero => intro k j bj _ _ _ h; omega
  | succ fuel ih =>
    intro k j bj hkj hj hbj hfuel
    have hjlt := lt_length_of_getElem? hj
    obtain ⟨b, hb⟩ := getElem?_exists_of_lt (show k < bm.length by omega)
    unfold scanUp
    rw [vecGet_of_getElem? hb]
    simp only
    by_cases hgt : GetArea b > pivot
    · have hne : k ≠ j := by
        rintro rfl
        rw [hj] at hb
        cases hb
        omega
      obtain ⟨k1, b1, h1, h2, h3, h4, h5, h6⟩ := ih (k + 1) j bj (by omega) hj hbj (by omega)
      refine ⟨k1, b1, ?_, by omega, h3, h4, h5, ?_⟩
      · simp only [hgt, if_true]
        rw [← h1]
        norm_cast
      · intro i bi hki hik hbi
        by_cases hik2 : i = k
        · subst hik2
          rw [hb] at hbi
          cases hbi
          exact hgt
        · exact h6 i bi (by omega) hik hbi
    · refine ⟨k, b, by simp [hgt], le_refl _, hkj, hb, by omega, ?_⟩
      intro i bi hki hik
      omega

/-- The downward scan stops, at or after a position whose area is at least the
pivot, on the first such position from above. -/
theorem scanDown_spec (bm : List FIBITMAP) (pivot : Nat) :
    ∀ (fuel m j : Nat) (bj : FIBITMAP), j ≤ m → m < bm.length → bm[j]? = some bj →
      pivot ≤ GetArea bj → m - j < fuel →
      ∃ (m1 : Nat) (b1 : FIBITMAP), scanDown bm pivot fuel (m : Int) = Except.ok (m1 : Int) ∧
        j ≤ m1 ∧ m1 ≤ m ∧ bm[m1]? = some b1 ∧ pivot ≤ GetArea b1 ∧
        ∀ (i : Nat) (b : FIBITMAP), m1 < i → i ≤ m → bm[i]? = some b → GetArea b < pivot := by
  intro fuel
  induction fuel with
  | zero => intro m j bj _ _ _ _ h; omega
  | succ fuel ih =>
    intro m j bj hjm hm hj hbj hfuel
    obtain ⟨b, hb⟩ := getElem?_exists_of_lt hm
    unfold scanDown
    rw [vecGet_of_getElem? hb]
    simp only
    by_cases hlt : GetArea b < pivot
    · have hne : m ≠ j := by
        rintro rfl
        rw [hj] at hb
        cases hb
        omega
      obtain ⟨m1, b1, h1, h2, h3, h4, h5, h6⟩ :=
        ih (m - 1) j bj (by omega) (by omega) hj hbj (by omega)
      refine ⟨m1, b1, ?_, h2, by omega, h4, h5, ?_⟩
      · simp only [hlt, if_true]
        rw [← h1]
        have : ((m : Int) - 1) = ((m - 1 : Nat) : Int) := by omega
        rw [this]
      · intro i bi hmi him hbi
        by_cases him2 : i = m
        · subst him2
          rw [hb] at hbi
          cases hbi
          exact hlt
        · exact h6 i bi hmi (by omega) hbi
    · refine ⟨m, b, by simp [hlt], hjm, le_refl _, hb, by omega, ?_⟩
      intro i bi hmi him
      omega

theorem sortRel_refl (start last : Int) (fn : List wstring) (bm : List FIBITMAP) :
    SortRel start last fn bm fn bm :=
  ⟨rfl, rfl, List.Perm.refl _, fun _ _ => rfl, fun _ h => h⟩

theorem sortRel_trans {start last : Int} {fn0 fn1 fn2 : List wstring}
    {bm0 bm1 bm2 : List FIBITMAP} (h1 : SortRel start last fn0 bm0 fn1 bm1)
    (h2 : SortRel start last fn1 bm1 fn2 bm2) : SortRel start last fn0 bm0 fn2 bm2 := by
  obtain ⟨a1, a2, a3, a4, a5⟩ := h1
  obtain ⟨b1, b2, b3, b4, b5⟩ := h2
  refine ⟨b1.trans a1, b2.trans a2, b3.trans a3, ?_, ?_⟩
  · intro i hi
    rw [b4 i hi, a4 i hi]
  · intro P hP
    exact b5 P (a5 P hP)

theorem areasIn_mono {bm : List FIBITMAP} {lo hi lo1 hi1 : Int} {P : Nat → Prop}
    (h : AreasIn bm lo hi P) (hlo : lo ≤ lo1) (hhi : hi1 ≤ hi) : AreasIn bm lo1 hi1 P := by
  intro i b h1 h2 hb
  exact h i b (by omega) (by omega) hb

theorem areasIn_imp {bm : List FIBITMAP} {lo hi : Int} {P Q : Nat → Prop}
    (h : AreasIn bm lo hi P) (hPQ : ∀ a, P a → Q a) : AreasIn bm lo hi Q := by
  intro i b h1 h2 hb
  exact hPQ _ (h i b h1 h2 hb)

/-- A sorting step on a part of the range is a sorting step on the range. -/
theorem sortRel_widen {start last s1 l1 : Int} {fn0 fn : List wstring}
    {bm0 bm : List FIBITMAP} (h : SortRel s1 l1 fn0 bm0 fn bm) (hs : start ≤ s1)
    (hl : l1 ≤ last) : SortRel start last fn0 bm0 fn bm := by
  obtain ⟨a1, a2, a3, a4, a5⟩ := h
  refine ⟨a1, a2, a3, ?_, ?_⟩
  · intro i hi
    exact a4 i (by omega)
  · intro P hP i b h1 h2 hb
    by_cases hin : s1 ≤ (i : Int) ∧ (i : Int) ≤ l1
    · exact a5 P (areasIn_mono hP (by omega) (by omega)) i b (by omega) (by omega) hb
    · rw [a4 i (by omega)] at hb
      exact hP i b h1 h2 hb

/-- Exchanging the pairs at two positions of the range is a sorting step. -/
theorem sortRel_swap {start last : Int} {fn : List wstring} {bm : List FIBITMAP} {k m : Nat}
    {na nb : wstring} {a b : FIBITMAP}
    (hk1 : start ≤ (k : Int)) (hk2 : (k : Int) ≤ last) (hm1 : start ≤ (m : Int))
    (hm2 : (m : Int) ≤ last)
    (hna : fn[k]? = some na) (hnb : fn[m]? = some nb)
    (ha : bm[k]? = some a) (hb : bm[m]? = some b) :
    SortRel start last fn bm ((fn.set k nb).set m na) ((bm.set k b).set m a) := by
  have hkl := lt_length_of_getElem? ha
  have hml := lt_length_of_getElem? hb
  refine ⟨by simp, by simp, ?_, ?_, ?_⟩
  · rw [zip_set_set, zip_set_set]
    exact set_set_perm_of_getElem? _ k m (na, a) (nb, b)
      (getElem?_zip_eq_some hna ha) (getElem?_zip_eq_some hnb hb)
  · intro i hi
    rw [getElem?_set_set bm k m i a b hkl hml]
    have h1 : ¬ i = m := by omega
    have h2 : ¬ i = k := by omega
    simp [h1, h2]
  · intro P hP i c h1 h2 hc
    rw [getElem?_set_set bm k m i a b hkl hml] at hc
    split at hc
    · cases hc
      exact hP k _ (by omega) (by omega) ha
    · split at hc
      · cases hc
        exact hP m _ (by omega) (by omega) hb
      · exact hP i c h1 h2 hc

/-- The `do ... while` loop of `QuickSortAreaDesc` ends without a fault and
leaves the range partitioned around the pivot. -/
theorem partitionLoop_spec (pivot start last : Nat) :
    ∀ (fuel : Nat) (fn : List wstring) (bm : List FIBITMAP) (k m : Nat),
      PartHead pivot start last fn bm k m → m - k < fuel →
      ∃ st, partitionLoop pivot fuel ⟨fn, bm, k, m⟩ = Except.ok st ∧
        PartPost pivot start last fn bm st := by
  intro fuel
  induction fuel with
  | zero => intro fn bm k m _ h; omega
  | succ fuel ih =>
    intro fn bm k m hH hfuel
    have hsk := hH.start_le
    have hkm := hH.k_le
    have hml := hH.le_last
    have hll := hH.last_lt
    obtain ⟨ju, bju, hju1, hju2, hju3, hju4⟩ := hH.sentUp
    obtain ⟨jd, bjd, hjd1, hjd2, hjd3, hjd4⟩ := hH.sentDown
    have hmlen : m < bm.length := lt_of_le_of_lt hH.le_last hH.last_lt
    obtain ⟨k1, b1, hs1, hk1a, hk1b, hb1, hb1p, hup⟩ :=
      scanUp_spec bm pivot (bm.length + 1) k ju bju hju1 hju3 hju4
        (by have := lt_length_of_getElem? hju3; omega)
    obtain ⟨m1, c1, hs2, hm1a, hm1b, hc1, hc1p, hdown⟩ :=
      scanDown_spec bm pivot (bm.length + 1) m jd bjd hjd2 hmlen hjd3 hjd4 (by omega)
    unfold partitionLoop
    simp only [hs1, hs2]
    by_cases hle : k1 ≤ m1
    · -- the two elements are exchanged
      have hleI : (k1 : Int) ≤ (m1 : Int) := by omega
      simp only [hleI, if_true]
      have hk1len := lt_length_of_getElem? hb1
      have hm1len := lt_length_of_getElem? hc1
      obtain ⟨na, hna⟩ := getElem?_exists_of_lt (show k1 < fn.length by rw [hH.len]; exact hk1len)
      obtain ⟨nb, hnb⟩ := getElem?_exists_of_lt (show m1 < fn.length by rw [hH.len]; exact hm1len)
      rw [vecSwap_natCast hna hnb, vecSwap_natCast hb1 hc1]
      simp only
      have hrel : SortRel start last fn bm ((fn.set k1 nb).set m1 na) ((bm.set k1 c1).set m1 b1) :=
        sortRel_swap (by omega) (by omega) (by omega) (by omega) hna hnb hb1 hc1
      have hget := fun i => getElem?_set_set bm k1 m1 i b1 c1 hk1len hm1len
      have hleft : AreasIn ((bm.set k1 c1).set m1 b1) start (k1 : Int) (fun a => pivot ≤ a) := by
        intro i b h1 h2 hb
        rw [hget i] at hb
        by_cases hik : i = k1
        · subst hik
          by_cases him : i = m1
          · subst him
            rw [hb1] at hc1
            cases hc1
            simp only [if_true, Option.some.injEq] at hb
            subst hb
            exact hc1p
          · simp only [him, if_false, if_true, Option.some.injEq] at hb
            subst hb
            exact hc1p
        · have him : ¬ i = m1 := by omega
          simp only [him, hik, if_false] at hb
          by_cases hlt : i < k
          · exact hH.left i b h1 (by omega) hb
          · exact le_of_lt (hup i b (by omega) (by omega) hb)
      have hright : AreasIn ((bm.set k1 c1).set m1 b1) (m1 : Int) last (fun a => a ≤ pivot) := by
        intro i b h1 h2 hb
        rw [hget i] at hb
        by_cases him : i = m1
        · subst him
          simp only [if_true, Option.some.injEq] at hb
          subst hb
          exact hb1p
        · have hik : ¬ i = k1 := by omega
          simp only [him, hik, if_false] at hb
          by_cases hlt : i ≤ m
          · exact le_of_lt (hdown i b (by omega) hlt hb)
          · exact hH.right i b (by omega) h2 hb
      by_cases hcont : (k1 : Int) + 1 ≤ (m1 : Int) - 1
      · simp only [hcont, if_true]
        have e1 : (k1 : Int) + 1 = ((k1 + 1 : Nat) : Int) := by omega
        have e2 : (m1 : Int) - 1 = ((m1 - 1 : Nat) : Int) := by omega
        rw [e1, e2]
        have hH2 : PartHead pivot start last ((fn.set k1 nb).set m1 na)
            ((bm.set k1 c1).set m1 b1) (k1 + 1) (m1 - 1) := by
          refine ⟨by simp [hH.len], by simpa using hH.last_lt, by omega, by omega, by omega,
            ?_, ?_, ?_, ?_, Or.inr ⟨by omega, by omega⟩⟩
          · exact areasIn_mono hleft (le_refl _) (by omega)
          · exact areasIn_mono hright (by omega) (le_refl _)
          · refine ⟨m1, b1, by omega, by omega, ?_, hb1p⟩
            rw [hget m1]
            simp
          · refine ⟨k1, c1, by omega, by omega, ?_, hc1p⟩
            rw [hget k1]
            have : ¬ k1 = m1 := by omega
            simp [this]
        obtain ⟨st, hst, hpost⟩ := ih _ _ (k1 + 1) (m1 - 1) hH2 (by omega)
        exact ⟨st, hst, { hpost with rel := sortRel_trans hrel hpost.rel }⟩
      · simp only [hcont, if_false]
        refine ⟨_, rfl, ?_⟩
        refine ⟨by simp only; omega, by simp only; omega, by simp only; omega,
          by simp only; omega, by simp only; omega, by simp only; omega, ?_, ?_, hrel⟩
        · exact areasIn_mono hleft (le_refl _) (by simp only; omega)
        · exact areasIn_mono hright (by simp only; omega) (le_refl _)
    · -- the indices have crossed
      have hleI : ¬ (k1 : Int) ≤ (m1 : Int) := by omega
      simp only [hleI, if_false]
      refine ⟨_, rfl, ?_⟩
      have hprog : start < k ∧ m < last := by
        rcases hH.progress with ⟨e1, e2, jp, bjp, hp1, hp2, hp3, hp4⟩ | h
        · exfalso
          have h1 : k1 ≤ jp := by
            by_contra hlt
            have := hup jp bjp (by omega) (by omega) hp3
            omega
          have h2 : jp ≤ m1 := by
            by_contra hlt
            have := hdown jp bjp (by omega) (by omega) hp3
            omega
          omega
        · exact h
      refine ⟨by simp only; omega, by simp only; omega, by simp only; omega,
        by simp only; omega, by simp only; omega, by simp only; omega, ?_, ?_,
        sortRel_refl _ _ _ _⟩
      · intro i b h1 h2 hb
        simp only at h2
        by_cases hlt : i < k
        · exact hH.left i b h1 (by omega) hb
        · exact le_of_lt (hup i b (by omega) (by omega) hb)
      · intro i b h1 h2 hb
        simp only at h1
        by_cases hlt : i ≤ m
        · exact le_of_lt (hdown i b (by omega) hlt hb)
        · exact hH.right i b (by omega) h2 hb

/-- A recursive call of `QuickSortAreaDesc` guarded by `lo < hi`, given what
the calls with the remaining fuel achieve. -/
theorem guardedSort_spec (fuel : Nat)
    (ih : ∀ (fn : List wstring) (bm : List FIBITMAP) (start last : Nat),
      fn.length = bm.length → start ≤ last → last < bm.length → last - start < fuel →
      ∃ fn1 bm1, QuickSortAreaDesc fuel fn bm start last = Except.ok (fn1, bm1) ∧
        SortRel start last fn bm fn1 bm1 ∧ SortedIn bm1 start last)
    (fn : List wstring) (bm : List FIBITMAP) (lo : Nat) (hi : Int)
    (hlen : fn.length = bm.length) (hhi : hi < (bm.length : Int))
    (hfuel : hi - (lo : Int) < (fuel : Int)) :
    ∃ fn1 bm1,
      (if (lo : Int) < hi then QuickSortAreaDesc fuel fn bm lo hi
       else Except.ok (fn, bm)) = Except.ok (fn1, bm1) ∧
      SortRel lo hi fn bm fn1 bm1 ∧ SortedIn bm1 lo hi := by
  by_cases h : (lo : Int) < hi
  · simp only [h, if_true]
    have e : hi = ((hi.toNat : Nat) : Int) := by omega
    rw [e]
    obtain ⟨fn1, bm1, h1, h2, h3⟩ := ih fn bm lo hi.toNat hlen (by omega) (by omega) (by omega)
    exact ⟨fn1, bm1, h1, h2, h3⟩
  · simp only [h, if_false]
    refine ⟨fn, bm, rfl, sortRel_refl _ _ _ _, ?_⟩
    intro i j bi bj h1 h2 h3 hbi hbj
    have : i = j := by omega
    subst this
    rw [hbi] at hbj
    cases hbj
    exact le_refl _

/-- `QuickSortAreaDesc` on a non-empty range inside the vectors returns
without a fault, permutes the pairs inside the range and leaves the areas of
the range in non-increasing order. -/
theorem quickSort_spec :
    ∀ (fuel : Nat) (fn : List wstring) (bm : List FIBITMAP) (start last : Nat),
      fn.length = bm.length → start ≤ last → last < bm.length → last - start < fuel →
      ∃ fn1 bm1, QuickSortAreaDesc fuel fn bm start last = Except.ok (fn1, bm1) ∧
        SortRel start last fn bm fn1 bm1 ∧ SortedIn bm1 start last := by
  intro fuel
  induction fuel with
  | zero => intro fn bm start last _ _ _ h; omega
  | succ fuel ih =>
    intro fn bm start last hlen hsl hlast hfuel
    unfold QuickSortAreaDesc
    have hmid : ((start : Int) + (last : Int)).tdiv 2 = (((start + last) / 2 : Nat) : Int) := by
      rw [Int.tdiv_eq_ediv (by omega) (by omega)]
      omega
    obtain ⟨pb, hpb⟩ := getElem?_exists_of_lt (show (start + last) / 2 < bm.length by omega)
    rw [hmid, vecGet_of_getElem? hpb]
    simp only
    have hH : PartHead (GetArea pb) start last fn bm start last := by
      refine ⟨hlen, hlast, le_refl _, hsl, le_refl _, ?_, ?_, ?_, ?_, ?_⟩
      · intro i b h1 h2; omega
      · intro i b h1 h2; omega
      · exact ⟨(start + last) / 2, pb, by omega, by omega, hpb, le_refl _⟩
      · exact ⟨(start + last) / 2, pb, by omega, by omega, hpb, le_refl _⟩
      · exact Or.inl ⟨rfl, rfl, (start + last) / 2, pb, by omega, by omega, hpb, rfl⟩
    obtain ⟨st, hst, hP⟩ := partitionLoop_spec (GetArea pb) start last (bm.length + 1) fn bm
      start last hH (by omega)
    rw [hst]
    simp only
    obtain ⟨r1, r2, r3, r4, r5⟩ := hP.rel
    have p1 := hP.k_nonneg
    have p2 := hP.start_lt
    have p3 := hP.lt_last
    have p4 := hP.m_lt_k
    have p5 := hP.k_le
    have p6 := hP.le_m
    -- first recursive call, on `[start, m]`
    obtain ⟨fn1, bm1, hc1, hrel1, hsorted1⟩ := guardedSort_spec fuel ih st.filenames st.bitmaps
      start st.m (by omega) (by omega) (by omega)
    rw [hc1]
    simp only
    obtain ⟨a1, a2, a3, a4, a5⟩ := hrel1
    -- second recursive call, on `[k, last]`
    have ek : st.k = ((st.k.toNat : Nat) : Int) := by omega
    obtain ⟨fn2, bm2, hc2, hrel2, hsorted2⟩ := guardedSort_spec fuel ih fn1 bm1
      st.k.toNat last (by omega) (by omega) (by omega)
    rw [← ek] at hc2 hrel2 hsorted2
    refine ⟨fn2, bm2, hc2, ?_, ?_⟩
    · exact sortRel_trans hP.rel (sortRel_trans
        (sortRel_widen ⟨a1, a2, a3, a4, a5⟩ (le_refl _) (by omega))
        (sortRel_widen hrel2 (by omega) (le_refl _)))
    · obtain ⟨c1, c2, c3, c4, c5⟩ := hrel2
      have F1 : AreasIn bm2 start st.m (fun a => GetArea pb ≤ a) := by
        intro i b h1 h2 hb
        rw [c4 i (by omega)] at hb
        exact a5 _ (areasIn_mono hP.left (le_refl _) (by omega)) i b h1 h2 hb
      have F2 : AreasIn bm2 st.k last (fun a => a ≤ GetArea pb) := by
        apply c5
        intro i b h1 h2 hb
        rw [a4 i (by omega)] at hb
        exact hP.right i b (by omega) h2 hb
      have F3 : ∀ (i : Nat) (b : FIBITMAP), st.m < (i : Int) → (i : Int) < st.k →
          bm2[i]? = some b → GetArea b = GetArea pb := by
        intro i b h1 h2 hb
        rw [c4 i (by omega), a4 i (by omega)] at hb
        exact le_antisymm (hP.right i b (by omega) (by omega) hb)
          (hP.left i b (by omega) (by omega) hb)
      intro i j bi bj h1 h2 h3 hbi hbj
      by_cases hj : (j : Int) ≤ st.m
      · rw [c4 i (by omega)] at hbi
        rw [c4 j (by omega)] at hbj
        exact hsorted1 i j bi bj h1 h2 hj hbi hbj
      · by_cases hi : st.k ≤ (i : Int)
        · exact hsorted2 i j bi bj hi h2 h3 hbi hbj
        · have hjle : GetArea bj ≤ GetArea pb := by
            by_cases hjk : (j : Int) < st.k
            · exact le_of_eq (F3 j bj (by omega) hjk hbj)
            · exact F2 j bj (by omega) h3 hbj
          have hige : GetArea pb ≤ GetArea bi := by
            by_cases him : (i : Int) ≤ st.m
            · exact F1 i bi h1 him hbi
            · exact le_of_eq (F3 i bi (by omega) (by omega) hbi).symm
          exact le_trans hjle hige

theorem pairwise_of_sortedIn {bm : List FIBITMAP} (h : SortedIn bm 0 ((bm.length : Int) - 1)) :
    List.Pairwise (fun a b => GetArea b ≤ GetArea a) bm := by
  rw [List.pairwise_iff_getElem]
  intro i j hi hj hij
  exact h i j bm[i] bm[j] (by omega) (by omega) (by omega)
    (List.getElem?_eq_getElem hi) (List.getElem?_eq_getElem hj)

/-- The sort where no product wraps:
for every non-empty batch (as many names as bitmaps) the call
`QuickSortAreaDesc(filenames, bitmaps, 0, n-1)` made by `insertFiles` returns
without a fault; the pairs (name, bitmap) of the result are a permutation of
the pairs of the input, and the bitmaps are in non-increasing order of
`GetArea`, which is the exact area `width * height` when no product reaches
`2^32`.  On the atlas with the free rectangles `(0,0,50,50)` and
`(60,0,100,100)`, inserting an 8 x 8 image `c` and then an 88 x 88 image `d`
(padded sizes 10 x 10 and 90 x 90) handles `d` first and places its padded
area at `(60, 0)`. -/
theorem QuickSortAreaDesc_sorts (filenames : List wstring) (bitmaps : List FIBITMAP)
    (hlen : filenames.length = bitmaps.length) (hne : filenames ≠ []) :
    (∃ fn bm,
      QuickSortAreaDesc (filenames.length + 1) filenames bitmaps 0
        ((filenames.length : Int) - 1) = Except.ok (fn, bm) ∧
      fn.length = filenames.length ∧ bm.length = bitmaps.length ∧
      (List.zip fn bm).Perm (List.zip filenames bitmaps) ∧
      List.Pairwise (fun a b => GetArea b ≤ GetArea a) bm ∧
      ((∀ b ∈ bitmaps, b.width * b.height < ULONG_RANGE) →
        List.Pairwise (fun a b => b.width * b.height ≤ a.width * a.height) bm)) ∧
    (∃ o, FilePairImpl.insertFiles (exampleLib true) 4 [['c'], ['d']] twoHoleAtlas =
        Except.ok o ∧
      o.error = none ∧ o.filenames = [['d'], ['c']] ∧
      o.state.bitmap.width = 160 ∧ o.state.bitmap.height = 100 ∧
      o.state.files.find ['D'] = some ⟨61, 1, 88, 88, 1⟩ ∧
      o.state.files.find ['C'] = some ⟨1, 1, 8, 8, 1⟩) := by
  refine ⟨?_, ⟨_, rfl, rfl, rfl, rfl, rfl, by decide, by decide⟩⟩
  have hpos : 0 < filenames.length := List.length_pos.mpr hne
  have e : ((filenames.length : Int) - 1) = ((filenames.length - 1 : Nat) : Int) := by omega
  have e0 : (0 : Int) = ((0 : Nat) : Int) := rfl
  obtain ⟨fn, bm, h1, ⟨r1, r2, r3, r4, r5⟩, h3⟩ := quickSort_spec (filenames.length + 1)
    filenames bitmaps 0 (filenames.length - 1) hlen (by omega) (by omega) (by omega)
  rw [e, e0]
  refine ⟨fn, bm, h1, r1, r2, r3, ?_, ?_⟩
  · apply pairwise_of_sortedIn
    have : ((bm.length : Int) - 1) = ((filenames.length - 1 : Nat) : Int) := by omega
    rw [this]
    exact h3
  · intro hexact
    have hperm : bm.Perm bitmaps := by
      have := r3.map Prod.snd
      rwa [List.map_snd_zip _ _ (by omega), List.map_snd_zip _ _ (by omega)] at this
    have harea : ∀ b ∈ bm, GetArea b = b.width * b.height := by
      intro b hb
      unfold GetArea umul
      exact Nat.mod_eq_of_lt (hexact b (hperm.mem_iff.mp hb))
    have hsorted : List.Pairwise (fun a b => GetArea b ≤ GetArea a) bm := by
      apply pairwise_of_sortedIn
      have : ((bm.length : Int) - 1) = ((filenames.length - 1 : Nat) : Int) := by omega
      rw [this]
      exact h3
    refine List.Pairwise.imp_of_mem ?_ hsorted
    intro a b ha hb hab
    rw [harea a ha, harea b hb] at hab
    exact hab

/-- Example of `QuickSortAreaDesc_sorts`: the batch `c` (8 x 8), `d` (88 x 88). -/
theorem QuickSortAreaDesc_sorts_witness :
    (∃ fn bm,
      QuickSortAreaDesc (([['c'], ['d']] : List wstring).length + 1) [['c'], ['d']]
        [⟨8, 8, fun _ _ => 5⟩, ⟨88, 88, fun _ _ => 3⟩] 0
        (((([['c'], ['d']] : List wstring).length : Nat) : Int) - 1) = Except.ok (fn, bm) ∧
      fn.length = ([['c'], ['d']] : List wstring).length ∧
      bm.length = ([⟨8, 8, fun _ _ => 5⟩, ⟨88, 88, fun _ _ => 3⟩] : List FIBITMAP).length ∧
      (List.zip fn bm).Perm
        (List.zip ([['c'], ['d']] : List wstring)
          [⟨8, 8, fun _ _ => 5⟩, ⟨88, 88, fun _ _ => 3⟩]) ∧
      List.Pairwise (fun a b => GetArea b ≤ GetArea a) bm ∧
      ((∀ b ∈ ([⟨8, 8, fun _ _ => 5⟩, ⟨88, 88, fun _ _ => 3⟩] : List FIBITMAP),
          b.width * b.height < ULONG_RANGE) →
        List.Pairwise (fun a b => b.width * b.height ≤ a.width * a.height) bm)) ∧
    (∃ o, FilePairImpl.insertFiles (exampleLib true) 4 [['c'], ['d']] twoHoleAtlas =
        Except.ok o ∧
      o.error = none ∧ o.filenames = [['d'], ['c']] ∧
      o.state.bitmap.width = 160 ∧ o.state.bitmap.height = 100 ∧
      o.state.files.find ['D'] = some ⟨61, 1, 88, 88, 1⟩ ∧
      o.state.files.find ['C'] = some ⟨1, 1, 8, 8, 1⟩) :=
  QuickSortAreaDesc_sorts [['c'], ['d']] [⟨8, 8, fun _ _ => 5⟩, ⟨88, 88, fun _ _ => 3⟩]
    rfl (by decide)

/-! ## The packing invariant -/

theorem RECT_overlaps_symm {a b : RECT} (h : a.Overlaps b) : b.Overlaps a := by
  unfold RECT.Overlaps at *
  omega

theorem RECT_overlaps_of_inside {a b u : RECT} (hab : a.Inside b) (h : a.Overlaps u) :
    b.Overlaps u := by
  unfold RECT.Inside at hab
  unfold RECT.Overlaps at *
  omega

theorem RECT_within_inRange {r : RECT} {W H : Nat} (h : r.Within W H) (hW : W ≤ INT_MAX)
    (hH : H ≤ INT_MAX) : r.InRange := by
  unfold RECT.Within at h
  unfold RECT.InRange ULONG_RANGE
  unfold INT_MAX at hW hH
  omega

theorem RECT_within_of_inside {a b : RECT} {W H : Nat} (hab : a.Inside b) (h : b.Within W H) :
    a.Within W H := by
  unfold RECT.Inside at hab
  unfold RECT.Within at *
  omega

theorem packed_inRange {fa : FreeArea} {W H : Nat} {used : List RECT} (h : Packed fa W H used) :
    fa.InRange :=
  fun p hp => RECT_within_inRange (h.free_within p hp) h.width_le h.height_le

/-- Used rectangles may be dropped and reordered. -/
theorem packed_of_subperm {fa : FreeArea} {W H : Nat} {used used1 : List RECT}
    (h : Packed fa W H used) (hsub : used1.Subperm used) : Packed fa W H used1 := by
  obtain ⟨l, hl1, hl2⟩ := hsub
  have hmem : ∀ u ∈ used1, u ∈ used := fun u hu => hl2.subset (hl1.mem_iff.mpr hu)
  refine ⟨h.width_le, h.height_le, h.free_within, fun u hu => h.used_within u (hmem u hu), ?_,
    fun p hp hw u hu => h.free_disjoint p hp hw u (hmem u hu)⟩
  have h1 : l.Pairwise (fun a b => ¬ a.Overlaps b) := h.used_disjoint.sublist hl2
  exact (hl1.pairwise_iff (fun {a b} hab hba => hab (RECT_overlaps_symm hba))).mp h1

theorem packed_removeRect {fa fa1 : FreeArea} {W H : Nat} {used : List RECT} {rect : RECT}
    {b : Bool} (h : Packed fa W H used) (hrect : rect.Within W H)
    (hres : FreeArea.removeRect rect fa = some (b, fa1)) :
    Packed fa1 W H used ∧ ∀ p ∈ fa1.Rects, p.w ≠ 0 → ¬ p.Overlaps rect := by
  have hrR := RECT_within_inRange hrect h.width_le h.height_le
  obtain ⟨b2, t, hres2, hsub, hmiss, _⟩ := FreeArea.removeRect_sound hrR (packed_inRange h)
  rw [hres] at hres2
  cases hres2
  have hins : ∀ p ∈ fa1.Rects, p.w ≠ 0 → ∃ q ∈ fa.Rects, p.Inside q ∧ q.w ≠ 0 := by
    intro p hp hw
    obtain ⟨q, hq, hpq⟩ := hsub p hp
    refine ⟨q, hq, hpq, ?_⟩
    unfold RECT.Inside at hpq
    omega
  constructor
  · refine ⟨h.width_le, h.height_le, ?_, h.used_within, h.used_disjoint, ?_⟩
    · intro p hp
      obtain ⟨q, hq, hpq⟩ := hsub p hp
      exact RECT_within_of_inside hpq (h.free_within q hq)
    · intro p hp hw u hu hov
      obtain ⟨q, hq, hpq, hqw⟩ := hins p hp hw
      exact h.free_disjoint q hq hqw u hu (RECT_overlaps_of_inside hpq hov)
  · intro p hp hw hov
    have hpR : p.InRange := by
      obtain ⟨q, hq, hpq⟩ := hsub p hp
      exact FreeArea.RECT_inside_inRange hpq (packed_inRange h q hq)
    have := (FreeArea.intersects_iff hrR hpR).mpr ⟨hw, RECT_overlaps_symm hov⟩
    rw [hmiss p hp] at this
    cases this

theorem packed_addRect {fa : FreeArea} {W H : Nat} {used : List RECT} {r : RECT}
    (h : Packed fa W H used) (hr : r.Within W H) (hdis : ∀ u ∈ used, ¬ r.Overlaps u) :
    Packed (FreeArea.addRect r fa) W H used := by
  refine ⟨h.width_le, h.height_le, ?_, h.used_within, h.used_disjoint, ?_⟩
  · intro p hp
    rcases FreeArea.mem_addRect hp with hp | rfl
    · exact h.free_within p hp
    · exact hr
  · intro p hp hw u hu
    rcases FreeArea.mem_addRect hp with hp | rfl
    · exact h.free_disjoint p hp hw u hu
    · exact hdis u hu

/-- Releasing a used rectangle into the free set. -/
theorem packed_release {fa : FreeArea} {W H : Nat} {used : List RECT} {r : RECT}
    (h : Packed fa W H (r :: used)) : Packed (FreeArea.addRect r fa) W H used := by
  have hsub : Packed fa W H used :=
    packed_of_subperm h (List.Sublist.subperm (List.sublist_cons_self r used))
  apply packed_addRect hsub (h.used_within r (List.mem_cons_self _ _))
  exact (List.pairwise_cons.mp h.used_disjoint).1

theorem packed_getFreeArea {fa fa1 : FreeArea} {W H : Nat} {used : List RECT}
    {area found : RECT} (h : Packed fa W H used) (hw : 1 ≤ area.w)
    (hres : FreeArea.getFreeArea area fa = some (true, found, fa1)) :
    found.w = area.w ∧ found.h = area.h ∧ Packed fa1 W H (found :: used) := by
  unfold FreeArea.getFreeArea at hres
  split at hres
  · rename_i p hfind
    have hp : p ∈ fa.Rects := List.mem_of_find?_eq_some hfind
    have hfit := List.find?_some hfind
    simp only [ge_iff_le, Bool.and_eq_true, decide_eq_true_eq] at hfit
    simp only [Option.map_eq_some'] at hres
    obtain ⟨⟨b, t⟩, hrem, heq⟩ := hres
    simp only [Prod.mk.injEq, true_and] at heq
    obtain ⟨rfl, rfl⟩ := heq
    have hpW := h.free_within p hp
    have hfW : RECT.Within ⟨p.x, p.y, area.w, area.h⟩ W H := by
      unfold RECT.Within at *
      simp only
      omega
    have hfp : RECT.Inside ⟨p.x, p.y, area.w, area.h⟩ p := by
      unfold RECT.Inside
      simp only
      omega
    obtain ⟨hP, hdis⟩ := packed_removeRect h hfW hrem
    refine ⟨rfl, rfl, hP.width_le, hP.height_le, hP.free_within, ?_, ?_, ?_⟩
    · intro u hu
      rcases List.mem_cons.mp hu with rfl | hu
      · exact hfW
      · exact h.used_within u hu
    · refine List.pairwise_cons.mpr ⟨?_, h.used_disjoint⟩
      intro u hu hov
      exact h.free_disjoint p hp (by omega) u hu (RECT_overlaps_of_inside hfp hov)
    · intro q hq hqw u hu
      rcases List.mem_cons.mp hu with rfl | hu
      · exact hdis q hq hqw
      · exact hP.free_disjoint q hq hqw u hu
  · cases hres

theorem getFreeArea_false {fa fa1 : FreeArea} {area a : RECT}
    (hres : FreeArea.getFreeArea area fa = some (false, a, fa1)) : fa1 = fa := by
  unfold FreeArea.getFreeArea at hres
  split at hres
  · simp only [Option.map_eq_some'] at hres
    obtain ⟨_, _, heq⟩ := hres
    cases heq
  · cases hres
    rfl

theorem packed_mono_dims {fa : FreeArea} {W H W1 H1 : Nat} {used : List RECT}
    (h : Packed fa W H used) (hW : W ≤ W1) (hH : H ≤ H1) (hW1 : W1 ≤ INT_MAX)
    (hH1 : H1 ≤ INT_MAX) : Packed fa W1 H1 used := by
  refine ⟨hW1, hH1, ?_, ?_, h.used_disjoint, h.free_disjoint⟩
  · intro p hp
    have := h.free_within p hp
    unfold RECT.Within at *
    omega
  · intro u hu
    have := h.used_within u hu
    unfold RECT.Within at *
    omega

theorem addFreeArea_eq_addRect (x y w h : Nat) (hx : x + w < ULONG_RANGE)
    (hy : y + h < ULONG_RANGE) (fa : FreeArea) :
    fa.addFreeArea (x : Int) (y : Int) (w : Int) (h : Int) = FreeArea.addRect ⟨x, y, w, h⟩ fa :=
  @FreeArea.addFreeArea_natCast ⟨x, y, w, h⟩ ⟨hx, hy⟩ fa

theorem packed_growStep {st : AllocState} {used : List RECT}
    (h : Packed st.freearea st.newWidth st.newHeight used)
    (hW1 : (growStep st).newWidth ≤ INT_MAX) (hH1 : (growStep st).newHeight ≤ INT_MAX) :
    Packed (growStep st).freearea (growStep st).newWidth (growStep st).newHeight used := by
  have hW := h.width_le
  have hH := h.height_le
  unfold growStep at hW1 hH1 ⊢
  split
  · rename_i hlt
    simp only [hlt, if_true] at hW1 hH1
    simp only
    rw [umul_two_eq hH] at hH1 ⊢
    have e := addFreeArea_eq_addRect 0 st.newHeight st.newWidth st.newHeight
      (by unfold ULONG_RANGE; unfold INT_MAX at hW; omega)
      (by unfold ULONG_RANGE; unfold INT_MAX at hH; omega) st.freearea
    simp only [Nat.cast_zero] at e
    rw [e]
    apply packed_addRect (packed_mono_dims h (le_refl _) (by omega) hW hH1)
    · unfold RECT.Within
      simp only
      omega
    · intro u hu hov
      have := h.used_within u hu
      unfold RECT.Within at this
      unfold RECT.Overlaps at hov
      simp only at hov
      omega
  · rename_i hlt
    simp only [hlt, if_false] at hW1 hH1
    simp only
    rw [umul_two_eq hW] at hW1 ⊢
    have e := addFreeArea_eq_addRect st.newWidth 0 st.newWidth st.newHeight
      (by unfold ULONG_RANGE; unfold INT_MAX at hW; omega)
      (by unfold ULONG_RANGE; unfold INT_MAX at hH; omega) st.freearea
    simp only [Nat.cast_zero] at e
    rw [e]
    apply packed_addRect (packed_mono_dims h (by omega) (le_refl _) hW1 hH)
    · unfold RECT.Within
      simp only
      omega
    · intro u hu hov
      have := h.used_within u hu
      unfold RECT.Within at this
      unfold RECT.Overlaps at hov
      simp only at hov
      omega

theorem growStep_newBitmap (st : AllocState) : (growStep st).newBitmap = st.newBitmap := by
  unfold growStep
  split <;> rfl

theorem FreeImage_Allocate_some {lib : FreeImage} {w h : Nat} {nb : FIBITMAP}
    (hlib : lib.WellBehaved) (hres : FreeImage_Allocate lib w h = some nb) :
    nb.width = w ∧ nb.height = h ∧ 0 < w ∧ w ≤ INT_MAX ∧ 0 < h ∧ h ≤ INT_MAX := by
  unfold FreeImage_Allocate at hres
  split at hres
  · rename_i hal
    cases hres
    exact ⟨rfl, rfl, hlib.1 w h hal⟩
  · cases hres

/-- The growth loop for one item keeps the packing and adds the area found to
the used rectangles. -/
theorem allocArea_spec {lib : FreeImage} (hlib : lib.WellBehaved) {used : List RECT}
    {area : RECT} (hw : 1 ≤ area.w) {W0 H0 : Nat} :
    ∀ (fuel : Nat) (st : AllocState) (found : RECT) (st1 : AllocState),
      Packed st.freearea st.newWidth st.newHeight used → st.DimsOf W0 H0 →
      allocArea lib area fuel st = Except.ok (Except.ok (found, st1)) →
      Packed st1.freearea st1.newWidth st1.newHeight (found :: used) ∧
        found.w = area.w ∧ found.h = area.h ∧ st1.DimsOf W0 H0 := by
  intro fuel
  induction fuel with
  | zero =>
    intro st found st1 _ _ h
    unfold allocArea at h
    cases h
  | succ fuel ih =>
    intro st found st1 hP hD h
    unfold allocArea at h
    split at h
    · cases h
    · rename_i f fa hget
      cases h
      obtain ⟨h1, h2, h3⟩ := packed_getFreeArea hP hw hget
      exact ⟨h3, h1, h2, hD⟩
    · rename_i a fa hget
      have hfa : fa = st.freearea := getFreeArea_false hget
      subst hfa
      simp only at h
      split at h
      · cases h
      · rename_i nb hnb
        obtain ⟨e1, e2, _, e4, _, e6⟩ := FreeImage_Allocate_some hlib hnb
        have hst : ({ st with freearea := st.freearea } : AllocState) = st := rfl
        rw [hst] at h hnb e4 e6
        refine ih _ found st1 ?_ ?_ h
        · exact packed_growStep hP e4 e6
        · unfold AllocState.DimsOf
          simp only
          exact ⟨e1, e2⟩

/-- The allocation loop keeps the packing and adds every area found, of the
padded size of its bitmap, to the used rectangles. -/
theorem allocAreas_spec {lib : FreeImage} (hlib : lib.WellBehaved) (fuel W0 H0 : Nat) :
    ∀ (bitmaps : List FIBITMAP) (st : AllocState) (used areas : List RECT) (st1 : AllocState),
      (∀ dib ∈ bitmaps, dib.width ≤ INT_MAX ∧ dib.height ≤ INT_MAX) →
      Packed st.freearea st.newWidth st.newHeight used → st.DimsOf W0 H0 →
      allocAreas lib fuel bitmaps st = Except.ok (Except.ok (areas, st1)) →
      Packed st1.freearea st1.newWidth st1.newHeight (areas ++ used) ∧
        List.Forall₂ (fun (a : RECT) (d : FIBITMAP) => a.w = d.width + 2 ∧ a.h = d.height + 2)
          areas bitmaps ∧
        st1.DimsOf W0 H0 := by
  intro bitmaps
  induction bitmaps with
  | nil =>
    intro st used areas st1 _ hP hD h
    unfold allocAreas at h
    cases h
    exact ⟨hP, List.Forall₂.nil, hD⟩
  | cons dib rest ih =>
    intro st used areas st1 hdims hP hD h
    unfold allocAreas at h
    split at h
    · cases h
    · cases h
    · rename_i area st2 harea
      split at h
      · cases h
      · cases h
      · rename_i areas2 st3 hrest
        cases h
        have hd := hdims dib (List.mem_cons_self _ _)
        have ew : uadd dib.width 2 = dib.width + 2 :=
          uadd_eq_of_lt (by unfold ULONG_RANGE; unfold INT_MAX at hd; omega)
        have eh : uadd dib.height 2 = dib.height + 2 :=
          uadd_eq_of_lt (by unfold ULONG_RANGE; unfold INT_MAX at hd; omega)
        obtain ⟨h1, h2, h3, h4⟩ := allocArea_spec hlib (by simp only [ew]; omega) fuel st area st2
          hP hD harea
        simp only [ew, eh] at h2 h3
        obtain ⟨k1, k2, k3⟩ := ih st2 (area :: used) areas2 st1
          (fun d hdm => hdims d (List.mem_cons_of_mem _ hdm)) h1 h4 hrest
        refine ⟨?_, List.Forall₂.cons ⟨h2, h3⟩ k2, k3⟩
        apply packed_of_subperm k1
        apply List.Perm.subperm
        simp only [List.cons_append]
        exact List.perm_middle.symm

namespace FileMap

theorem find_eq_some_split :
    ∀ (m : FileMap) (k : wstring) (old : FileInfo), find m k = some old →
      ∃ A B, m = A ++ (k, old) :: B ∧ (erase m k).Sublist (A ++ B) := by
  intro m
  induction m with
  | nil => intro k old h; simp [find] at h
  | cons e m ih =>
    intro k old h
    unfold find at h
    split at h
    · rename_i hk
      cases h
      refine ⟨[], m, ?_, ?_⟩
      · simp [← hk]
      · unfold erase
        simp only [List.nil_append, List.filter_cons, hk, ne_eq, not_true_eq_false, decide_False]
        exact List.filter_sublist _
    · rename_i hk
      obtain ⟨A, B, h1, h2⟩ := ih k old h
      refine ⟨e :: A, B, by simp [h1], ?_⟩
      unfold erase at h2 ⊢
      simp only [List.filter_cons, ne_eq, hk, not_false_eq_true, decide_True, if_true,
        List.cons_append]
      exact List.Sublist.cons₂ e h2

theorem find_erase_self (m : FileMap) (k : wstring) : find (erase m k) k = none := by
  induction m with
  | nil => simp [erase, find]
  | cons e m ih =>
    unfold erase at ih ⊢
    by_cases hk : e.1 = k
    · simp only [List.filter_cons, hk, ne_eq, not_true_eq_false, decide_False]
      exact ih
    · simp only [List.filter_cons, ne_eq, hk, not_false_eq_true, decide_True, if_true, find,
        if_false]
      exact ih

theorem find_erase_of_none (m : FileMap) (k k1 : wstring) (h : find m k1 = none) :
    find (erase m k) k1 = none := by
  induction m with
  | nil => simp [erase, find]
  | cons e m ih =>
    unfold find at h
    split at h
    · cases h
    · rename_i hk1
      unfold erase at ih ⊢
      by_cases hk : e.1 = k
      · simp only [List.filter_cons, hk, ne_eq, not_true_eq_false, decide_False]
        exact ih h
      · simp only [List.filter_cons, ne_eq, hk, not_false_eq_true, decide_True, if_true, find,
          hk1, if_false]
        exact ih h

theorem place_perm (m : FileMap) (k : wstring) (v : FileInfo) :
    (place m k v).Perm ((k, v) :: m) := by
  induction m with
  | nil => simp [place]
  | cons e m ih =>
    unfold place
    split
    · exact List.Perm.refl _
    · exact (ih.cons e).trans (List.Perm.swap _ _ _)

theorem insert_perm_of_find_none (m : FileMap) (k : wstring) (v : FileInfo)
    (h : find m k = none) : (insert m k v).Perm ((k, v) :: m) := by
  unfold insert
  simp only [h, Option.isSome_none, Bool.false_eq_true, if_false]
  exact place_perm m k v

theorem mem_of_find {m : FileMap} {k : wstring} {old : FileInfo} (h : find m k = some old) :
    (k, old) ∈ m := by
  obtain ⟨A, B, e, _⟩ := find_eq_some_split m k old h
  rw [e]
  simp

end FileMap

theorem FreeImage_Paste_dims (lib : FreeImage) (dst src : FIBITMAP) (left top : Nat) :
    (FreeImage_Paste lib dst src left top).width = dst.width ∧
    (FreeImage_Paste lib dst src left top).height = dst.height := by
  unfold FreeImage_Paste
  split <;> exact ⟨rfl, rfl⟩

theorem copyBorder_dims (fi : FileInfo) (bitmap : FIBITMAP) :
    (copyBorder fi bitmap).width = bitmap.width ∧
    (copyBorder fi bitmap).height = bitmap.height := ⟨rfl, rfl⟩

theorem releaseArea_dims (lib : FreeImage) (old : FileInfo) (bitmap : FIBITMAP)
    (fa : FreeArea) :
    (releaseArea lib old bitmap fa).1.width = bitmap.width ∧
    (releaseArea lib old bitmap fa).1.height = bitmap.height := by
  unfold releaseArea
  cases FreeImage_Allocate lib (uadd old.w 2) (uadd old.h 2) with
  | none => exact ⟨rfl, rfl⟩
  | some dib => exact FreeImage_Paste_dims lib bitmap dib (usub old.x 1) (usub old.y 1)

/-- For an entry whose bordered rectangle lies in the image, off the left and
top edges, `releaseArea` adds exactly the bordered rectangle to the free
set. -/
theorem releaseArea_freearea (lib : FreeImage) {old : FileInfo} (bitmap : FIBITMAP)
    (fa : FreeArea) {W H : Nat} (hW : W ≤ INT_MAX) (hH : H ≤ INT_MAX) (hx : 1 ≤ old.x)
    (hy : 1 ≤ old.y) (hin : old.bordered.Within W H) :
    (releaseArea lib old bitmap fa).2 = FreeArea.addRect old.bordered fa := by
  unfold FileInfo.bordered RECT.Within at hin
  simp only at hin
  unfold INT_MAX at hW hH
  have e1 : usub old.x 1 = old.x - 1 := usub_eq_of_le hx (by unfold ULONG_RANGE; omega)
  have e2 : usub old.y 1 = old.y - 1 := usub_eq_of_le hy (by unfold ULONG_RANGE; omega)
  have e3 : uadd old.w 2 = old.w + 2 := uadd_eq_of_lt (by unfold ULONG_RANGE; omega)
  have e4 : uadd old.h 2 = old.h + 2 := uadd_eq_of_lt (by unfold ULONG_RANGE; omega)
  unfold releaseArea
  simp only [e1, e2, e3, e4]
  exact addFreeArea_eq_addRect (old.x - 1) (old.y - 1) (old.w + 2) (old.h + 2)
    (by unfold ULONG_RANGE; omega) (by unfold ULONG_RANGE; omega) fa

/-- Releasing the entry found under `name` and erasing it keeps the packing. -/
theorem packed_release_entry (lib : FreeImage) {fa : FreeArea} {W H : Nat} {X : List RECT}
    {files : FileMap} {name : wstring} {old : FileInfo} (bitmap : FIBITMAP)
    (h : Packed fa W H (X ++ files.map (fun e => e.2.bordered)))
    (hpos : ∀ e ∈ files, 1 ≤ e.2.x ∧ 1 ≤ e.2.y) (hfind : files.find name = some old) :
    Packed (releaseArea lib old bitmap fa).2 W H
        (X ++ (files.erase name).map (fun e => e.2.bordered)) ∧
      ∀ e ∈ files.erase name, 1 ≤ e.2.x ∧ 1 ≤ e.2.y := by
  obtain ⟨A, B, hsplit, hsub⟩ := FileMap.find_eq_some_split files name old hfind
  have hmem : (name, old) ∈ files := FileMap.mem_of_find hfind
  have hold := hpos _ hmem
  have hin : old.bordered.Within W H :=
    h.used_within _ (List.mem_append_right _ (List.mem_map.mpr ⟨(name, old), hmem, rfl⟩))
  rw [releaseArea_freearea lib bitmap fa h.width_le h.height_le hold.1 hold.2 hin]
  constructor
  · have h1 : Packed fa W H (old.bordered ::
        ((X ++ A.map (fun e => e.2.bordered)) ++ B.map (fun e => e.2.bordered))) := by
      apply packed_of_subperm h
      apply List.Perm.subperm
      rw [hsplit]
      simp only [List.map_append, List.map_cons, ← List.append_assoc]
      exact List.perm_middle.symm
    apply packed_of_subperm (packed_release h1)
    apply List.Sublist.subperm
    rw [List.append_assoc, ← List.map_append]
    exact List.Sublist.append (List.Sublist.refl X) (hsub.map _)
  · intro e he
    apply hpos e
    unfold FileMap.erase at he
    exact (List.mem_filter.mp he).1

/-- The entry filed for an area of the padded size of an image has that area
as its bordered rectangle. -/
theorem bordered_of_area {area : RECT} {W H : Nat} (hW : W ≤ INT_MAX) (hH : H ≤ INT_MAX)
    (hin : area.Within W H) (hw : 2 ≤ area.w) (hh : 2 ≤ area.h) :
    FileInfo.bordered
        { used := 1, x := uadd area.x 1, y := uadd area.y 1, w := usub area.w 2,
          h := usub area.h 2 } = area ∧
      1 ≤ uadd area.x 1 ∧ 1 ≤ uadd area.y 1 := by
  unfold RECT.Within at hin
  unfold INT_MAX at hW hH
  have e1 : uadd area.x 1 = area.x + 1 := uadd_eq_of_lt (by unfold ULONG_RANGE; omega)
  have e2 : uadd area.y 1 = area.y + 1 := uadd_eq_of_lt (by unfold ULONG_RANGE; omega)
  have e3 : usub area.w 2 = area.w - 2 := usub_eq_of_le hw (by unfold ULONG_RANGE; omega)
  have e4 : usub area.h 2 = area.h - 2 := usub_eq_of_le hh (by unfold ULONG_RANGE; omega)
  rw [e1, e2, e3, e4]
  refine ⟨?_, by omega, by omega⟩
  unfold FileInfo.bordered
  cases area
  simp only [RECT.mk.injEq] at *
  omega

/-- Filing a new entry for the first pending area keeps the invariant of the
copy loop. -/
theorem placeInv_insert {s : FilePairImpl} {area : RECT} {rest : List RECT} {name : wstring}
    (h : PlaceInv s (area :: rest)) (hw : 2 ≤ area.w) (hh : 2 ≤ area.h)
    (hnone : s.files.find name = none) (bm : FIBITMAP) (hbw : bm.width = s.bitmap.width)
    (hbh : bm.height = s.bitmap.height) :
    PlaceInv
      { s with
        bitmap := bm
        files := s.files.insert name
          { used := 1, x := uadd area.x 1, y := uadd area.y 1, w := usub area.w 2,
            h := usub area.h 2 } } rest := by
  obtain ⟨hP, hpos⟩ := h
  have hin : area.Within s.bitmap.width s.bitmap.height :=
    hP.used_within area (List.mem_append_left _ (List.mem_cons_self _ _))
  obtain ⟨hb, hx, hy⟩ := bordered_of_area hP.width_le hP.height_le hin hw hh
  have hperm := FileMap.insert_perm_of_find_none s.files name
    { used := 1, x := uadd area.x 1, y := uadd area.y 1, w := usub area.w 2,
      h := usub area.h 2 } hnone
  constructor
  · simp only [hbw, hbh]
    apply packed_of_subperm hP
    apply List.Perm.subperm
    have h1 := hperm.map (fun e => e.2.bordered)
    simp only [List.map_cons, hb] at h1
    exact ((List.Perm.append_left rest h1).trans List.perm_middle)
  · intro e he
    rcases List.mem_cons.mp (hperm.mem_iff.mp he) with rfl | he
    · exact ⟨hx, hy⟩
    · exact hpos e he

/-- One pass of the copy loop keeps its invariant. -/
theorem placeInv_placeFile (lib : FreeImage) {s : FilePairImpl} {area : RECT}
    {rest : List RECT} (filename : wstring) (dib : FIBITMAP)
    (h : PlaceInv s (area :: rest)) (hw : 2 ≤ area.w) (hh : 2 ≤ area.h) :
    PlaceInv (placeFile lib s filename dib area) rest := by
  unfold placeFile
  simp only
  cases hfind : s.files.find (normalizeName filename) with
  | none =>
    simp only
    apply placeInv_insert h hw hh hfind
    · exact (FreeImage_Paste_dims _ _ _ _ _).1
    · exact (FreeImage_Paste_dims _ _ _ _ _).2
  | some old =>
    simp only
    have hrel := packed_release_entry lib s.bitmap h.1 h.2 hfind
    have hd := releaseArea_dims lib old s.bitmap s.freearea
    have h1 : PlaceInv
        { s with
          bitmap := (releaseArea lib old s.bitmap s.freearea).1
          freearea := (releaseArea lib old s.bitmap s.freearea).2
          files := s.files.erase (normalizeName filename) } (area :: rest) := by
      refine ⟨?_, hrel.2⟩
      simp only [hd.1, hd.2]
      exact hrel.1
    apply placeInv_insert h1 hw hh (FileMap.find_erase_self _ _)
    · exact (FreeImage_Paste_dims _ _ _ _ _).1
    · exact (FreeImage_Paste_dims _ _ _ _ _).2

/-- The copy loop keeps its invariant; the areas it does not reach stay
pending. -/
theorem placeInv_placeFiles (lib : FreeImage) :
    ∀ (areas : List RECT) (s : FilePairImpl) (fn : List wstring) (bm : List FIBITMAP),
      PlaceInv s areas → (∀ a ∈ areas, 2 ≤ a.w ∧ 2 ≤ a.h) →
      ∃ pending, PlaceInv (placeFiles lib s fn bm areas) pending := by
  intro areas
  induction areas with
  | nil =>
    intro s fn bm h _
    refine ⟨[], ?_⟩
    cases fn <;> cases bm <;> simpa [placeFiles] using h
  | cons area rest ih =>
    intro s fn bm h hsz
    cases fn with
    | nil => exact ⟨area :: rest, by simpa [placeFiles] using h⟩
    | cons f fs =>
      cases bm with
      | nil => exact ⟨area :: rest, by simpa [placeFiles] using h⟩
      | cons d ds =>
        have ha := hsz area (List.mem_cons_self _ _)
        simp only [placeFiles]
        exact ih _ fs ds (placeInv_placeFile lib f d h ha.1 ha.2)
          (fun a hm => hsz a (List.mem_cons_of_mem _ hm))

theorem atlasInv_of_placeInv {s : FilePairImpl} {pending : List RECT} (h : PlaceInv s pending) :
    AtlasInv s :=
  ⟨packed_of_subperm h.1 (List.Sublist.subperm (List.sublist_append_right _ _)), h.2⟩

theorem readFiles_spec {lib : FreeImage} :
    ∀ (filenames : List wstring) (bitmaps : List FIBITMAP),
      readFiles lib filenames = Except.ok bitmaps →
      bitmaps.length = filenames.length ∧
        ∀ d ∈ bitmaps, ∃ name, lib.Load name = LoadResult.loaded d := by
  intro filenames
  induction filenames with
  | nil =>
    intro bitmaps h
    unfold readFiles at h
    cases h
    simp
  | cons f fs ih =>
    intro bitmaps h
    unfold readFiles at h
    split at h
    · cases h
    · rename_i dib hdib
      split at h
      · cases h
      · rename_i dibs hdibs
        cases h
        obtain ⟨h1, h2⟩ := ih dibs hdibs
        refine ⟨by simp [h1], ?_⟩
        intro d hd
        rcases List.mem_cons.mp hd with rfl | hd
        · refine ⟨f, ?_⟩
          unfold ReadBitmapFile at hdib
          split at hdib
          · cases hdib
          · cases hdib
          · cases hdib
          · rename_i hload
            cases hdib
            exact hload
        · exact h2 d hd

/-- The bitmaps the sort of `insertFiles` returns are the bitmaps read. -/
theorem sorted_bitmaps_mem {filenames fn : List wstring} {bitmaps bm : List FIBITMAP}
    (hlen : bitmaps.length = filenames.length)
    (h : QuickSortAreaDesc (filenames.length + 1) filenames bitmaps 0
      ((filenames.length : Int) - 1) = Except.ok (fn, bm)) :
    ∀ d ∈ bm, d ∈ bitmaps := by
  cases filenames with
  | nil =>
    cases bitmaps with
    | nil =>
      exfalso
      simp [QuickSortAreaDesc, vecGet] at h
    | cons b bs => simp at hlen
  | cons f fs =>
    have e : (((f :: fs).length : Nat) : Int) - 1 = (((f :: fs).length - 1 : Nat) : Int) := by
      simp
    have e0 : (0 : Int) = ((0 : Nat) : Int) := rfl
    obtain ⟨fn1, bm1, h1, ⟨r1, r2, r3, _, _⟩, _⟩ := quickSort_spec ((f :: fs).length + 1)
      (f :: fs) bitmaps 0 ((f :: fs).length - 1) hlen.symm (by omega)
      (by rw [hlen]; simp) (by omega)
    rw [e, e0, h1] at h
    cases h
    have hperm : bm.Perm bitmaps := by
      have := r3.map Prod.snd
      rwa [List.map_snd_zip _ _ (by omega), List.map_snd_zip _ _ (by omega)] at this
    intro d hd
    exact hperm.mem_iff.mp hd

theorem areas_size_of_forall₂ {areas : List RECT} {bm : List FIBITMAP}
    (hF : List.Forall₂ (fun (a : RECT) (d : FIBITMAP) => a.w = d.width + 2 ∧ a.h = d.height + 2)
      areas bm) : ∀ a ∈ areas, 2 ≤ a.w ∧ 2 ≤ a.h := by
  induction hF with
  | nil => intro a ha; cases ha
  | cons h _ ih =>
    intro a ha
    rcases List.mem_cons.mp ha with rfl | ha
    · omega
    · exact ih a ha

/-- `insertFiles` keeps the invariant of the file pair, whatever it returns. -/
theorem atlasInv_insertFiles {lib : FreeImage} (hlib : lib.WellBehaved) {fuel : Nat}
    {filenames : List wstring} {s : FilePairImpl} {o : InsertOutcome} (hs : AtlasInv s)
    (h : FilePairImpl.insertFiles lib fuel filenames s = Except.ok o) : AtlasInv o.state := by
  unfold FilePairImpl.insertFiles at h
  split at h
  · cases h; exact hs
  · split at h
    · cases h; exact hs
    · rename_i bitmaps hread
      split at h
      · cases h
      · rename_i fn bm hsort
        split at h
        · cases h
        · cases h; exact hs
        · rename_i areas st halloc
          cases h
          obtain ⟨hlen, hload⟩ := readFiles_spec filenames bitmaps hread
          have hmem := sorted_bitmaps_mem hlen hsort
          have hdims : ∀ dib ∈ bm, dib.width ≤ INT_MAX ∧ dib.height ≤ INT_MAX := by
            intro d hd
            obtain ⟨name, hname⟩ := hload d (hmem d hd)
            have := hlib.2 name d hname
            exact ⟨this.2.1, this.2.2.2⟩
          obtain ⟨hP, hF, hD⟩ := allocAreas_spec hlib fuel s.bitmap.width
            s.bitmap.height bm ⟨s.freearea, none, s.bitmap.width, s.bitmap.height⟩
            (s.files.map (fun e => e.2.bordered)) areas st hdims hs.1 ⟨rfl, rfl⟩ halloc
          have hsz := areas_size_of_forall₂ hF
          have hdimsB : (match st.newBitmap with
              | some nb => FreeImage_Paste lib nb s.bitmap 0 0
              | none => s.bitmap).width = st.newWidth ∧
              (match st.newBitmap with
              | some nb => FreeImage_Paste lib nb s.bitmap 0 0
              | none => s.bitmap).height = st.newHeight := by
            unfold AllocState.DimsOf at hD
            cases hnb : st.newBitmap with
            | none =>
              rw [hnb] at hD
              simp only at hD ⊢
              exact ⟨hD.1.symm, hD.2.symm⟩
            | some nb =>
              rw [hnb] at hD
              simp only at hD ⊢
              have := FreeImage_Paste_dims lib nb s.bitmap 0 0
              exact ⟨this.1.trans hD.1, this.2.trans hD.2⟩
          have hPI : PlaceInv
              { s with
                freearea := st.freearea
                bitmap := (match st.newBitmap with
                  | some nb => FreeImage_Paste lib nb s.bitmap 0 0
                  | none => s.bitmap) } areas := by
            refine ⟨?_, hs.2⟩
            simp only [hdimsB.1, hdimsB.2]
            exact hP
          obtain ⟨pending, hfinal⟩ := placeInv_placeFiles lib areas _ fn bm hPI hsz
          have := atlasInv_of_placeInv hfinal
          exact this

/-- `deleteFile` keeps the invariant of the file pair. -/
theorem atlasInv_deleteFile (lib : FreeImage) (filename : wstring) {s : FilePairImpl}
    (hs : AtlasInv s) : AtlasInv (FilePair.deleteFile lib filename s) := by
  unfold FilePair.deleteFile
  split
  · cases hfind : s.files.find filename with
    | none => exact hs
    | some old =>
      simp only
      have hP : Packed s.freearea s.bitmap.width s.bitmap.height
          ([] ++ s.files.map (fun e => e.2.bordered)) := by simpa using hs.1
      have hrel := packed_release_entry lib s.bitmap hP hs.2 hfind
      have hd := releaseArea_dims lib old s.bitmap s.freearea
      refine ⟨?_, hrel.2⟩
      simp only [hd.1, hd.2]
      simpa using hrel.1
  · exact hs

/-- `renameFile` keeps the invariant of the file pair. -/
theorem atlasInv_renameFile (filename target : wstring) {s : FilePairImpl} (hs : AtlasInv s) :
    AtlasInv (FilePair.renameFile filename target s).2 := by
  unfold FilePair.renameFile
  split
  · cases htarget : s.files.find target with
    | some _ => exact hs
    | none =>
      simp only
      cases hfind : s.files.find filename with
      | none => exact hs
      | some fi =>
        simp only
        obtain ⟨A, B, hsplit, hsub⟩ := FileMap.find_eq_some_split s.files filename fi hfind
        have hperm := FileMap.insert_perm_of_find_none (s.files.erase filename) target fi
          (FileMap.find_erase_of_none s.files filename target htarget)
        have hmem : (filename, fi) ∈ s.files := FileMap.mem_of_find hfind
        constructor
        · apply packed_of_subperm hs.1
          have h1 := hperm.map (fun e => e.2.bordered)
          refine List.Subperm.trans h1.subperm ?_
          simp only [List.map_cons]
          have h2 : (fi.bordered :: (A ++ B).map (fun e => e.2.bordered)).Perm
              (s.files.map (fun e => e.2.bordered)) := by
            rw [hsplit]
            simp only [List.map_append, List.map_cons]
            exact List.perm_middle.symm
          exact List.Subperm.trans
            (List.Sublist.subperm (List.Sublist.cons₂ _ (hsub.map _))) h2.subperm
        · intro e he
          rcases List.mem_cons.mp (hperm.mem_iff.mp he) with rfl | he
          · exact hs.2 (filename, fi) hmem
          · apply hs.2 e
            unfold FileMap.erase at he
            exact (List.mem_filter.mp he).1
  · exact hs

/-- A newly created empty file pair satisfies the invariant. -/
theorem atlasInv_create {lib : FreeImage} (hlib : lib.WellBehaved) {width height : Nat}
    {s : FilePairImpl} (h : FilePairImpl.create lib width height = Except.ok s) :
    AtlasInv s := by
  unfold FilePairImpl.create at h
  split at h
  · cases h
  · rename_i bitmap hb
    cases h
    obtain ⟨e1, e2, _, e4, _, e6⟩ := FreeImage_Allocate_some hlib hb
    have e := addFreeArea_eq_addRect 0 0 width height
      (by unfold ULONG_RANGE; unfold INT_MAX at e4; omega)
      (by unfold ULONG_RANGE; unfold INT_MAX at e6; omega) FreeArea.empty
    simp only [Nat.cast_zero] at e
    refine ⟨?_, ?_⟩
    · simp only [e, e1, e2, List.map_nil]
      refine ⟨e4, e6, ?_, ?_, List.Pairwise.nil, ?_⟩
      · intro p hp
        rcases FreeArea.mem_addRect hp with hp | rfl
        · cases hp
        · unfold RECT.Within
          simp
      · intro u hu
        cases hu
      · intro p _ _ u hu
        cases hu
    · intro e he
      cases he

/-- Every reachable file pair satisfies the invariant. -/
theorem atlasInv_of_reachable {lib : FreeImage} (hlib : lib.WellBehaved) {s : FilePairImpl}
    (h : Reachable lib s) : AtlasInv s := by
  induction h with
  | create width height s _ _ hc => exact atlasInv_create hlib hc
  | insert s fuel filenames o _ hi ih => exact atlasInv_insertFiles hlib ih hi
  | delete s filename _ ih => exact atlasInv_deleteFile lib filename ih
  | rename s filename target _ ih => exact atlasInv_renameFile filename target ih

theorem exampleLib_wellBehaved : (exampleLib true).WellBehaved := by
  constructor
  · intro w h hal
    simp only [exampleLib, if_true, Bool.and_eq_true, decide_eq_true_eq] at hal
    omega
  · intro name dib hload
    simp only [exampleLib] at hload
    unfold INT_MAX
    split at hload
    · cases hload; decide
    · split at hload
      · cases hload; decide
      · split at hload
        · cases hload; decide
        · split at hload
          · cases hload; decide
          · cases hload

/-- C1: every file pair reached from a newly created empty pair of positive
width and height by calls of `insertFiles`, `deleteFile` and `renameFile`
(with a library that only hands out bitmaps of `int` size) has index entries
whose bordered rectangles `(x-1, y-1, w+2, h+2)` are pairwise disjoint, and
every entry satisfies `x ≥ 1`, `y ≥ 1`, `x + w + 1 ≤ width` and
`y + h + 1 ≤ height` of the bitmap. -/
theorem reachable_entries_packed (lib : FreeImage) (hlib : lib.WellBehaved) (s : FilePairImpl)
    (h : Reachable lib s) :
    s.files.Pairwise (fun a b => ¬ a.2.bordered.Overlaps b.2.bordered) ∧
    ∀ e ∈ s.files, 1 ≤ e.2.x ∧ 1 ≤ e.2.y ∧ e.2.x + e.2.w + 1 ≤ s.bitmap.width ∧
      e.2.y + e.2.h + 1 ≤ s.bitmap.height := by
  obtain ⟨hP, hpos⟩ := atlasInv_of_reachable hlib h
  refine ⟨List.pairwise_map.mp hP.used_disjoint, ?_⟩
  intro e he
  have h1 := hpos e he
  have h2 := hP.used_within e.2.bordered (List.mem_map.mpr ⟨e, he, rfl⟩)
  unfold FileInfo.bordered RECT.Within at h2
  simp only at h2
  omega

/-- Witness of C1: the pair created empty at 64 x 64 after the batch `a`,
`b`, which grows it to 128 x 64. -/
theorem reachable_entries_packed_witness :
    exampleInserted.bitmap.width = 128 ∧ exampleInserted.files.length = 2 ∧
    exampleInserted.files.Pairwise (fun a b => ¬ a.2.bordered.Overlaps b.2.bordered) ∧
    ∀ e ∈ exampleInserted.files, 1 ≤ e.2.x ∧ 1 ≤ e.2.y ∧
      e.2.x + e.2.w + 1 ≤ exampleInserted.bitmap.width ∧
      e.2.y + e.2.h + 1 ≤ exampleInserted.bitmap.height :=
  ⟨rfl, rfl, reachable_entries_packed (exampleLib true) exampleLib_wellBehaved exampleInserted
    (Reachable.insert
      ⟨none, [], [], ⟨[⟨0, 0, 64, 64⟩], []⟩, ⟨64, 64, fun _ _ => 0⟩, false, 0, []⟩ 4
      [['a'], ['b']] ⟨[['a'], ['b']], none, exampleInserted⟩
      (Reachable.create 64 64 _ (by decide) (by decide) rfl) rfl)⟩

/-! ## Loading an index: the bounds test -/

/-- Where neither sum wraps and the image is at least one pixel wide and
high, the bounds test of `readRecord` is the test over the integers. -/
theorem bounds_test_exact (width height : Nat) (fi : FileInfo)
    (hw : 1 ≤ width) (hw2 : width < ULONG_RANGE) (hh : 1 ≤ height) (hh2 : height < ULONG_RANGE)
    (hx : fi.x + fi.w < ULONG_RANGE) (hy : fi.y + fi.h < ULONG_RANGE) :
    (fi.x = 0 ∨ fi.y = 0 ∨ uadd fi.x fi.w > usub width 1 ∨ uadd fi.y fi.h > usub height 1) ↔
      (fi.x = 0 ∨ fi.y = 0 ∨ fi.x + fi.w > width - 1 ∨ fi.y + fi.h > height - 1) := by
  rw [uadd_eq_of_lt hx, uadd_eq_of_lt hy, usub_eq_of_le hw hw2, usub_eq_of_le hh hh2]

/-- C11: the record (x, y, w, h) = (5, 1, 4294967292, 1) read for a 62 x 62
image is not flagged.  The 32-bit sum x + w wraps to 1, so the bounds test
passes although x + w exceeds width - 1 over the integers; the index stays
writable and the bordered rectangle of the entry is not inside the atlas. -/
theorem bounds_check_wraps :
    ∃ s, FilePairImpl.load (exampleLib true) ['i'] ['a'] 1
        [⟨[66], 5, 1, 4294967292, 1, 1⟩] = Except.ok (Except.ok s) ∧
      s.bitmap.width = 62 ∧ s.bitmap.height = 62 ∧
      s.files.find ['B'] = some ⟨5, 1, 4294967292, 1, 1⟩ ∧
      5 + 4294967292 > 62 - 1 ∧
      s.readOnly = false ∧
      ¬ (FileInfo.bordered ⟨5, 1, 4294967292, 1, 1⟩).Within 62 62 :=
  ⟨_, rfl, rfl, rfl, rfl, by decide, rfl, by simp [RECT.Within, FileInfo.bordered]⟩

/-- C12: the records (20, 1, 10, 10) and (5, 1, 4294967292, 1) have bordered
rectangles that overlap, yet loading them for a 62 x 62 image leaves the index
writable: the 32-bit sum x + w of the second record wraps, so it passes the
bounds test and its wrapped rectangle lies in a free rectangle.  A following
insert adds an entry. -/
theorem overlapping_records_stay_writable :
    ∃ s o, FilePairImpl.load (exampleLib true) ['i'] ['a'] 2
        [⟨[65], 20, 1, 10, 10, 1⟩, ⟨[66], 5, 1, 4294967292, 1, 1⟩] = Except.ok (Except.ok s) ∧
      (FileInfo.bordered ⟨20, 1, 10, 10, 1⟩).Overlaps (FileInfo.bordered ⟨5, 1, 4294967292, 1, 1⟩) ∧
      s.readOnly = false ∧
      s.files.length = 2 ∧
      FilePairImpl.insertFiles (exampleLib true) 4 [['c']] s = Except.ok o ∧
      o.state.files.length = 3 :=
  ⟨_, _, rfl, by decide, rfl, rfl, rfl, rfl⟩

/-! ## The index file as bytes -/

theorem htolel_length (v : Nat) : (htolel v).length = 4 := rfl

theorem letohl_htolel {v : Nat} (h : v < ULONG_RANGE) : letohl (htolel v) = v := by
  unfold ULONG_RANGE at h
  simp only [letohl, htolel, List.getD_cons_zero, List.getD_cons_succ]
  omega

theorem WideCharToMultiByte_length (name : wstring) : (WideCharToMultiByte name).length ≤ 64 := by
  unfold WideCharToMultiByte
  simp only [List.length_take, List.length_map]
  omega

theorem outputRecord_name_length (name : wstring) (fi : FileInfo) :
    (outputRecord name fi).name.length = 64 := by
  have := WideCharToMultiByte_length name
  simp only [outputRecord, List.length_append, List.length_replicate]
  omega

theorem FILEINFO.toBytes_eq (r : FILEINFO) :
    r.toBytes = r.name ++ (htolel r.x ++ htolel r.y ++ htolel r.w ++ htolel r.h ++ [r.used % 256]) := by
  simp [FILEINFO.toBytes]

theorem FILEINFO.toBytes_length (r : FILEINFO) (h : r.name.length = 64) :
    r.toBytes.length = 81 := by
  simp [FILEINFO.toBytes, h, htolel_length]

theorem drop_name_field (l t : List Nat) (h : l.length = 64) (k : Nat) :
    (l ++ t).drop (64 + k) = t.drop k := by
  rw [← h]
  exact List.drop_append k

theorem take_name_field (l t : List Nat) (h : l.length = 64) : (l ++ t).take 64 = l := by
  rw [← h]
  exact List.take_left _ _

/-- The sixty-four name bytes followed by seventeen bytes of numbers. -/
theorem FILEINFO.toBytes_layout (r : FILEINFO) (h : r.name.length = 64) :
    r.toBytes.take 64 = r.name ∧
    (r.toBytes.drop 64).take 4 = htolel r.x ∧
    (r.toBytes.drop 68).take 4 = htolel r.y ∧
    (r.toBytes.drop 72).take 4 = htolel r.w ∧
    (r.toBytes.drop 76).take 4 = htolel r.h ∧
    r.toBytes.drop 80 = [r.used % 256] := by
  rw [FILEINFO.toBytes_eq]
  refine ⟨take_name_field _ _ h, ?_, ?_, ?_, ?_, ?_⟩
  · rw [drop_name_field _ _ h 0]; rfl
  · rw [drop_name_field _ _ h 4]; rfl
  · rw [drop_name_field _ _ h 8]; rfl
  · rw [drop_name_field _ _ h 12]; rfl
  · rw [drop_name_field _ _ h 16]; rfl

theorem FILEINFO.ofBytes_toBytes (r : FILEINFO) (h : r.name.length = 64)
    (hx : r.x < ULONG_RANGE) (hy : r.y < ULONG_RANGE) (hw : r.w < ULONG_RANGE)
    (hh : r.h < ULONG_RANGE) (hu : r.used < 256) : FILEINFO.ofBytes r.toBytes = r := by
  obtain ⟨h1, h2, h3, h4, h5, h6⟩ := FILEINFO.toBytes_layout r h
  have h7 : r.toBytes.getD 80 0 = r.used := by
    have : r.toBytes.getD 80 0 = (r.toBytes.drop 80).getD 0 0 := by
      simp [List.getD_eq_getElem?_getD, List.getElem?_drop]
    rw [this, h6]
    simp [Nat.mod_eq_of_lt hu]
  unfold FILEINFO.ofBytes
  rw [h1, h2, h3, h4, h5, h7, letohl_htolel hx, letohl_htolel hy, letohl_htolel hw,
    letohl_htolel hh]

theorem recordsOf_flatten :
    ∀ (rs : List FILEINFO) (fuel : Nat),
      (∀ r ∈ rs, r.name.length = 64 ∧ r.x < ULONG_RANGE ∧ r.y < ULONG_RANGE ∧
        r.w < ULONG_RANGE ∧ r.h < ULONG_RANGE ∧ r.used < 256) →
      rs.length ≤ fuel → recordsOf fuel (rs.map FILEINFO.toBytes).flatten = rs := by
  intro rs
  induction rs with
  | nil =>
    intro fuel _ _
    cases fuel <;> simp [recordsOf]
  | cons r rs ih =>
    intro fuel hgood hfuel
    cases fuel with
    | zero => simp at hfuel
    | succ fuel =>
      obtain ⟨hn, hx, hy, hw, hh, hu⟩ := hgood r (List.mem_cons_self _ _)
      have hlen := FILEINFO.toBytes_length r hn
      have hnot : ¬ (r.toBytes ++ (rs.map FILEINFO.toBytes).flatten).length < 81 := by
        simp only [List.length_append, hlen]; omega
      have htake : (r.toBytes ++ (rs.map FILEINFO.toBytes).flatten).take 81 = r.toBytes := by
        rw [← hlen]; exact List.take_left _ _
      have hdrop : (r.toBytes ++ (rs.map FILEINFO.toBytes).flatten).drop 81 =
          (rs.map FILEINFO.toBytes).flatten := by
        rw [← hlen]; exact List.drop_left _ _
      simp only [List.map_cons, List.flatten_cons, recordsOf, hnot, if_false, htake, hdrop]
      rw [FILEINFO.ofBytes_toBytes r hn hx hy hw hh hu,
        ih fuel (fun q hq => hgood q (List.mem_cons_of_mem _ hq)) (by simpa using hfuel)]

theorem saveIndex_bytes_length (filename : wstring) (s : FilePairImpl) :
    (s.saveIndex filename).1.length = 4 + 81 * s.files.length := by
  unfold FilePairImpl.saveIndex
  simp only [List.length_append, htolel_length]
  congr 1
  induction s.files with
  | nil => rfl
  | cons e m ih =>
    simp only [List.map_cons, List.flatten_cons, List.length_append, List.length_cons, ih,
      FILEINFO.toBytes_length _ (outputRecord_name_length e.1 e.2)]
    omega

theorem takeWhile_append_zeros (b : List Nat) (n : Nat) (hb : ∀ x ∈ b, x ≠ 0) :
    (b ++ List.replicate n 0).takeWhile (fun x => decide (x ≠ 0)) = b := by
  induction b with
  | nil =>
    cases n with
    | zero => rfl
    | succ n => simp [List.replicate_succ, List.takeWhile]
  | cons x b ih =>
    have hx : x ≠ 0 := hb x (List.mem_cons_self _ _)
    simp only [List.cons_append, List.takeWhile_cons, hx, ne_eq, not_false_eq_true,
      decide_True, if_true]
    rw [ih (fun y hy => hb y (List.mem_cons_of_mem _ hy))]

theorem WideCharToMultiByte_ascii (name : wstring) (hlen : name.length ≤ 63)
    (hc : UpperAscii name) : WideCharToMultiByte name = name.map Char.toNat := by
  unfold WideCharToMultiByte
  rw [List.take_of_length_le (by simp; omega)]
  apply List.map_congr_left
  intro c hcm
  have := (hc c hcm).2.1
  have h256 : c.toNat < 256 := by omega
  simp [h256]

/-- The name written by `saveIndex` for an upper-case ASCII key of at most 63
characters decodes to that key. -/
theorem decodeName_outputRecord (name : wstring) (fi : FileInfo) (hlen : name.length ≤ 63)
    (hc : UpperAscii name) : decodeName (outputRecord name fi).name = name := by
  unfold decodeName outputRecord
  simp only
  rw [WideCharToMultiByte_ascii name hlen hc, List.take_append_eq_append_take,
    List.take_of_length_le (by simp; omega), List.take_replicate,
    takeWhile_append_zeros _ _ (by
      intro x hx
      obtain ⟨c, hcm, rfl⟩ := List.mem_map.1 hx
      exact (hc c hcm).1)]
  unfold MultiByteToWideChar
  rw [List.map_map, List.map_map]
  conv_rhs => rw [← List.map_id name]
  apply List.map_congr_left
  intro c hcm
  simp [(hc c hcm).2.2]

theorem readRecord_total (width height : Nat) (input : FILEINFO) (s : FilePairImpl) :
    ∃ s1, readRecord width height input s = Except.ok s1 := by
  unfold readRecord
  simp only
  split
  · exact ⟨_, rfl⟩
  · split
    · unfold FreeArea.addUsedArea
      obtain ⟨⟨c, fa⟩, hres⟩ := FreeArea.removeRect_terminates
        ⟨FreeArea.ofInt (usub input.toFileInfo.x 1), FreeArea.ofInt (usub input.toFileInfo.y 1),
          FreeArea.ofInt (uadd input.toFileInfo.w 2), FreeArea.ofInt (uadd input.toFileInfo.h 2)⟩
        s.freearea
      simp only [hres]
      cases c
      · exact ⟨_, rfl⟩
      · exact ⟨_, rfl⟩
    · exact ⟨_, rfl⟩

/-- Reading as many records as the file holds ends without an exception. -/
theorem readRecords_total (width height : Nat) :
    ∀ (records : List FILEINFO) (s : FilePairImpl),
      ∃ s1, readRecords width height records.length records s = Except.ok (none, s1) := by
  intro records
  induction records with
  | nil => intro s; exact ⟨s, rfl⟩
  | cons r rs ih =>
    intro s
    obtain ⟨s1, h1⟩ := readRecord_total width height r s
    obtain ⟨s2, h2⟩ := ih s1
    refine ⟨s2, ?_⟩
    simp only [List.length_cons, readRecords, h1, h2]

theorem find?_outputRecord (m : FileMap) (name : wstring)
    (hm : ∀ e ∈ m, e.1.length ≤ 63 ∧ UpperAscii e.1) :
    ((m.map (fun e => outputRecord e.1 e.2)).find?
        (fun r => decide (decodeName r.name = name))).map FILEINFO.toFileInfo =
      m.find name := by
  induction m with
  | nil => rfl
  | cons e m ih =>
    have he := hm e (List.mem_cons_self _ _)
    have hd := decodeName_outputRecord e.1 e.2 he.1 he.2
    simp only [List.map_cons, List.find?_cons, hd, FileMap.find]
    by_cases hk : e.1 = name
    · simp [hk, FILEINFO.toFileInfo, outputRecord]
    · simp only [hk, decide_False, if_false]
      exact ih (fun q hq => hm q (List.mem_cons_of_mem _ hq))

/-- Loading an index file that holds as many records as its count says, with
an image that can be read, gives a file pair; each name is mapped to the
first record that decodes to it. -/
theorem load_complete (lib : FreeImage) (filename1 filename2 : wstring) (dib : FIBITMAP)
    (hbm : lib.Load filename2 = LoadResult.loaded dib) (records : List FILEINFO) :
    ∃ t, FilePairImpl.load lib filename1 filename2 records.length records =
        Except.ok (Except.ok t) ∧
      ∀ name, t.files.find name =
        (records.find? (fun r => decide (decodeName r.name = name))).map
          FILEINFO.toFileInfo := by
  have hread : ReadBitmapFile lib filename2 = Except.ok dib := by
    unfold ReadBitmapFile; rw [hbm]
  obtain ⟨s1, hs1⟩ := readRecords_total dib.width dib.height records
    { selected := none, indexFilename := [], imageFilename := [],
      freearea := FreeArea.empty.addFreeArea 0 0 dib.width dib.height,
      bitmap := dib, readOnly := false, modified := 0, files := [] }
  refine ⟨{ s1 with indexFilename := filename1, imageFilename := filename2,
                    selected := none, modified := 0 }, ?_, ?_⟩
  · unfold FilePairImpl.load
    rw [hread]
    simp only [FilePairImpl.ReadIndexFile, hs1]
  · intro name
    have := readRecords_find _ _ _ _ _ hs1 name
    simpa [FileMap.find] using this

/-- C13: for every index whose names are non-empty upper-case ASCII strings of
at most 63 characters and whose entries hold 32-bit coordinates and a byte
`used`, loading the bytes written by `saveIndex` (with an image that can be
read) succeeds and gives a mapping with the same names, each with the same
x, y, w, h and used. -/
theorem saveIndex_load_round_trip (lib : FreeImage) (filename1 filename2 : wstring)
    (dib : FIBITMAP) (s : FilePairImpl)
    (hbm : lib.Load filename2 = LoadResult.loaded dib)
    (hnames : ∀ e ∈ s.files, e.1 ≠ [] ∧ e.1.length ≤ 63 ∧ UpperAscii e.1)
    (hvals : ∀ e ∈ s.files, e.2.Typed)
    (hn : s.files.length < ULONG_RANGE) :
    ∃ t, FilePairImpl.loadFile lib filename1 filename2 (s.saveIndex filename1).1 =
        Except.ok (Except.ok t) ∧
      ∀ name, t.files.find name = s.files.find name := by
  have hlen := saveIndex_bytes_length filename1 s
  have hbytes : (s.saveIndex filename1).1 = htolel s.files.length ++
      ((s.files.map (fun e => outputRecord e.1 e.2)).map FILEINFO.toBytes).flatten := by
    unfold FilePairImpl.saveIndex
    simp only [Nat.mod_eq_of_lt hn, List.map_map]
    rfl
  have htake : (s.saveIndex filename1).1.take 4 = htolel s.files.length := by
    rw [hbytes]; exact List.take_left (htolel s.files.length) _
  have hdrop : (s.saveIndex filename1).1.drop 4 =
      ((s.files.map (fun e => outputRecord e.1 e.2)).map FILEINFO.toBytes).flatten := by
    rw [hbytes]; exact List.drop_left (htolel s.files.length) _
  have hrecs : recordsOf (s.saveIndex filename1).1.length ((s.saveIndex filename1).1.drop 4) =
      s.files.map (fun e => outputRecord e.1 e.2) := by
    rw [hdrop]
    apply recordsOf_flatten
    · intro r hr
      obtain ⟨e, he, rfl⟩ := List.mem_map.1 hr
      obtain ⟨hx, hy, hw, hh, hu⟩ := hvals e he
      exact ⟨outputRecord_name_length e.1 e.2, hx, hy, hw, hh, hu⟩
    · rw [hlen, List.length_map]; omega
  obtain ⟨t, ht, hfind⟩ := load_complete lib filename1 filename2 dib hbm
    (s.files.map (fun e => outputRecord e.1 e.2))
  refine ⟨t, ?_, ?_⟩
  · unfold FilePairImpl.loadFile
    have hnot : ¬ (s.saveIndex filename1).1.length < 4 := by rw [hlen]; omega
    rw [if_neg hnot, htake, hrecs, letohl_htolel hn]
    rw [List.length_map] at ht
    exact ht
  · intro name
    rw [hfind name]
    exact find?_outputRecord s.files name (fun e he => (hnames e he).2)

/-- Witness of C13: the index `A` (1,1,10,10,1), `B` (20,1,5,5,1) is written
as 166 bytes and read back. -/
theorem saveIndex_load_round_trip_witness :
    (exampleIndex.saveIndex ['i']).1.length = 166 ∧
    ∃ t, FilePairImpl.loadFile (exampleLib true) ['i'] ['a'] (exampleIndex.saveIndex ['i']).1 =
        Except.ok (Except.ok t) ∧
      ∀ name, t.files.find name =
        FileMap.find [(['A'], ⟨1, 1, 10, 10, 1⟩), (['B'], ⟨20, 1, 5, 5, 1⟩)] name :=
  ⟨rfl, saveIndex_load_round_trip (exampleLib true) ['i'] ['a'] ⟨62, 62, fun _ _ => 7⟩
    exampleIndex rfl (by decide) (by decide) (by decide)⟩

theorem flatten_chunk :
    ∀ (m : List (List Nat)) (i : Nat) (c : List Nat), (∀ x ∈ m, x.length = 81) →
      m[i]? = some c → (m.flatten.drop (81 * i)).take 81 = c := by
  intro m
  induction m with
  | nil => intro i c _ h; simp at h
  | cons x m ih =>
    intro i c hlen h
    have hx : x.length = 81 := hlen x (List.mem_cons_self _ _)
    cases i with
    | zero =>
      simp only [List.getElem?_cons_zero, Option.some.injEq] at h
      subst h
      simp only [Nat.mul_zero, List.drop_zero, List.flatten_cons]
      rw [← hx]; exact List.take_left x _
    | succ k =>
      simp only [List.getElem?_cons_succ] at h
      have hd : (x ++ m.flatten).drop (81 * (k + 1)) = m.flatten.drop (81 * k) := by
        have : 81 * (k + 1) = x.length + 81 * k := by omega
        rw [this]; exact List.drop_append _
      rw [List.flatten_cons, hd]
      exact ih k c (fun y hy => hlen y (List.mem_cons_of_mem _ hy)) h

theorem recordAt_saveIndex (filename : wstring) (s : FilePairImpl) (i : Nat)
    (e : wstring × FileInfo) (h : s.files[i]? = some e) :
    recordAt (s.saveIndex filename).1 i = (outputRecord e.1 e.2).toBytes := by
  unfold recordAt FilePairImpl.saveIndex
  simp only
  have hd : (htolel (s.files.length % ULONG_RANGE) ++
      (s.files.map (fun e => (outputRecord e.1 e.2).toBytes)).flatten).drop (4 + 81 * i) =
      (s.files.map (fun e => (outputRecord e.1 e.2).toBytes)).flatten.drop (81 * i) := by
    have : 4 + 81 * i = (htolel (s.files.length % ULONG_RANGE)).length + 81 * i := rfl
    rw [this]; exact List.drop_append _
  rw [hd]
  apply flatten_chunk
  · intro x hx
    obtain ⟨q, _, rfl⟩ := List.mem_map.1 hx
    exact FILEINFO.toBytes_length _ (outputRecord_name_length q.1 q.2)
  · rw [List.getElem?_map, h]; rfl

/-- C14: for every index of n entries with 32-bit coordinates and a byte
`used`, the bytes written by `saveIndex` are 4 + 81 n bytes: a little-endian
u32 equal to n, then for the i-th entry in iteration order a record of 81
bytes made of 64 name bytes, the little-endian u32 values x, y, w, h in that
order, and the byte `used`. -/
theorem saveIndex_layout (filename : wstring) (s : FilePairImpl)
    (hn : s.files.length < ULONG_RANGE) (hvals : ∀ e ∈ s.files, e.2.Typed) :
    (s.saveIndex filename).1.length = 4 + 81 * s.files.length ∧
    letohl ((s.saveIndex filename).1.take 4) = s.files.length ∧
    ∀ (i : Nat) (e : wstring × FileInfo), s.files[i]? = some e →
      (recordAt (s.saveIndex filename).1 i).length = 81 ∧
      ((recordAt (s.saveIndex filename).1 i).take 64).length = 64 ∧
      (recordAt (s.saveIndex filename).1 i).take 64 =
        WideCharToMultiByte e.1 ++ List.replicate (64 - (WideCharToMultiByte e.1).length) 0 ∧
      letohl (((recordAt (s.saveIndex filename).1 i).drop 64).take 4) = e.2.x ∧
      letohl (((recordAt (s.saveIndex filename).1 i).drop 68).take 4) = e.2.y ∧
      letohl (((recordAt (s.saveIndex filename).1 i).drop 72).take 4) = e.2.w ∧
      letohl (((recordAt (s.saveIndex filename).1 i).drop 76).take 4) = e.2.h ∧
      (recordAt (s.saveIndex filename).1 i).drop 80 = [e.2.used] := by
  refine ⟨saveIndex_bytes_length filename s, ?_, ?_⟩
  · have : (s.saveIndex filename).1.take 4 = htolel (s.files.length % ULONG_RANGE) := by
      unfold FilePairImpl.saveIndex
      exact List.take_left (htolel (s.files.length % ULONG_RANGE)) _
    rw [this, Nat.mod_eq_of_lt hn, letohl_htolel hn]
  · intro i e he
    obtain ⟨hx, hy, hw, hh, hu⟩ := hvals e (List.getElem?_mem he)
    have hname := outputRecord_name_length e.1 e.2
    obtain ⟨h1, h2, h3, h4, h5, h6⟩ := FILEINFO.toBytes_layout (outputRecord e.1 e.2) hname
    rw [recordAt_saveIndex filename s i e he]
    refine ⟨FILEINFO.toBytes_length _ hname, ?_, ?_, ?_, ?_, ?_, ?_, ?_⟩
    · rw [h1]; exact hname
    · rw [h1]; rfl
    · rw [h2]; exact letohl_htolel hx
    · rw [h3]; exact letohl_htolel hy
    · rw [h4]; exact letohl_htolel hw
    · rw [h5]; exact letohl_htolel hh
    · rw [h6]
      show [e.2.used % 256] = [e.2.used]
      rw [Nat.mod_eq_of_lt hu]

/-- Witness of C14: the index `A` (1,1,10,10,1), `B` (20,1,5,5,1); its second
record starts with the byte 66 of `B` and holds x = 20. -/
theorem saveIndex_layout_witness :
    (exampleIndex.saveIndex ['i']).1.length = 4 + 81 * 2 ∧
    letohl ((exampleIndex.saveIndex ['i']).1.take 4) = 2 ∧
    (recordAt (exampleIndex.saveIndex ['i']).1 1).take 4 = [66, 0, 0, 0] ∧
    ((recordAt (exampleIndex.saveIndex ['i']).1 1).drop 64).take 4 = [20, 0, 0, 0] ∧
    ∀ (i : Nat) (e : wstring × FileInfo), exampleIndex.files[i]? = some e →
      (recordAt (exampleIndex.saveIndex ['i']).1 i).length = 81 ∧
      ((recordAt (exampleIndex.saveIndex ['i']).1 i).take 64).length = 64 ∧
      (recordAt (exampleIndex.saveIndex ['i']).1 i).take 64 =
        WideCharToMultiByte e.1 ++ List.replicate (64 - (WideCharToMultiByte e.1).length) 0 ∧
      letohl (((recordAt (exampleIndex.saveIndex ['i']).1 i).drop 64).take 4) = e.2.x ∧
      letohl (((recordAt (exampleIndex.saveIndex ['i']).1 i).drop 68).take 4) = e.2.y ∧
      letohl (((recordAt (exampleIndex.saveIndex ['i']).1 i).drop 72).take 4) = e.2.w ∧
      letohl (((recordAt (exampleIndex.saveIndex ['i']).1 i).drop 76).take 4) = e.2.h ∧
      (recordAt (exampleIndex.saveIndex ['i']).1 i).drop 80 = [e.2.used] :=
  ⟨rfl, rfl, rfl, rfl,
    (saveIndex_layout ['i'] exampleIndex (by decide) (by decide)).2.2⟩

/-! ## Rename and delete -/

namespace FileMap

theorem find_erase_ne (m : FileMap) (k k1 : wstring) (h : k1 ≠ k) :
    find (erase m k) k1 = find m k1 := by
  induction m with
  | nil => rfl
  | cons e m ih =>
    have ih2 : find (m.filter (fun e => decide (e.1 ≠ k))) k1 = find m k1 := ih
    show find ((e :: m).filter (fun e => decide (e.1 ≠ k))) k1 = find (e :: m) k1
    by_cases hk : e.1 = k
    · have hk1 : ¬ e.1 = k1 := fun e1 => h (e1.symm.trans hk)
      rw [List.filter_cons_of_neg (by simp [hk]), ih2]
      simp [find, hk1]
    · rw [List.filter_cons_of_pos (by simp [hk])]
      simp only [find, ih2]

theorem length_place (m : FileMap) (k : wstring) (v : FileInfo) :
    (place m k v).length = m.length + 1 :=
  (place_perm m k v).length_eq

theorem length_erase (m : FileMap) (k : wstring) (old : FileInfo)
    (hkeys : (m.map Prod.fst).Nodup) (h : find m k = some old) :
    (erase m k).length + 1 = m.length := by
  induction m with
  | nil => simp [find] at h
  | cons e m ih =>
    rw [List.map_cons, List.nodup_cons] at hkeys
    unfold find at h
    unfold erase at ih ⊢
    by_cases hk : e.1 = k
    · have hrest : m.filter (fun q => decide (q.1 ≠ k)) = m := by
        rw [List.filter_eq_self]
        intro q hq
        have : q.1 ≠ k := by
          intro e1
          apply hkeys.1
          rw [hk, ← e1]
          exact List.mem_map.mpr ⟨q, hq, rfl⟩
        simp [this]
      simp only [List.filter_cons, hk, ne_eq, not_true_eq_false, decide_False, hrest,
        List.length_cons]
      rfl
    · simp only [hk, if_false] at h
      simp only [List.filter_cons, ne_eq, hk, not_false_eq_true, decide_True, if_true,
        List.length_cons]
      rw [ih hkeys.2 h]

end FileMap

/-- The result of `renameFile` in terms of the state before the call. -/
theorem renameFile_true_iff (filename target : wstring) (s : FilePairImpl) :
    (FilePair.renameFile filename target s).1 = true ↔
      (s.readOnly = false ∧ target ≠ [] ∧ s.files.find target = none ∧
        (s.files.find filename).isSome = true) := by
  unfold FilePair.renameFile
  cases hro : s.readOnly
  · by_cases ht : target = []
    · simp [ht]
    · cases hf : s.files.find target with
      | some v => simp [ht]
      | none =>
        cases hg : s.files.find filename with
        | some fi => simp [ht]
        | none => simp [ht]
  · simp

/-- C18: `renameFile(old, new)` returns `true` if and only if the pair is not
read-only, `new` is not empty, `new` is not a key and `old` is a key.  In
that case, for an index with distinct keys, `old` is no longer a key, `new`
is mapped to the x, y, w, h, used that `old` had, every other name is mapped
as before, the free set, the bitmap and the read-only flag are as before, and
the number of entries is the same.  When it returns `false` the whole state
is as before. -/
theorem renameFile_spec (filename target : wstring) (s : FilePairImpl)
    (hkeys : (s.files.map Prod.fst).Nodup) :
    ((FilePair.renameFile filename target s).1 = true ↔
      (s.readOnly = false ∧ target ≠ [] ∧ s.files.find target = none ∧
        (s.files.find filename).isSome = true)) ∧
    ((FilePair.renameFile filename target s).1 = true →
      (FilePair.renameFile filename target s).2.files.find target = s.files.find filename ∧
      (FilePair.renameFile filename target s).2.files.find filename = none ∧
      (∀ name, name ≠ filename → name ≠ target →
        (FilePair.renameFile filename target s).2.files.find name = s.files.find name) ∧
      (FilePair.renameFile filename target s).2.freearea = s.freearea ∧
      (FilePair.renameFile filename target s).2.bitmap = s.bitmap ∧
      (FilePair.renameFile filename target s).2.readOnly = s.readOnly ∧
      (FilePair.renameFile filename target s).2.files.length = s.files.length) ∧
    ((FilePair.renameFile filename target s).1 = false →
      (FilePair.renameFile filename target s).2 = s) := by
  refine ⟨renameFile_true_iff filename target s, ?_, ?_⟩
  · intro htrue
    obtain ⟨hro, ht, hnone, hsome⟩ := (renameFile_true_iff filename target s).1 htrue
    obtain ⟨fi, hfi⟩ := Option.isSome_iff_exists.1 hsome
    have hne : filename ≠ target := by
      intro e
      rw [e, hnone] at hfi
      cases hfi
    have hres : FilePair.renameFile filename target s =
        (true, { s with files := (s.files.erase filename).insert target fi,
                        modified := IMAGE ||| INDEX }) := by
      unfold FilePair.renameFile
      simp [hro, ht, hnone, hfi]
    have hnone2 : (s.files.erase filename).find target = none :=
      FileMap.find_erase_of_none s.files filename target hnone
    rw [hres]
    refine ⟨?_, ?_, ?_, rfl, rfl, rfl, ?_⟩
    · simp only [FileMap.find_insert, if_true, hnone2, Option.getD_none, hfi]
    · simp only [FileMap.find_insert, hne, if_false]
      exact FileMap.find_erase_self s.files filename
    · intro name h1 h2
      simp only [FileMap.find_insert, h2, if_false]
      exact FileMap.find_erase_ne s.files filename name h1
    · show ((s.files.erase filename).insert target fi).length = s.files.length
      unfold FileMap.insert
      simp only [hnone2, Option.isSome_none, Bool.false_eq_true, if_false, FileMap.length_place]
      exact FileMap.length_erase s.files filename fi hkeys hfi
  · intro hfalse
    unfold FilePair.renameFile at hfalse ⊢
    cases hro : s.readOnly
    · by_cases ht : target = []
      · simp [ht]
      · cases hf : s.files.find target with
        | some v => simp [ht]
        | none =>
          cases hg : s.files.find filename with
          | some fi => simp [hro, ht, hf, hg] at hfalse
          | none => simp [ht]
    · simp

theorem exampleInserted_reachable : Reachable (exampleLib true) exampleInserted :=
  Reachable.insert
    ⟨none, [], [], ⟨[⟨0, 0, 64, 64⟩], []⟩, ⟨64, 64, fun _ _ => 0⟩, false, 0, []⟩ 4
    [['a'], ['b']] ⟨[['a'], ['b']], none, exampleInserted⟩
    (Reachable.create 64 64 _ (by decide) (by decide) rfl) rfl

/-- Witness of C18: in the pair holding `A` and `B`, `B` is renamed to `C`. -/
theorem renameFile_spec_witness :
    (FilePair.renameFile ['B'] ['C'] exampleInserted).1 = true ∧
    (FilePair.renameFile ['B'] ['C'] exampleInserted).2.files =
      [(['A'], ⟨1, 1, 62, 62, 1⟩), (['C'], ⟨65, 1, 1, 1, 1⟩)] ∧
    ((FilePair.renameFile ['B'] ['C'] exampleInserted).1 = true →
      (FilePair.renameFile ['B'] ['C'] exampleInserted).2.files.find ['C'] =
        exampleInserted.files.find ['B'] ∧
      (FilePair.renameFile ['B'] ['C'] exampleInserted).2.files.find ['B'] = none ∧
      (∀ name, name ≠ ['B'] → name ≠ ['C'] →
        (FilePair.renameFile ['B'] ['C'] exampleInserted).2.files.find name =
          exampleInserted.files.find name) ∧
      (FilePair.renameFile ['B'] ['C'] exampleInserted).2.freearea = exampleInserted.freearea ∧
      (FilePair.renameFile ['B'] ['C'] exampleInserted).2.bitmap = exampleInserted.bitmap ∧
      (FilePair.renameFile ['B'] ['C'] exampleInserted).2.readOnly =
        exampleInserted.readOnly ∧
      (FilePair.renameFile ['B'] ['C'] exampleInserted).2.files.length =
        exampleInserted.files.length) :=
  ⟨rfl, rfl, (renameFile_spec ['B'] ['C'] exampleInserted (by decide)).2.1⟩

/-- C19: in the pair holding `A` and `B`, `renameFile` of `B` to a name of 64
characters succeeds and leaves a key of 64 characters, and `renameFile` of `B`
to the lower-case name `x` succeeds and leaves the key `x`: the new name is
stored as given, neither cut to 63 characters nor upper-cased. -/
theorem renameFile_stores_name_as_given :
    (FilePair.renameFile ['B'] (List.replicate 64 'X') exampleInserted).1 = true ∧
    (FilePair.renameFile ['B'] (List.replicate 64 'X') exampleInserted).2.files.map Prod.fst =
      [['A'], List.replicate 64 'X'] ∧
    (List.replicate 64 'X').length = 64 ∧
    (FilePair.renameFile ['B'] ['x'] exampleInserted).1 = true ∧
    (FilePair.renameFile ['B'] ['x'] exampleInserted).2.files.map Prod.fst = [['A'], ['x']] ∧
    ['x'].map Char.toUpper ≠ ['x'] :=
  ⟨rfl, rfl, rfl, rfl, rfl, by decide⟩

/-! ## The recycle pool stays consistent -/

theorem poolOK_addFreeArea (x y w h : Int) {fa : FreeArea} (hp : fa.PoolOK) :
    (fa.addFreeArea x y w h).PoolOK := by
  unfold FreeArea.addFreeArea
  exact FreeArea.poolOK_addRect hp

theorem poolOK_getFreeArea {fa fa1 : FreeArea} {area found : RECT} {b : Bool}
    (hp : fa.PoolOK) (h : fa.getFreeArea area = some (b, found, fa1)) : fa1.PoolOK := by
  unfold FreeArea.getFreeArea at h
  split at h
  · rename_i p _
    cases hr : FreeArea.removeRect ⟨p.x, p.y, area.w, area.h⟩ fa with
    | none => simp [hr] at h
    | some res =>
      obtain ⟨c, t⟩ := res
      simp only [hr, Option.map_some', Option.some.injEq, Prod.mk.injEq] at h
      obtain ⟨_, _, rfl⟩ := h
      exact FreeArea.poolOK_removeRect hp hr
  · cases h; exact hp

theorem poolOK_growStep {st : AllocState} (hp : st.freearea.PoolOK) :
    (growStep st).freearea.PoolOK := by
  unfold growStep
  split
  · exact poolOK_addFreeArea _ _ _ _ hp
  · exact poolOK_addFreeArea _ _ _ _ hp

theorem poolOK_allocArea (lib : FreeImage) (area : RECT) :
    ∀ (fuel : Nat) (st : AllocState) (found : RECT) (st1 : AllocState),
      st.freearea.PoolOK → allocArea lib area fuel st = Except.ok (Except.ok (found, st1)) →
      st1.freearea.PoolOK := by
  intro fuel
  induction fuel with
  | zero => intro st found st1 _ h; simp [allocArea] at h
  | succ fuel ih =>
    intro st found st1 hp h
    unfold allocArea at h
    split at h
    · cases h
    · rename_i f fa hg
      cases h
      exact poolOK_getFreeArea hp hg
    · rename_i a fa hg
      simp only at h
      split at h
      · cases h
      · rename_i nb _
        refine ih _ found st1 ?_ h
        exact poolOK_growStep (poolOK_getFreeArea hp hg)

theorem poolOK_allocAreas (lib : FreeImage) (fuel : Nat) :
    ∀ (bitmaps : List FIBITMAP) (st : AllocState) (areas : List RECT) (st1 : AllocState),
      st.freearea.PoolOK → allocAreas lib fuel bitmaps st = Except.ok (Except.ok (areas, st1)) →
      st1.freearea.PoolOK := by
  intro bitmaps
  induction bitmaps with
  | nil => intro st areas st1 hp h; cases h; exact hp
  | cons dib rest ih =>
    intro st areas st1 hp h
    unfold allocAreas at h
    split at h
    · cases h
    · cases h
    · rename_i area st2 ha
      split at h
      · cases h
      · cases h
      · rename_i areas2 st3 hb
        cases h
        exact ih st2 areas2 st1 (poolOK_allocArea lib _ fuel st area st2 hp ha) hb

theorem poolOK_releaseArea (lib : FreeImage) (old : FileInfo) (bitmap : FIBITMAP)
    {fa : FreeArea} (hp : fa.PoolOK) : (releaseArea lib old bitmap fa).2.PoolOK :=
  poolOK_addFreeArea _ _ _ _ hp

theorem poolOK_placeFile (lib : FreeImage) (s : FilePairImpl) (filename : wstring)
    (dib : FIBITMAP) (area : RECT) (hp : s.freearea.PoolOK) :
    (placeFile lib s filename dib area).freearea.PoolOK := by
  unfold placeFile
  simp only
  cases s.files.find (normalizeName filename) with
  | none => exact hp
  | some old => exact poolOK_releaseArea lib old s.bitmap hp

theorem poolOK_placeFiles (lib : FreeImage) :
    ∀ (fn : List wstring) (s : FilePairImpl) (bm : List FIBITMAP) (areas : List RECT),
      s.freearea.PoolOK → (placeFiles lib s fn bm areas).freearea.PoolOK := by
  intro fn
  induction fn with
  | nil => intro s bm areas hp; unfold placeFiles; exact hp
  | cons f fs ih =>
    intro s bm areas hp
    cases bm with
    | nil => unfold placeFiles; exact hp
    | cons d ds =>
      cases areas with
      | nil => unfold placeFiles; exact hp
      | cons a as =>
        unfold placeFiles
        exact ih _ ds as (poolOK_placeFile lib s f d a hp)

theorem poolOK_insertFiles (lib : FreeImage) {fuel : Nat} {filenames : List wstring}
    {s : FilePairImpl} {o : InsertOutcome} (hp : s.freearea.PoolOK)
    (h : FilePairImpl.insertFiles lib fuel filenames s = Except.ok o) :
    o.state.freearea.PoolOK := by
  unfold FilePairImpl.insertFiles at h
  split at h
  · cases h; exact hp
  · split at h
    · cases h; exact hp
    · split at h
      · cases h
      · split at h
        · cases h
        · cases h; exact hp
        · rename_i areas st ha
          cases h
          exact poolOK_placeFiles lib _ _ _ _ (poolOK_allocAreas lib fuel _ _ areas st hp ha)

theorem poolOK_deleteFile (lib : FreeImage) (filename : wstring) {s : FilePairImpl}
    (hp : s.freearea.PoolOK) : (FilePair.deleteFile lib filename s).freearea.PoolOK := by
  unfold FilePair.deleteFile
  split
  · cases s.files.find filename with
    | none => exact hp
    | some old => exact poolOK_releaseArea lib old s.bitmap hp
  · exact hp

theorem poolOK_renameFile (filename target : wstring) {s : FilePairImpl}
    (hp : s.freearea.PoolOK) : (FilePair.renameFile filename target s).2.freearea.PoolOK := by
  unfold FilePair.renameFile
  split
  · cases s.files.find target with
    | some v => exact hp
    | none =>
      cases s.files.find filename with
      | some fi => exact hp
      | none => exact hp
  · exact hp

/-- The recycle pool of every reachable file pair is consistent. -/
theorem poolOK_of_reachable {lib : FreeImage} {s : FilePairImpl} (h : Reachable lib s) :
    s.freearea.PoolOK := by
  induction h with
  | create width height s _ _ hc =>
    unfold FilePairImpl.create at hc
    split at hc
    · cases hc
    · cases hc
      exact poolOK_addFreeArea _ _ _ _ FreeArea.poolOK_empty
  | insert s fuel filenames o _ hi ih => exact poolOK_insertFiles lib ih hi
  | delete s filename _ ih => exact poolOK_deleteFile lib filename ih
  | rename s filename target _ ih => exact poolOK_renameFile filename target ih

/-! ## Delete -/

/-- A request that fits into some stored rectangle is granted. -/
theorem getFreeArea_of_fit (area : RECT) (s : FreeArea)
    (h : ∃ p ∈ s.Rects, area.w ≤ p.w ∧ area.h ≤ p.h) :
    ∃ found fa, s.getFreeArea area = some (true, found, fa) ∧ found.w = area.w ∧
      found.h = area.h := by
  unfold FreeArea.getFreeArea
  cases hfind : s.Rects.find? (fun p => decide (p.w ≥ area.w) && decide (p.h ≥ area.h)) with
  | none =>
    obtain ⟨p, hp, hw, hh⟩ := h
    have := List.find?_eq_none.1 hfind p hp
    simp [hw, hh] at this
  | some p =>
    obtain ⟨⟨c, t⟩, hres⟩ := FreeArea.removeRect_terminates ⟨p.x, p.y, area.w, area.h⟩ s
    exact ⟨⟨p.x, p.y, area.w, area.h⟩, t, by simp only [hres, Option.map_some'], rfl, rfl⟩

/-- After `addRect` some stored rectangle contains the rectangle added. -/
theorem addRect_contains {r : RECT} {fa : FreeArea} (hr : r.InRange) (hfa : fa.InRange)
    (hp : fa.PoolOK) : ∃ p ∈ (FreeArea.addRect r fa).Rects, r.Inside p := by
  have hself : r.Inside r := by unfold RECT.Inside; omega
  rcases FreeArea.addRect_cases r fa with ⟨hany, e⟩ | ⟨_, _, e⟩ | ⟨_, top, rest, hrec, e⟩
  · obtain ⟨p, hpm, hc⟩ := List.any_eq_true.mp hany
    rw [e]
    exact ⟨p, hpm, (FreeArea.containedIn_iff hr (hfa p hpm)).mp hc⟩
  · rw [e]
    exact ⟨r, by simp, hself⟩
  · rw [e]
    obtain ⟨q, hq, _⟩ := hp.2 top (by rw [hrec]; exact List.mem_cons_self _ _)
    have hlt : top < fa.Rects.length := by
      by_contra hge
      rw [List.getElem?_eq_none (by omega)] at hq
      cases hq
    refine ⟨r, ?_, hself⟩
    apply List.getElem?_mem (n := top)
    simp [List.getElem?_set, hlt]

/-- The effect of `deleteFile` under the packing invariant:
on a writable file pair that satisfies the packing invariant and has
a consistent recycle pool (as every reachable pair does), `deleteFile` of a
name found in the index removes that name, leaves every other name mapped as
before and the bitmap size as it was, and afterwards some stored free
rectangle contains the old bordered rectangle `(x-1, y-1, w+2, h+2)`, so that
`getFreeArea` for `(w+2, h+2)` succeeds; `deleteFile` of a name that is not
in the index leaves the whole state as it was. -/
theorem deleteFile_spec (lib : FreeImage) (filename : wstring) (s : FilePairImpl)
    (hro : s.readOnly = false) (hs : AtlasInv s) (hpool : s.freearea.PoolOK) :
    (∀ old, s.files.find filename = some old →
      (FilePair.deleteFile lib filename s).files.find filename = none ∧
      (∀ name, name ≠ filename →
        (FilePair.deleteFile lib filename s).files.find name = s.files.find name) ∧
      (FilePair.deleteFile lib filename s).bitmap.width = s.bitmap.width ∧
      (FilePair.deleteFile lib filename s).bitmap.height = s.bitmap.height ∧
      (∃ p ∈ (FilePair.deleteFile lib filename s).freearea.Rects, old.bordered.Inside p) ∧
      ∃ found fa, (FilePair.deleteFile lib filename s).freearea.getFreeArea
          ⟨0, 0, old.w + 2, old.h + 2⟩ = some (true, found, fa) ∧
        found.w = old.w + 2 ∧ found.h = old.h + 2) ∧
    (s.files.find filename = none → FilePair.deleteFile lib filename s = s) := by
  constructor
  · intro old hfind
    have hmem := FileMap.mem_of_find hfind
    have hpos := hs.2 (filename, old) hmem
    have hin := hs.1.used_within old.bordered (List.mem_map.mpr ⟨(filename, old), hmem, rfl⟩)
    have hfree := releaseArea_freearea lib s.bitmap s.freearea hs.1.width_le hs.1.height_le
      hpos.1 hpos.2 hin
    have hd := releaseArea_dims lib old s.bitmap s.freearea
    have hres : FilePair.deleteFile lib filename s =
        { s with bitmap := (releaseArea lib old s.bitmap s.freearea).1,
                 freearea := (releaseArea lib old s.bitmap s.freearea).2,
                 files := s.files.erase filename, modified := IMAGE ||| INDEX } := by
      unfold FilePair.deleteFile
      simp only [hro, hfind, Bool.not_false, if_true]
    obtain ⟨p, hp, hins⟩ := addRect_contains
      (RECT_within_inRange hin hs.1.width_le hs.1.height_le) (packed_inRange hs.1) hpool
    rw [hres]
    refine ⟨FileMap.find_erase_self _ _, fun name hne => FileMap.find_erase_ne _ _ _ hne,
      hd.1, hd.2, ?_, ?_⟩
    · show ∃ p ∈ (releaseArea lib old s.bitmap s.freearea).2.Rects, old.bordered.Inside p
      rw [hfree]
      exact ⟨p, hp, hins⟩
    · show ∃ found fa, (releaseArea lib old s.bitmap s.freearea).2.getFreeArea
          ⟨0, 0, old.w + 2, old.h + 2⟩ = some (true, found, fa) ∧ _
      rw [hfree]
      apply getFreeArea_of_fit
      refine ⟨p, hp, ?_⟩
      unfold RECT.Inside FileInfo.bordered at hins
      simp only at hins ⊢
      omega
  · intro hnone
    unfold FilePair.deleteFile
    simp only [hro, hnone, Bool.not_false, if_true]

/-- Example of `deleteFile_spec`: deleting `A` from the pair holding `A` and `B` adds the
free rectangle `(0, 0, 64, 64)`. -/
theorem deleteFile_spec_witness :
    (FilePair.deleteFile (exampleLib true) ['A'] exampleInserted).files =
      [(['B'], ⟨65, 1, 1, 1, 1⟩)] ∧
    (FilePair.deleteFile (exampleLib true) ['A'] exampleInserted).freearea =
      ⟨[⟨67, 0, 61, 64⟩, ⟨64, 3, 64, 61⟩, ⟨0, 0, 64, 64⟩], []⟩ ∧
    (∀ old, exampleInserted.files.find ['A'] = some old →
      (FilePair.deleteFile (exampleLib true) ['A'] exampleInserted).files.find ['A'] = none ∧
      (∀ name, name ≠ ['A'] →
        (FilePair.deleteFile (exampleLib true) ['A'] exampleInserted).files.find name =
          exampleInserted.files.find name) ∧
      (FilePair.deleteFile (exampleLib true) ['A'] exampleInserted).bitmap.width =
        exampleInserted.bitmap.width ∧
      (FilePair.deleteFile (exampleLib true) ['A'] exampleInserted).bitmap.height =
        exampleInserted.bitmap.height ∧
      (∃ p ∈ (FilePair.deleteFile (exampleLib true) ['A'] exampleInserted).freearea.Rects,
        old.bordered.Inside p) ∧
      ∃ found fa, (FilePair.deleteFile (exampleLib true) ['A'] exampleInserted).freearea.getFreeArea
          ⟨0, 0, old.w + 2, old.h + 2⟩ = some (true, found, fa) ∧
        found.w = old.w + 2 ∧ found.h = old.h + 2) :=
  ⟨rfl, rfl,
    (deleteFile_spec (exampleLib true) ['A'] exampleInserted rfl
      (atlasInv_of_reachable exampleLib_wellBehaved exampleInserted_reachable)
      (poolOK_of_reachable exampleInserted_reachable)).1⟩

/-! ## The border of a written image -/

theorem copyBorderRows_spec (fi : FileInfo) (P : Nat → Nat → Nat) (hw : 1 ≤ fi.w)
    (hx : 1 ≤ fi.x) :
    ∀ (n c r : Nat),
      (List.range n).foldl (fun bits y => copyBorderRow fi bits (fi.y + y)) P c r =
        if fi.y ≤ r ∧ r < fi.y + n then
          (if c = fi.x - 1 then P fi.x r
           else if c = fi.x + fi.w then P (fi.x + fi.w - 1) r else P c r)
        else P c r := by
  intro n
  induction n with
  | zero =>
    intro c r
    have : ¬ (fi.y ≤ r ∧ r < fi.y + 0) := by omega
    simp only [List.range_zero, List.foldl_nil, this, if_false]
  | succ n ih =>
    intro c r
    rw [List.range_succ, List.foldl_append]
    simp only [List.foldl_cons, List.foldl_nil]
    generalize (List.range n).foldl (fun bits y => copyBorderRow fi bits (fi.y + y)) P = B at ih
    unfold copyBorderRow
    simp only [ih]
    by_cases hr : r = fi.y + n
    · subst hr
      split_ifs <;> first | rfl | (exfalso; omega)
    · split_ifs <;> first | rfl | (exfalso; omega)

theorem copyBorder_clamped (fi : FileInfo) (bitmap : FIBITMAP) (img : Nat → Nat → Nat)
    (hw : 1 ≤ fi.w) (hh : 1 ≤ fi.h) (hx : 1 ≤ fi.x) (hy : 1 ≤ fi.y)
    (hP : ∀ c r, fi.x ≤ c → c < fi.x + fi.w → fi.y ≤ r → r < fi.y + fi.h →
      bitmap.bits c r = img (c - fi.x) (r - fi.y)) :
    ∀ (i j : Nat), i ≤ fi.w + 1 → j ≤ fi.h + 1 →
      (copyBorder fi bitmap).bits (fi.x - 1 + i) (fi.y - 1 + j) =
        img (min (i - 1) (fi.w - 1)) (min (j - 1) (fi.h - 1)) := by
  intro i j hi hj
  unfold copyBorder copyRow
  simp only [copyBorderRows_spec fi _ hw hx]
  split_ifs <;>
    first
    | (exfalso; omega)
    | (rw [hP _ _ (by omega) (by omega) (by omega) (by omega)]; congr 1 <;> omega)

/-- The bitmap `placeFile` leaves: paste and border copy on the bitmap from
which an old entry of the same name, if any, has been released. -/
theorem placeFile_bitmap (lib : FreeImage) (s : FilePairImpl) (filename : wstring)
    (dib : FIBITMAP) (area : RECT) :
    ∃ prev : FIBITMAP, prev.width = s.bitmap.width ∧ prev.height = s.bitmap.height ∧
      (placeFile lib s filename dib area).bitmap =
        copyBorder ⟨uadd area.x 1, uadd area.y 1, usub area.w 2, usub area.h 2, 1⟩
          (FreeImage_Paste lib prev dib (uadd area.x 1) (uadd area.y 1)) := by
  unfold placeFile
  simp only
  cases s.files.find (normalizeName filename) with
  | none => exact ⟨s.bitmap, rfl, rfl, rfl⟩
  | some old =>
    have hd := releaseArea_dims lib old s.bitmap s.freearea
    exact ⟨(releaseArea lib old s.bitmap s.freearea).1, hd.1, hd.2, rfl⟩

theorem placeFile_border_general (lib : FreeImage) (s : FilePairImpl) (filename : wstring)
    (dib : FIBITMAP) (area : RECT) (hw : 1 ≤ dib.width) (hh : 1 ≤ dib.height)
    (haw : area.w = dib.width + 2) (hah : area.h = dib.height + 2)
    (hin : area.Within s.bitmap.width s.bitmap.height)
    (hW : s.bitmap.width ≤ INT_MAX) (hH : s.bitmap.height ≤ INT_MAX) :
    ∃ prev : FIBITMAP, ∀ (i j : Int), -1 ≤ i → i ≤ dib.width → -1 ≤ j → j ≤ dib.height →
      (placeFile lib s filename dib area).bitmap.bits
          ((area.x : Int) + 1 + i).toNat ((area.y : Int) + 1 + j).toNat =
        lib.Combine (dib.bits (clampTo i dib.width) (clampTo j dib.height))
          (prev.bits (area.x + 1 + clampTo i dib.width) (area.y + 1 + clampTo j dib.height)) := by
  obtain ⟨prev, hpw, hph, hbm⟩ := placeFile_bitmap lib s filename dib area
  refine ⟨prev, ?_⟩
  unfold RECT.Within at hin
  have hW2 := hW
  have hH2 := hH
  unfold INT_MAX at hW2 hH2
  have e1 : uadd area.x 1 = area.x + 1 := uadd_eq_of_lt (by unfold ULONG_RANGE; omega)
  have e2 : uadd area.y 1 = area.y + 1 := uadd_eq_of_lt (by unfold ULONG_RANGE; omega)
  have e3 : usub area.w 2 = dib.width := by
    rw [usub_eq_of_le (by omega) (by unfold ULONG_RANGE; omega)]; omega
  have e4 : usub area.h 2 = dib.height := by
    rw [usub_eq_of_le (by omega) (by unfold ULONG_RANGE; omega)]; omega
  rw [e1, e2, e3, e4] at hbm
  have hpaste : ∀ c r, area.x + 1 ≤ c → c < area.x + 1 + dib.width → area.y + 1 ≤ r →
      r < area.y + 1 + dib.height →
      (FreeImage_Paste lib prev dib (area.x + 1) (area.y + 1)).bits c r =
        lib.Combine (dib.bits (c - (area.x + 1)) (r - (area.y + 1)))
          (prev.bits (area.x + 1 + (c - (area.x + 1))) (area.y + 1 + (r - (area.y + 1)))) := by
    intro c r h1 h2 h3 h4
    have hcond : area.x + 1 ≤ INT_MAX ∧ area.y + 1 ≤ INT_MAX ∧
        area.x + 1 + dib.width ≤ prev.width ∧ area.y + 1 + dib.height ≤ prev.height := by
      rw [hpw, hph]; unfold INT_MAX; omega
    have hinside : area.x + 1 ≤ c ∧ c < area.x + 1 + dib.width ∧ area.y + 1 ≤ r ∧
        r < area.y + 1 + dib.height := ⟨h1, h2, h3, h4⟩
    have hc : area.x + 1 + (c - (area.x + 1)) = c := by omega
    have hr : area.y + 1 + (r - (area.y + 1)) = r := by omega
    unfold FreeImage_Paste
    rw [if_pos hcond]
    simp only [hinside, and_self, if_true, hc, hr]
  have hclamp := copyBorder_clamped ⟨area.x + 1, area.y + 1, dib.width, dib.height, 1⟩
    (FreeImage_Paste lib prev dib (area.x + 1) (area.y + 1))
    (fun c r => lib.Combine (dib.bits c r) (prev.bits (area.x + 1 + c) (area.y + 1 + r)))
    hw hh (by simp) (by simp) hpaste
  intro i j hi1 hi2 hj1 hj2
  have h := hclamp (i + 1).toNat (j + 1).toNat (by simp only; omega) (by simp only; omega)
  simp only at h
  have ex : ((area.x : Int) + 1 + i).toNat = area.x + 1 - 1 + (i + 1).toNat := by omega
  have ey : ((area.y : Int) + 1 + j).toNat = area.y + 1 - 1 + (j + 1).toNat := by omega
  have ci : clampTo i dib.width = min ((i + 1).toNat - 1) (dib.width - 1) := by
    unfold clampTo; omega
  have cj : clampTo j dib.height = min ((j + 1).toNat - 1) (dib.height - 1) := by
    unfold clampTo; omega
  rw [hbm, ex, ey, ci, cj]
  exact h

/-- C20: when `placeFile` writes an image of `w` by `h` pixels (`w ≥ 1`,
`h ≥ 1`) into its area of `(w+2)` by `(h+2)` pixels inside the bitmap, with a
library whose paste stores the source pixel, the interior origin is
`(x, y) = (area.x + 1, area.y + 1)` and for all `i` in `[-1, w]` and `j` in
`[-1, h]` the pixel `(x+i, y+j)` of the bitmap afterwards is the image pixel
`(min(max(i,0), w-1), min(max(j,0), h-1))`, the four corners included. -/
theorem placeFile_border_clamped (lib : FreeImage) (s : FilePairImpl) (filename : wstring)
    (dib : FIBITMAP) (area : RECT) (hcopy : ∀ src dst, lib.Combine src dst = src)
    (hw : 1 ≤ dib.width) (hh : 1 ≤ dib.height)
    (haw : area.w = dib.width + 2) (hah : area.h = dib.height + 2)
    (hin : area.Within s.bitmap.width s.bitmap.height)
    (hW : s.bitmap.width ≤ INT_MAX) (hH : s.bitmap.height ≤ INT_MAX) :
    ∀ (i j : Int), -1 ≤ i → i ≤ dib.width → -1 ≤ j → j ≤ dib.height →
      (placeFile lib s filename dib area).bitmap.bits
          ((area.x : Int) + 1 + i).toNat ((area.y : Int) + 1 + j).toNat =
        dib.bits (clampTo i dib.width) (clampTo j dib.height) := by
  obtain ⟨prev, hprev⟩ := placeFile_border_general lib s filename dib area hw hh haw hah hin hW hH
  intro i j hi1 hi2 hj1 hj2
  rw [hprev i j hi1 hi2 hj1 hj2, hcopy]

/-- Witness of C20: a 2 x 2 image with four different pixels written into the
area `(0, 0, 4, 4)` of the 160 x 100 atlas; the corner `(0, 0)` of the area
takes the image pixel `(0, 0)` and the corner `(3, 3)` the image pixel
`(1, 1)`. -/
theorem placeFile_border_clamped_witness :
    (placeFile (exampleLib true) twoHoleAtlas ['e'] ⟨2, 2, fun c r => 10 * r + c + 1⟩
        ⟨0, 0, 4, 4⟩).bitmap.bits 0 0 = 1 ∧
    (placeFile (exampleLib true) twoHoleAtlas ['e'] ⟨2, 2, fun c r => 10 * r + c + 1⟩
        ⟨0, 0, 4, 4⟩).bitmap.bits 3 3 = 12 ∧
    (placeFile (exampleLib true) twoHoleAtlas ['e'] ⟨2, 2, fun c r => 10 * r + c + 1⟩
        ⟨0, 0, 4, 4⟩).bitmap.bits 3 0 = 2 ∧
    ∀ (i j : Int), -1 ≤ i → i ≤ (2 : Nat) → -1 ≤ j → j ≤ (2 : Nat) →
      (placeFile (exampleLib true) twoHoleAtlas ['e'] ⟨2, 2, fun c r => 10 * r + c + 1⟩
          ⟨0, 0, 4, 4⟩).bitmap.bits (((0 : Nat) : Int) + 1 + i).toNat
          (((0 : Nat) : Int) + 1 + j).toNat =
        10 * clampTo j 2 + clampTo i 2 + 1 :=
  ⟨rfl, rfl, rfl,
    placeFile_border_clamped (exampleLib true) twoHoleAtlas ['e']
      ⟨2, 2, fun c r => 10 * r + c + 1⟩ ⟨0, 0, 4, 4⟩ (fun _ _ => rfl) (by decide) (by decide)
      rfl rfl ⟨by decide, by decide⟩ (by decide) (by decide)⟩

/-! ## The entries written by `insertFiles` -/

namespace FileMap

theorem erase_of_find_none (m : FileMap) (k : wstring) (h : find m k = none) : erase m k = m := by
  induction m with
  | nil => rfl
  | cons e m ih =>
    unfold find at h
    split at h
    · cases h
    · rename_i hk
      show (e :: m).filter (fun e => decide (e.1 ≠ k)) = e :: m
      rw [List.filter_cons_of_pos (by simp [hk])]
      exact congrArg (List.cons e) (ih h)

theorem mem_place {m : FileMap} {k : wstring} {v : FileInfo} {e : wstring × FileInfo} :
    e ∈ place m k v ↔ e = (k, v) ∨ e ∈ m := by
  rw [(place_perm m k v).mem_iff, List.mem_cons]

theorem mem_erase {m : FileMap} {k : wstring} {e : wstring × FileInfo} :
    e ∈ erase m k ↔ e ∈ m ∧ e.1 ≠ k := by
  unfold erase
  simp [List.mem_filter]

end FileMap

/-- The index after one pass of the copy loop: the entry of the item's name
is erased, if there is one, and the new entry is put in its place. -/
theorem placeFile_files (lib : FreeImage) (s : FilePairImpl) (filename : wstring)
    (dib : FIBITMAP) (area : RECT) :
    (placeFile lib s filename dib area).files =
      (s.files.erase (normalizeName filename)).place (normalizeName filename)
        ⟨uadd area.x 1, uadd area.y 1, usub area.w 2, usub area.h 2, 1⟩ := by
  unfold placeFile
  simp only
  cases hfind : s.files.find (normalizeName filename) with
  | none =>
    simp only
    rw [FileMap.erase_of_find_none _ _ hfind]
    unfold FileMap.insert
    simp only [hfind, Option.isSome_none, Bool.false_eq_true, if_false]
  | some old =>
    simp only
    unfold FileMap.insert
    simp only [FileMap.find_erase_self, Option.isSome_none, Bool.false_eq_true, if_false]

theorem placeFile_find_self (lib : FreeImage) (s : FilePairImpl) (filename : wstring)
    (dib : FIBITMAP) (area : RECT) :
    (placeFile lib s filename dib area).files.find (normalizeName filename) =
      some ⟨uadd area.x 1, uadd area.y 1, usub area.w 2, usub area.h 2, 1⟩ := by
  rw [placeFile_files]
  exact FileMap.find_place_self _ _ _ (FileMap.find_erase_self _ _)

theorem placeFile_find_ne (lib : FreeImage) (s : FilePairImpl) (filename : wstring)
    (dib : FIBITMAP) (area : RECT) (name : wstring) (h : name ≠ normalizeName filename) :
    (placeFile lib s filename dib area).files.find name = s.files.find name := by
  rw [placeFile_files, FileMap.find_place_ne _ _ _ _ h, FileMap.find_erase_ne _ _ _ h]

/-- The index after the copy loop over a batch of distinct names: each item's
name is mapped to the entry made from its area, every other name as before. -/
theorem placeFiles_find (lib : FreeImage) :
    ∀ (fn : List wstring) (s : FilePairImpl) (bm : List FIBITMAP) (areas : List RECT),
      (fn.map normalizeName).Nodup → bm.length = fn.length → areas.length = fn.length →
      (∀ (i : Nat) (name : wstring) (area : RECT), fn[i]? = some name → areas[i]? = some area →
        (placeFiles lib s fn bm areas).files.find (normalizeName name) =
          some ⟨uadd area.x 1, uadd area.y 1, usub area.w 2, usub area.h 2, 1⟩) ∧
      (∀ name, name ∉ fn.map normalizeName →
        (placeFiles lib s fn bm areas).files.find name = s.files.find name) := by
  intro fn
  induction fn with
  | nil =>
    intro s bm areas _ _ _
    refine ⟨fun i name area h => by simp at h, fun name _ => ?_⟩
    unfold placeFiles
    rfl
  | cons f fs ih =>
    intro s bm areas hnd hbm har
    cases bm with
    | nil => simp at hbm
    | cons d ds =>
      cases areas with
      | nil => simp at har
      | cons a as =>
        rw [List.map_cons, List.nodup_cons] at hnd
        obtain ⟨ih1, ih2⟩ := ih (placeFile lib s f d a) ds as hnd.2
          (by simpa using hbm) (by simpa using har)
        unfold placeFiles
        constructor
        · intro i name area hi ha
          cases i with
          | zero =>
            simp only [List.getElem?_cons_zero, Option.some.injEq] at hi ha
            subst hi ha
            rw [ih2 _ hnd.1]
            exact placeFile_find_self lib s f d a
          | succ k =>
            simp only [List.getElem?_cons_succ] at hi ha
            exact ih1 k name area hi ha
        · intro name hname
          rw [List.map_cons, List.mem_cons, not_or] at hname
          rw [ih2 name hname.2]
          exact placeFile_find_ne lib s f d a name hname.1

theorem readFiles_forall₂ {lib : FreeImage} :
    ∀ (filenames : List wstring) (bitmaps : List FIBITMAP),
      readFiles lib filenames = Except.ok bitmaps →
      List.Forall₂ (fun f d => lib.Load f = LoadResult.loaded d) filenames bitmaps := by
  intro filenames
  induction filenames with
  | nil =>
    intro bitmaps h
    unfold readFiles at h
    cases h
    exact List.Forall₂.nil
  | cons f fs ih =>
    intro bitmaps h
    unfold readFiles at h
    split at h
    · cases h
    · rename_i dib hdib
      split at h
      · cases h
      · rename_i dibs hdibs
        cases h
        refine List.Forall₂.cons ?_ (ih dibs hdibs)
        unfold ReadBitmapFile at hdib
        split at hdib
        · cases hdib
        · cases hdib
        · cases hdib
        · rename_i hload
          cases hdib
          exact hload

/-- The sort of `insertFiles` permutes the pairs of name and bitmap. -/
theorem sorted_batch_perm {filenames fn : List wstring} {bitmaps bm : List FIBITMAP}
    (hlen : bitmaps.length = filenames.length)
    (h : QuickSortAreaDesc (filenames.length + 1) filenames bitmaps 0
      ((filenames.length : Int) - 1) = Except.ok (fn, bm)) :
    fn.length = filenames.length ∧ bm.length = bitmaps.length ∧
      (List.zip fn bm).Perm (List.zip filenames bitmaps) := by
  cases filenames with
  | nil =>
    cases bitmaps with
    | nil =>
      exfalso
      simp [QuickSortAreaDesc, vecGet] at h
    | cons b bs => simp at hlen
  | cons f fs =>
    have e : (((f :: fs).length : Nat) : Int) - 1 = (((f :: fs).length - 1 : Nat) : Int) := by
      simp
    have e0 : (0 : Int) = ((0 : Nat) : Int) := rfl
    obtain ⟨fn1, bm1, h1, ⟨r1, r2, r3, _, _⟩, _⟩ := quickSort_spec ((f :: fs).length + 1)
      (f :: fs) bitmaps 0 ((f :: fs).length - 1) hlen.symm (by omega)
      (by rw [hlen]; simp) (by omega)
    rw [e, e0, h1] at h
    cases h
    exact ⟨r1, r2, r3⟩

/-- The steps of a call of `insertFiles` on a writable pair that ends without
an exception: the files read, the sorted batch, the areas allocated, and the
state left by the copy loop. -/
theorem insertFiles_success {lib : FreeImage} {fuel : Nat} {filenames : List wstring}
    {s : FilePairImpl} {o : InsertOutcome} (hro : s.readOnly = false)
    (h : FilePairImpl.insertFiles lib fuel filenames s = Except.ok o) (herr : o.error = none) :
    ∃ (bitmaps : List FIBITMAP) (fn : List wstring) (bm : List FIBITMAP) (areas : List RECT)
      (st : AllocState) (bitmap1 : FIBITMAP),
      readFiles lib filenames = Except.ok bitmaps ∧
      QuickSortAreaDesc (filenames.length + 1) filenames bitmaps 0
        ((filenames.length : Int) - 1) = Except.ok (fn, bm) ∧
      allocAreas lib fuel bm ⟨s.freearea, none, s.bitmap.width, s.bitmap.height⟩ =
        Except.ok (Except.ok (areas, st)) ∧
      bitmap1 = (match st.newBitmap with
        | some nb => FreeImage_Paste lib nb s.bitmap 0 0
        | none => s.bitmap) ∧
      o.filenames = fn ∧
      o.state = { placeFiles lib { s with freearea := st.freearea, bitmap := bitmap1 } fn bm
                    areas with modified := IMAGE ||| INDEX } := by
  unfold FilePairImpl.insertFiles at h
  split at h
  · rename_i htrue
    rw [hro] at htrue
    cases htrue
  · split at h
    · cases h; cases herr
    · rename_i bitmaps hread
      split at h
      · cases h
      · rename_i fn bm hsort
        split at h
        · cases h
        · cases h; cases herr
        · rename_i areas st halloc
          cases h
          exact ⟨bitmaps, fn, bm, areas, st, _, hread, hsort, halloc, rfl, rfl, rfl⟩

/-- What the allocation loop of a successful `insertFiles` establishes, for a
pair satisfying the packing invariant: the areas are packed with the
rectangles in use, and each has the size of its bitmap plus the border. -/
theorem insertFiles_alloc_facts {lib : FreeImage} (hlib : lib.WellBehaved) {fuel : Nat}
    {filenames fn : List wstring} {s : FilePairImpl} {bitmaps bm : List FIBITMAP}
    {areas : List RECT} {st : AllocState} (hs : AtlasInv s)
    (hread : readFiles lib filenames = Except.ok bitmaps)
    (hsort : QuickSortAreaDesc (filenames.length + 1) filenames bitmaps 0
      ((filenames.length : Int) - 1) = Except.ok (fn, bm))
    (halloc : allocAreas lib fuel bm ⟨s.freearea, none, s.bitmap.width, s.bitmap.height⟩ =
      Except.ok (Except.ok (areas, st))) :
    Packed st.freearea st.newWidth st.newHeight
        (areas ++ s.files.map (fun e => e.2.bordered)) ∧
      List.Forall₂ (fun (a : RECT) (d : FIBITMAP) => a.w = d.width + 2 ∧ a.h = d.height + 2)
        areas bm ∧
      st.DimsOf s.bitmap.width s.bitmap.height := by
  obtain ⟨hlen, hload⟩ := readFiles_spec filenames bitmaps hread
  have hmem := sorted_bitmaps_mem hlen hsort
  have hdims : ∀ dib ∈ bm, dib.width ≤ INT_MAX ∧ dib.height ≤ INT_MAX := by
    intro d hd
    obtain ⟨name, hname⟩ := hload d (hmem d hd)
    have := hlib.2 name d hname
    exact ⟨this.2.1, this.2.2.2⟩
  exact allocAreas_spec hlib fuel s.bitmap.width s.bitmap.height bm
    ⟨s.freearea, none, s.bitmap.width, s.bitmap.height⟩
    (s.files.map (fun e => e.2.bordered)) areas st hdims hs.1 ⟨rfl, rfl⟩ halloc

/-- C16: after a call of `insertFiles` that ends without an exception on a
writable pair satisfying the packing invariant, for a batch whose normalized
names are pairwise distinct: the batch as sorted is a permutation of the
batch, and for each item, with `dib` its image and `area` the rectangle of
`(w+2)` by `(h+2)` pixels allocated for it, the normalized name is mapped to
the entry `(area.x + 1, area.y + 1, w, h, used = 1)`; every name that is not
a normalized name of the batch is mapped as before. -/
theorem insertFiles_entries (lib : FreeImage) (hlib : lib.WellBehaved) (fuel : Nat)
    (filenames : List wstring) (s : FilePairImpl) (o : InsertOutcome) (hs : AtlasInv s)
    (hro : s.readOnly = false)
    (h : FilePairImpl.insertFiles lib fuel filenames s = Except.ok o) (herr : o.error = none)
    (hdist : (filenames.map normalizeName).Nodup) :
    ∃ (bm : List FIBITMAP) (areas : List RECT) (st : AllocState),
      allocAreas lib fuel bm ⟨s.freearea, none, s.bitmap.width, s.bitmap.height⟩ =
        Except.ok (Except.ok (areas, st)) ∧
      o.filenames.Perm filenames ∧ bm.length = o.filenames.length ∧
      areas.length = o.filenames.length ∧
      (∀ (i : Nat) (name : wstring) (dib : FIBITMAP) (area : RECT),
        o.filenames[i]? = some name → bm[i]? = some dib → areas[i]? = some area →
        lib.Load name = LoadResult.loaded dib ∧
        area.w = dib.width + 2 ∧ area.h = dib.height + 2 ∧
        o.state.files.find (normalizeName name) =
          some ⟨area.x + 1, area.y + 1, dib.width, dib.height, 1⟩) ∧
      (∀ name, name ∉ filenames.map normalizeName →
        o.state.files.find name = s.files.find name) := by
  obtain ⟨bitmaps, fn, bm, areas, st, bitmap1, hread, hsort, halloc, _, hfn, hstate⟩ :=
    insertFiles_success hro h herr
  obtain ⟨hP, hF, _⟩ := insertFiles_alloc_facts hlib hs hread hsort halloc
  have hlen := (readFiles_spec filenames bitmaps hread).1
  obtain ⟨r1, r2, r3⟩ := sorted_batch_perm hlen hsort
  have hload := readFiles_forall₂ filenames bitmaps hread
  have hperm : fn.Perm filenames := by
    have := r3.map Prod.fst
    rwa [List.map_fst_zip _ _ (by omega), List.map_fst_zip _ _ (by omega)] at this
  have hnd : (fn.map normalizeName).Nodup := ((hperm.map normalizeName).nodup_iff).2 hdist
  have hbmlen : bm.length = fn.length := by omega
  have harlen : areas.length = fn.length := by rw [hF.length_eq]; exact hbmlen
  obtain ⟨hfind, hframe⟩ := placeFiles_find lib fn
    { s with freearea := st.freearea, bitmap := bitmap1 } bm areas hnd hbmlen harlen
  have hfiles : o.state.files =
      (placeFiles lib { s with freearea := st.freearea, bitmap := bitmap1 } fn bm areas).files := by
    rw [hstate]
  refine ⟨bm, areas, st, halloc, by rw [hfn]; exact hperm, by rw [hfn]; exact hbmlen,
    by rw [hfn]; exact harlen, ?_, ?_⟩
  · intro i name dib area hi hb ha
    rw [hfn] at hi
    have hpair : (name, dib) ∈ List.zip filenames bitmaps :=
      r3.mem_iff.1 (List.getElem?_mem (getElem?_zip_eq_some hi hb))
    have hsize := List.forall₂_zip hF (List.getElem?_mem (getElem?_zip_eq_some ha hb))
    have hwithin := hP.used_within area (List.mem_append_left _ (List.getElem?_mem ha))
    have hW := hP.width_le
    have hH := hP.height_le
    unfold RECT.Within at hwithin
    unfold INT_MAX at hW hH
    have e1 : uadd area.x 1 = area.x + 1 := uadd_eq_of_lt (by unfold ULONG_RANGE; omega)
    have e2 : uadd area.y 1 = area.y + 1 := uadd_eq_of_lt (by unfold ULONG_RANGE; omega)
    have e3 : usub area.w 2 = dib.width := by
      rw [usub_eq_of_le (by omega) (by unfold ULONG_RANGE; omega)]; omega
    have e4 : usub area.h 2 = dib.height := by
      rw [usub_eq_of_le (by omega) (by unfold ULONG_RANGE; omega)]; omega
    refine ⟨List.forall₂_zip hload hpair, hsize.1, hsize.2, ?_⟩
    rw [hfiles, hfind i name area hi ha, e1, e2, e3, e4]
  · intro name hname
    have hname2 : name ∉ fn.map normalizeName := fun hm =>
      hname ((hperm.map normalizeName).mem_iff.1 hm)
    rw [hfiles, hframe name hname2]

/-- Witness of C16: the batch `b`, `c` inserted into the pair holding `A` and
`B`; the 8 x 8 image `c` gets the area at (67, 0) and the 1 x 1 image `b`,
which replaces the entry `B`, the area at (77, 0). -/
theorem insertFiles_entries_witness :
    ∃ o, FilePairImpl.insertFiles (exampleLib true) 4 [['b'], ['c']] exampleInserted =
        Except.ok o ∧
      o.filenames = [['c'], ['b']] ∧
      o.state.files = [(['A'], ⟨1, 1, 62, 62, 1⟩), (['B'], ⟨78, 1, 1, 1, 1⟩),
        (['C'], ⟨68, 1, 8, 8, 1⟩)] ∧
      ∃ (bm : List FIBITMAP) (areas : List RECT) (st : AllocState),
        allocAreas (exampleLib true) 4 bm
            ⟨exampleInserted.freearea, none, exampleInserted.bitmap.width,
              exampleInserted.bitmap.height⟩ = Except.ok (Except.ok (areas, st)) ∧
        o.filenames.Perm [['b'], ['c']] ∧ bm.length = o.filenames.length ∧
        areas.length = o.filenames.length ∧
        (∀ (i : Nat) (name : wstring) (dib : FIBITMAP) (area : RECT),
          o.filenames[i]? = some name → bm[i]? = some dib → areas[i]? = some area →
          (exampleLib true).Load name = LoadResult.loaded dib ∧
          area.w = dib.width + 2 ∧ area.h = dib.height + 2 ∧
          o.state.files.find (normalizeName name) =
            some ⟨area.x + 1, area.y + 1, dib.width, dib.height, 1⟩) ∧
        (∀ name, name ∉ [['b'], ['c']].map normalizeName →
          o.state.files.find name = exampleInserted.files.find name) :=
  ⟨_, rfl, rfl, rfl,
    insertFiles_entries (exampleLib true) exampleLib_wellBehaved 4 [['b'], ['c']]
      exampleInserted _ (atlasInv_of_reachable exampleLib_wellBehaved exampleInserted_reachable)
      rfl rfl rfl (by decide)⟩

/-! ## Overwriting an entry -/

theorem placeFile_mem (lib : FreeImage) (s : FilePairImpl) (filename : wstring)
    (dib : FIBITMAP) (area : RECT) (e : wstring × FileInfo) :
    e ∈ (placeFile lib s filename dib area).files ↔
      e = (normalizeName filename,
          ⟨uadd area.x 1, uadd area.y 1, usub area.w 2, usub area.h 2, 1⟩) ∨
        (e ∈ s.files ∧ e.1 ≠ normalizeName filename) := by
  rw [placeFile_files, FileMap.mem_place, FileMap.mem_erase]

/-- Every entry after the copy loop is an entry from before it under a name
that is not in the batch, or the entry made from one of the areas. -/
theorem placeFiles_origin (lib : FreeImage) :
    ∀ (fn : List wstring) (s : FilePairImpl) (bm : List FIBITMAP) (areas : List RECT),
      bm.length = fn.length → areas.length = fn.length →
      ∀ e ∈ (placeFiles lib s fn bm areas).files,
        (e ∈ s.files ∧ e.1 ∉ fn.map normalizeName) ∨
          ∃ a ∈ areas, e.2 = ⟨uadd a.x 1, uadd a.y 1, usub a.w 2, usub a.h 2, 1⟩ := by
  intro fn
  induction fn with
  | nil =>
    intro s bm areas _ _ e he
    unfold placeFiles at he
    exact Or.inl ⟨he, by simp⟩
  | cons f fs ih =>
    intro s bm areas hbm har e he
    cases bm with
    | nil => simp at hbm
    | cons d ds =>
      cases areas with
      | nil => simp at har
      | cons a as =>
        unfold placeFiles at he
        rcases ih (placeFile lib s f d a) ds as (by simpa using hbm) (by simpa using har) e he
          with ⟨hmem, hnot⟩ | ⟨a1, ha1, heq⟩
        · rcases (placeFile_mem lib s f d a e).1 hmem with heq | ⟨hm, hne⟩
          · exact Or.inr ⟨a, List.mem_cons_self _ _, by rw [heq]⟩
          · refine Or.inl ⟨hm, ?_⟩
            rw [List.map_cons, List.mem_cons, not_or]
            exact ⟨hne, hnot⟩
        · exact Or.inr ⟨a1, List.mem_cons_of_mem _ ha1, heq⟩

/-- A stored rectangle that contains a non-empty rectangle `r` is still
stored after `addRect` of any rectangle. -/
theorem contains_addRect {r a : RECT} {fa : FreeArea} (hpool : fa.PoolOK) (hw : 0 < r.w)
    (h : ∃ p ∈ fa.Rects, r.Inside p) : ∃ p ∈ (FreeArea.addRect a fa).Rects, r.Inside p := by
  obtain ⟨p, hp, hins⟩ := h
  obtain ⟨j, hj⟩ := List.mem_iff_getElem?.mp hp
  have hpw : p.w ≠ 0 := by
    unfold RECT.Inside at hins
    omega
  exact ⟨p, List.getElem?_mem (FreeArea.getElem?_addRect_of_live hpool hj hpw), hins⟩

theorem placeFile_freearea (lib : FreeImage) (s : FilePairImpl) (filename : wstring)
    (dib : FIBITMAP) (area : RECT) :
    (placeFile lib s filename dib area).freearea =
      match s.files.find (normalizeName filename) with
      | some old => (releaseArea lib old s.bitmap s.freearea).2
      | none => s.freearea := by
  unfold placeFile
  simp only
  cases s.files.find (normalizeName filename) with
  | none => rfl
  | some old => rfl

theorem contains_placeFile (lib : FreeImage) (s : FilePairImpl) (filename : wstring)
    (dib : FIBITMAP) (area : RECT) {r : RECT} (hpool : s.freearea.PoolOK) (hw : 0 < r.w)
    (h : ∃ p ∈ s.freearea.Rects, r.Inside p) :
    ∃ p ∈ (placeFile lib s filename dib area).freearea.Rects, r.Inside p := by
  rw [placeFile_freearea]
  cases s.files.find (normalizeName filename) with
  | none => exact h
  | some old => exact contains_addRect hpool hw h

theorem contains_placeFiles (lib : FreeImage) {r : RECT} (hw : 0 < r.w) :
    ∀ (fn : List wstring) (s : FilePairImpl) (bm : List FIBITMAP) (areas : List RECT),
      s.freearea.PoolOK → (∃ p ∈ s.freearea.Rects, r.Inside p) →
      ∃ p ∈ (placeFiles lib s fn bm areas).freearea.Rects, r.Inside p := by
  intro fn
  induction fn with
  | nil => intro s bm areas _ h; unfold placeFiles; exact h
  | cons f fs ih =>
    intro s bm areas hpool h
    cases bm with
    | nil => unfold placeFiles; exact h
    | cons d ds =>
      cases areas with
      | nil => unfold placeFiles; exact h
      | cons a as =>
        unfold placeFiles
        exact ih _ ds as (poolOK_placeFile lib s f d a hpool)
          (contains_placeFile lib s f d a hpool hw h)

/-- An entry that the copy loop replaces has its bordered rectangle inside a
stored free rectangle when the loop ends. -/
theorem placeFiles_released (lib : FreeImage) :
    ∀ (areas : List RECT) (s : FilePairImpl) (fn : List wstring) (bm : List FIBITMAP),
      PlaceInv s areas → (∀ a ∈ areas, 2 ≤ a.w ∧ 2 ≤ a.h) → s.freearea.PoolOK →
      fn.length = areas.length → bm.length = areas.length →
      ∀ (k : wstring) (old : FileInfo), s.files.find k = some old →
        k ∈ fn.map normalizeName →
        ∃ p ∈ (placeFiles lib s fn bm areas).freearea.Rects, old.bordered.Inside p := by
  intro areas
  induction areas with
  | nil =>
    intro s fn bm _ _ _ hfn _ k old _ hk
    cases fn with
    | nil => simp at hk
    | cons f fs => simp at hfn
  | cons a as ih =>
    intro s fn bm hPI hsz hpool hfn hbm k old hfind hk
    cases fn with
    | nil => simp at hfn
    | cons f fs =>
      cases bm with
      | nil => simp at hbm
      | cons d ds =>
        have hsa := hsz a (List.mem_cons_self _ _)
        have hPI1 := placeInv_placeFile lib f d hPI hsa.1 hsa.2
        have hpool1 := poolOK_placeFile lib s f d a hpool
        unfold placeFiles
        by_cases hkf : k = normalizeName f
        · subst hkf
          have hmem := FileMap.mem_of_find hfind
          have hpos := hPI.2 (normalizeName f, old) hmem
          have hin := hPI.1.used_within old.bordered
            (List.mem_append_right _ (List.mem_map.mpr ⟨(normalizeName f, old), hmem, rfl⟩))
          have hfree := releaseArea_freearea lib s.bitmap s.freearea hPI.1.width_le
            hPI.1.height_le hpos.1 hpos.2 hin
          have hcont : ∃ p ∈ (placeFile lib s f d a).freearea.Rects, old.bordered.Inside p := by
            rw [placeFile_freearea, hfind]
            simp only
            rw [hfree]
            exact addRect_contains
              (RECT_within_inRange hin hPI.1.width_le hPI.1.height_le) (packed_inRange hPI.1)
              hpool
          exact contains_placeFiles lib (by unfold FileInfo.bordered; simp) fs _ ds as hpool1
            hcont
        · have hk2 : k ∈ fs.map normalizeName := by
            rw [List.map_cons, List.mem_cons] at hk
            exact hk.resolve_left hkf
          have hfind1 : (placeFile lib s f d a).files.find k = some old := by
            rw [placeFile_find_ne lib s f d a k hkf]; exact hfind
          exact ih (placeFile lib s f d a) fs ds hPI1
            (fun q hq => hsz q (List.mem_cons_of_mem _ hq)) hpool1 (by simpa using hfn)
            (by simpa using hbm) k old hfind1 hk2

/-- The state in which the copy loop of a successful `insertFiles` starts
satisfies the invariant of the loop, with all areas pending. -/
theorem insertFiles_placeInv {s : FilePairImpl} {areas : List RECT} {st : AllocState}
    (lib : FreeImage) (hs : AtlasInv s)
    (hP : Packed st.freearea st.newWidth st.newHeight
      (areas ++ s.files.map (fun e => e.2.bordered)))
    (hD : st.DimsOf s.bitmap.width s.bitmap.height) :
    PlaceInv
      { s with
        freearea := st.freearea
        bitmap := (match st.newBitmap with
          | some nb => FreeImage_Paste lib nb s.bitmap 0 0
          | none => s.bitmap) } areas := by
  have hdimsB : (match st.newBitmap with
      | some nb => FreeImage_Paste lib nb s.bitmap 0 0
      | none => s.bitmap).width = st.newWidth ∧
      (match st.newBitmap with
      | some nb => FreeImage_Paste lib nb s.bitmap 0 0
      | none => s.bitmap).height = st.newHeight := by
    unfold AllocState.DimsOf at hD
    cases hnb : st.newBitmap with
    | none =>
      rw [hnb] at hD
      simp only at hD ⊢
      exact ⟨hD.1.symm, hD.2.symm⟩
    | some nb =>
      rw [hnb] at hD
      simp only at hD ⊢
      have := FreeImage_Paste_dims lib nb s.bitmap 0 0
      exact ⟨this.1.trans hD.1, this.2.trans hD.2⟩
  refine ⟨?_, hs.2⟩
  simp only [hdimsB.1, hdimsB.2]
  exact hP

/-- C15, amended: let the pair be writable, let its bitmap be of `int` size,
let the bordered rectangles of its entries and its free rectangles lie inside
the bitmap, the bordered rectangles be pairwise disjoint and disjoint from
every non-empty free rectangle, every entry have `x ≥ 1` and `y ≥ 1`, and the
recycle pool be consistent; let the library only hand out bitmaps of positive
`int` size.  When `insertFiles` ends without an exception, the bordered
rectangle of an entry whose name is a normalized name of the batch is marked
free in the copy loop, after the rectangles of all items have been allocated.
No item of the batch is allocated inside it: the bordered rectangle of every
entry filed under a name of the batch is disjoint from the bordered rectangle
of every entry present before the call, the replaced ones included; and after
the call a stored free rectangle contains the bordered rectangle of each
replaced entry. -/
theorem insertFiles_overwrite_after_allocation (lib : FreeImage) (hlib : lib.WellBehaved)
    (fuel : Nat) (filenames : List wstring) (s : FilePairImpl) (o : InsertOutcome)
    (hs : AtlasInv s) (hpool : s.freearea.PoolOK) (hro : s.readOnly = false)
    (h : FilePairImpl.insertFiles lib fuel filenames s = Except.ok o) (herr : o.error = none) :
    (∀ e ∈ o.state.files, e.1 ∈ filenames.map normalizeName →
      ∀ e0 ∈ s.files, ¬ e.2.bordered.Overlaps e0.2.bordered) ∧
    (∀ (k : wstring) (old : FileInfo), s.files.find k = some old →
      k ∈ filenames.map normalizeName →
      ∃ p ∈ o.state.freearea.Rects, old.bordered.Inside p) := by
  obtain ⟨bitmaps, fn, bm, areas, st, bitmap1, hread, hsort, halloc, hb1, hfn, hstate⟩ :=
    insertFiles_success hro h herr
  obtain ⟨hP, hF, hD⟩ := insertFiles_alloc_facts hlib hs hread hsort halloc
  have hlen := (readFiles_spec filenames bitmaps hread).1
  obtain ⟨r1, r2, r3⟩ := sorted_batch_perm hlen hsort
  have hperm : fn.Perm filenames := by
    have := r3.map Prod.fst
    rwa [List.map_fst_zip _ _ (by omega), List.map_fst_zip _ _ (by omega)] at this
  have hbmlen : bm.length = fn.length := by omega
  have harlen : areas.length = fn.length := by rw [hF.length_eq]; exact hbmlen
  have hsz := areas_size_of_forall₂ hF
  have hPI := insertFiles_placeInv lib hs hP hD
  rw [← hb1] at hPI
  have hpool1 : st.freearea.PoolOK := poolOK_allocAreas lib fuel bm _ areas st hpool halloc
  have hfiles : o.state.files =
      (placeFiles lib { s with freearea := st.freearea, bitmap := bitmap1 } fn bm areas).files := by
    rw [hstate]
  have hfree : o.state.freearea =
      (placeFiles lib { s with freearea := st.freearea, bitmap := bitmap1 } fn bm
        areas).freearea := by
    rw [hstate]
  constructor
  · intro e he hname e0 he0
    rw [hfiles] at he
    rcases placeFiles_origin lib fn _ bm areas hbmlen harlen e he with ⟨_, hnot⟩ | ⟨a, ha, heq⟩
    · exact absurd ((hperm.map normalizeName).mem_iff.2 hname) hnot
    · have hin := hP.used_within a (List.mem_append_left _ ha)
      have hb := (bordered_of_area hP.width_le hP.height_le hin (hsz a ha).1 (hsz a ha).2).1
      rw [heq, hb]
      exact (List.pairwise_append.1 hP.used_disjoint).2.2 a ha e0.2.bordered
        (List.mem_map.mpr ⟨e0, he0, rfl⟩)
  · intro k old hfind hk
    rw [hfree]
    exact placeFiles_released lib areas _ fn bm hPI hsz hpool1 harlen.symm
      (by omega) k old hfind ((hperm.map normalizeName).mem_iff.2 hk)

/-- Witness of the amended C15: the batch `b`, `c` inserted into the pair
holding `A` and `B`; the new `B` lies at (78, 1) and the rectangle
`(64, 0, 3, 3)` of the old `B` is free afterwards. -/
theorem insertFiles_overwrite_after_allocation_witness :
    ∃ o, FilePairImpl.insertFiles (exampleLib true) 4 [['b'], ['c']] exampleInserted =
        Except.ok o ∧
      exampleInserted.files.find ['B'] = some ⟨65, 1, 1, 1, 1⟩ ∧
      o.state.files.find ['B'] = some ⟨78, 1, 1, 1, 1⟩ ∧
      o.state.freearea.Rects = [⟨80, 0, 48, 64⟩, ⟨64, 3, 3, 61⟩, ⟨64, 10, 64, 54⟩,
        ⟨77, 3, 51, 61⟩, ⟨64, 0, 3, 3⟩] ∧
      (∀ e ∈ o.state.files, e.1 ∈ [['b'], ['c']].map normalizeName →
        ∀ e0 ∈ exampleInserted.files, ¬ e.2.bordered.Overlaps e0.2.bordered) ∧
      (∀ (k : wstring) (old : FileInfo), exampleInserted.files.find k = some old →
        k ∈ [['b'], ['c']].map normalizeName →
        ∃ p ∈ o.state.freearea.Rects, old.bordered.Inside p) :=
  ⟨_, rfl, rfl, rfl, rfl,
    insertFiles_overwrite_after_allocation (exampleLib true) exampleLib_wellBehaved 4
      [['b'], ['c']] exampleInserted _
      (atlasInv_of_reachable exampleLib_wellBehaved exampleInserted_reachable)
      (poolOK_of_reachable exampleInserted_reachable) rfl rfl rfl⟩

/-- C15 fails as stated: in the 13 x 10 pair holding `B` (bordered rectangle
`(0, 0, 3, 3)`) and `Z`, the batch `p\b` (8 x 8, filed as `B`), `e` (1 x 1) is
inserted.  The first item takes the only free rectangle, `(3, 0, 10, 10)`,
without growth; then no free rectangle holds the 3 x 3 pixels of `e`, which
the rectangle of the old `B` would hold.  The old `B` is not freed before `e`
is placed: the atlas grows to 13 x 20 and `e` is filed at (1, 11), outside
the rectangle of the old `B`. -/
theorem overwrite_frees_after_allocation :
    ∃ o a st, FilePairImpl.insertFiles overwriteLib 4 [['p', Char.ofNat 92, 'b'], ['e']]
        overwriteAtlas = Except.ok o ∧
      o.error = none ∧
      o.filenames = [['p', Char.ofNat 92, 'b'], ['e']] ∧
      normalizeName ['p', Char.ofNat 92, 'b'] = ['B'] ∧
      overwriteAtlas.files.find ['B'] = some ⟨1, 1, 1, 1, 1⟩ ∧
      FileInfo.bordered ⟨1, 1, 1, 1, 1⟩ = ⟨0, 0, 3, 3⟩ ∧
      overwriteAtlas.bitmap.width = 13 ∧ overwriteAtlas.bitmap.height = 10 ∧
      allocArea overwriteLib ⟨0, 0, 10, 10⟩ 4 ⟨overwriteAtlas.freearea, none, 13, 10⟩ =
        Except.ok (Except.ok (a, st)) ∧
      st.newWidth = 13 ∧ st.newHeight = 10 ∧
      (∀ p ∈ st.freearea.Rects, ¬ (3 ≤ p.w ∧ 3 ≤ p.h)) ∧
      o.state.files.find ['E'] = some ⟨1, 11, 1, 1, 1⟩ ∧
      ¬ (FileInfo.bordered ⟨1, 11, 1, 1, 1⟩).Inside ⟨0, 0, 3, 3⟩ ∧
      o.state.bitmap.width = 13 ∧ o.state.bitmap.height = 20 :=
  ⟨_, _, _, rfl, rfl, rfl, rfl, rfl, rfl, rfl, rfl, rfl, rfl, rfl, by decide, rfl, by decide,
    rfl, rfl⟩

/-! ## Marking free twice, and the residual rectangles -/

/-- Marking a sub-rectangle free where no sum wraps:
for every in-range free set with a consistent recycle pool, every
in-range rectangle `r` and every rectangle `s` inside `r`, `addRect s` (and
`addFreeArea` with the same four values) after `addRect r` leaves the free
set exactly as `addRect r` left it: nothing is stored and the number of slots
does not grow. -/
theorem addRect_inside_is_noop (fa : FreeArea) (r s : RECT) (hfa : fa.InRange)
    (hpool : fa.PoolOK) (hr : r.InRange) (hsub : s.Inside r) :
    FreeArea.addRect s (FreeArea.addRect r fa) = FreeArea.addRect r fa ∧
    (FreeArea.addRect r fa).addFreeArea s.x s.y s.w s.h = FreeArea.addRect r fa ∧
    (FreeArea.addRect s (FreeArea.addRect r fa)).Rects.length =
      (FreeArea.addRect r fa).Rects.length := by
  have hs : s.InRange := FreeArea.RECT_inside_inRange hsub hr
  obtain ⟨p, hp, hins⟩ := addRect_contains hr hfa hpool
  have hpr : p.InRange := FreeArea.inRange_addRect hr hfa p hp
  have hany : (FreeArea.addRect r fa).Rects.any (FreeArea.containedIn s) = true :=
    List.any_eq_true.mpr
      ⟨p, hp, (FreeArea.containedIn_iff hs hpr).mpr (FreeArea.RECT_inside_trans hsub hins)⟩
  have h1 : FreeArea.addRect s (FreeArea.addRect r fa) = FreeArea.addRect r fa := by
    rcases FreeArea.addRect_cases s (FreeArea.addRect r fa) with ⟨_, e⟩ | ⟨hf, _⟩ | ⟨hf, _⟩
    · exact e
    · rw [hany] at hf; cases hf
    · rw [hany] at hf; cases hf
  refine ⟨h1, ?_, by rw [h1]⟩
  rw [FreeArea.addFreeArea_natCast hs, h1]

/-- Example of `addRect_inside_is_noop`: `(0, 0, 8, 8)` and then `(2, 2, 3, 3)` marked free in a
free set whose slot 0 has been emptied and recycled. -/
theorem addRect_inside_is_noop_witness :
    FreeArea.addRect ⟨0, 0, 8, 8⟩ ⟨[⟨0, 0, 0, 8⟩, ⟨8, 0, 8, 8⟩], [0]⟩ =
      ⟨[⟨0, 0, 8, 8⟩, ⟨8, 0, 8, 8⟩], []⟩ ∧
    (FreeArea.addRect ⟨2, 2, 3, 3⟩
        (FreeArea.addRect ⟨0, 0, 8, 8⟩ ⟨[⟨0, 0, 0, 8⟩, ⟨8, 0, 8, 8⟩], [0]⟩) =
      FreeArea.addRect ⟨0, 0, 8, 8⟩ ⟨[⟨0, 0, 0, 8⟩, ⟨8, 0, 8, 8⟩], [0]⟩ ∧
    (FreeArea.addRect ⟨0, 0, 8, 8⟩ ⟨[⟨0, 0, 0, 8⟩, ⟨8, 0, 8, 8⟩], [0]⟩).addFreeArea
        (2 : Nat) (2 : Nat) (3 : Nat) (3 : Nat) =
      FreeArea.addRect ⟨0, 0, 8, 8⟩ ⟨[⟨0, 0, 0, 8⟩, ⟨8, 0, 8, 8⟩], [0]⟩ ∧
    (FreeArea.addRect ⟨2, 2, 3, 3⟩
        (FreeArea.addRect ⟨0, 0, 8, 8⟩ ⟨[⟨0, 0, 0, 8⟩, ⟨8, 0, 8, 8⟩], [0]⟩)).Rects.length =
      (FreeArea.addRect ⟨0, 0, 8, 8⟩ ⟨[⟨0, 0, 0, 8⟩, ⟨8, 0, 8, 8⟩], [0]⟩).Rects.length) :=
  ⟨rfl, addRect_inside_is_noop ⟨[⟨0, 0, 0, 8⟩, ⟨8, 0, 8, 8⟩], [0]⟩ ⟨0, 0, 8, 8⟩ ⟨2, 2, 3, 3⟩
    (by decide)
    ⟨by decide, fun k hk => by
      simp only [List.mem_singleton] at hk
      subst hk
      exact ⟨⟨0, 0, 0, 8⟩, rfl, rfl⟩⟩ (by decide) (by decide)⟩

/-- C24, amended: for every in-range stored rectangle `F` and every in-range
rectangle `rect` that passes the intersection test with it, the residual
rectangles that `removeRect` adds for `F` (left, top, right, bottom, in that
order) are at most four, each lies inside `F`, and none overlaps `rect`.
They need not be disjoint from each other. -/
theorem remainders_inside_and_clear (rect F : RECT) (s : FreeArea) (hrect : rect.InRange)
    (hF : F.InRange) (hint : FreeArea.intersects rect F = true) :
    FreeArea.addRemainders rect F s =
      (FreeArea.remainders rect F).foldl (fun t a => FreeArea.addRect a t) s ∧
    (FreeArea.remainders rect F).length ≤ 4 ∧
    ∀ a ∈ FreeArea.remainders rect F, a.Inside F ∧ ¬ a.Overlaps rect := by
  refine ⟨FreeArea.addRemainders_eq_foldl rect F s, FreeArea.remainders_length_le rect F, ?_⟩
  intro a ha
  obtain ⟨hins, hw⟩ := FreeArea.remainder_inside hrect hF hint ha
  refine ⟨hins, ?_⟩
  intro hov
  have hmiss := FreeArea.intersects_remainder ha
  have := (FreeArea.intersects_iff hrect (FreeArea.RECT_inside_inRange hins hF)).mpr
    ⟨hw, RECT_overlaps_symm hov⟩
  rw [hmiss] at this
  cases this

/-- Witness of the amended C24: `(1, 1, 10, 10)` removed from `(0, 0, 64, 64)`. -/
theorem remainders_inside_and_clear_witness :
    FreeArea.remainders ⟨1, 1, 10, 10⟩ ⟨0, 0, 64, 64⟩ =
      [⟨0, 0, 1, 64⟩, ⟨0, 0, 64, 1⟩, ⟨11, 0, 53, 64⟩, ⟨0, 11, 64, 53⟩] ∧
    FreeArea.addRemainders ⟨1, 1, 10, 10⟩ ⟨0, 0, 64, 64⟩ FreeArea.empty =
      (FreeArea.remainders ⟨1, 1, 10, 10⟩ ⟨0, 0, 64, 64⟩).foldl
        (fun t a => FreeArea.addRect a t) FreeArea.empty ∧
    (FreeArea.remainders ⟨1, 1, 10, 10⟩ ⟨0, 0, 64, 64⟩).length ≤ 4 ∧
    ∀ a ∈ FreeArea.remainders ⟨1, 1, 10, 10⟩ ⟨0, 0, 64, 64⟩,
      a.Inside ⟨0, 0, 64, 64⟩ ∧ ¬ a.Overlaps ⟨1, 1, 10, 10⟩ :=
  ⟨rfl, remainders_inside_and_clear ⟨1, 1, 10, 10⟩ ⟨0, 0, 64, 64⟩ FreeArea.empty (by decide)
    (by decide) rfl⟩

/-- C24 fails as stated: removing `(1, 1, 10, 10)` from the stored rectangle
`(0, 0, 64, 64)` leaves the left residual `(0, 0, 1, 64)` and the top residual
`(0, 0, 64, 1)`, which share the pixel `(0, 0)`. -/
theorem left_and_top_residual_overlap :
    FreeArea.intersects ⟨1, 1, 10, 10⟩ ⟨0, 0, 64, 64⟩ = true ∧
    FreeArea.remainders ⟨1, 1, 10, 10⟩ ⟨0, 0, 64, 64⟩ =
      [⟨0, 0, 1, 64⟩, ⟨0, 0, 64, 1⟩, ⟨11, 0, 53, 64⟩, ⟨0, 11, 64, 53⟩] ∧
    (removeRectExample : Option (Bool × FreeArea)) =
      some (true, ⟨[⟨0, 0, 1, 64⟩, ⟨0, 0, 64, 1⟩, ⟨11, 0, 53, 64⟩, ⟨0, 11, 64, 53⟩], []⟩) ∧
    RECT.Overlaps ⟨0, 0, 1, 64⟩ ⟨0, 0, 64, 1⟩ ∧
    RECT.HasPixel ⟨0, 0, 1, 64⟩ 0 0 ∧ RECT.HasPixel ⟨0, 0, 64, 1⟩ 0 0 ∧
    ¬ (FreeArea.remainders ⟨1, 1, 10, 10⟩ ⟨0, 0, 64, 64⟩).Pairwise
        (fun a b => ¬ a.Overlaps b) :=
  ⟨rfl, rfl, rfl, by decide, by decide, by decide, by decide⟩

/-! ## Seeding the free set from a valid index -/

/-- A rectangle of positive size inside `r` that does not overlap `rect` lies
inside one of the residual rectangles of `r`. -/
theorem remainder_contains {rect r Q : RECT} (hrect : rect.InRange) (hr : r.InRange)
    (hw : 0 < Q.w) (hh : 0 < Q.h) (hQ : Q.Inside r) (hdis : ¬ Q.Overlaps rect) :
    ∃ a ∈ FreeArea.remainders rect r, Q.Inside a := by
  unfold RECT.InRange at hrect hr
  unfold RECT.Inside at hQ
  unfold RECT.Overlaps at hdis
  have e1 : uadd rect.x rect.w = rect.x + rect.w := uadd_eq_of_lt hrect.1
  have e2 : uadd rect.y rect.h = rect.y + rect.h := uadd_eq_of_lt hrect.2
  have e3 : uadd r.x r.w = r.x + r.w := uadd_eq_of_lt hr.1
  have e4 : uadd r.y r.h = r.y + r.h := uadd_eq_of_lt hr.2
  unfold FreeArea.remainders
  rw [e1, e2, e3, e4]
  simp only [List.mem_append]
  by_cases c1 : Q.x + Q.w ≤ rect.x
  · have hc : rect.x > r.x := by omega
    refine ⟨⟨r.x, r.y, usub rect.x r.x, r.h⟩, ?_, ?_⟩
    · left; left; left
      rw [if_pos hc]; exact List.mem_singleton.mpr rfl
    · rw [usub_eq_of_le (by omega) (by unfold ULONG_RANGE at *; omega)]
      unfold RECT.Inside
      simp only
      omega
  · by_cases c2 : Q.y + Q.h ≤ rect.y
    · have hc : rect.y > r.y := by omega
      refine ⟨⟨r.x, r.y, r.w, usub rect.y r.y⟩, ?_, ?_⟩
      · left; left; right
        rw [if_pos hc]; exact List.mem_singleton.mpr rfl
      · rw [usub_eq_of_le (by omega) (by unfold ULONG_RANGE at *; omega)]
        unfold RECT.Inside
        simp only
        omega
    · by_cases c3 : rect.x + rect.w ≤ Q.x
      · have hc : rect.x + rect.w < r.x + r.w := by omega
        refine ⟨⟨rect.x + rect.w, r.y, usub (r.x + r.w) (rect.x + rect.w), r.h⟩, ?_, ?_⟩
        · left; right
          rw [if_pos hc]; exact List.mem_singleton.mpr rfl
        · rw [usub_eq_of_le (by omega) (by unfold ULONG_RANGE at *; omega)]
          unfold RECT.Inside
          simp only
          omega
      · have c4 : rect.y + rect.h ≤ Q.y := by omega
        have hc : rect.y + rect.h < r.y + r.h := by omega
        refine ⟨⟨r.x, rect.y + rect.h, r.w, usub (r.y + r.h) (rect.y + rect.h)⟩, ?_, ?_⟩
        · right
          rw [if_pos hc]; exact List.mem_singleton.mpr rfl
        · rw [usub_eq_of_le (by omega) (by unfold ULONG_RANGE at *; omega)]
          unfold RECT.Inside
          simp only
          omega

/-- After a run of `addRect` calls each rectangle added lies inside a stored
rectangle. -/
theorem foldl_addRect_stored (l : List RECT) :
    ∀ (t : FreeArea), t.PoolOK → t.InRange → (∀ a ∈ l, a.InRange ∧ a.w ≠ 0) →
      ∀ a ∈ l, ∃ p ∈ (l.foldl (fun u a => FreeArea.addRect a u) t).Rects, a.Inside p := by
  induction l with
  | nil => intro t _ _ _ a ha; cases ha
  | cons b l ih =>
    intro t hp hr hl a ha
    have hb := hl b (List.mem_cons_self _ _)
    have hp1 : (FreeArea.addRect b t).PoolOK := FreeArea.poolOK_addRect hp
    have hr1 : (FreeArea.addRect b t).InRange := FreeArea.inRange_addRect hb.1 hr
    simp only [List.foldl_cons]
    rcases List.mem_cons.mp ha with rfl | ha
    · obtain ⟨p, hpm, hins⟩ := addRect_contains hb.1 hr hp
      obtain ⟨j, hj⟩ := List.mem_iff_getElem?.mp hpm
      have hpw : p.w ≠ 0 := by
        have := hb.2
        unfold RECT.Inside at hins
        omega
      obtain ⟨_, _, k3, _⟩ := FreeArea.foldl_addRect_pool l (FreeArea.addRect a t) hp1 hr1
        (fun q hq => (hl q (List.mem_cons_of_mem _ hq)).1)
      exact ⟨p, List.getElem?_mem (k3 j p hj hpw), hins⟩
    · exact ih (FreeArea.addRect b t) hp1 hr1 (fun q hq => hl q (List.mem_cons_of_mem _ hq)) a ha

/-- What `removeRect` keeps: a rectangle of positive size that lay inside a
stored rectangle and does not overlap the rectangle removed still lies inside
a stored rectangle; and the call returns `true` when a stored rectangle
contained the rectangle removed. -/
theorem removeRect_keeps_clear {rect : RECT} {s : FreeArea} (hrect : rect.InRange)
    (hs : s.InRange) (hpool : s.PoolOK) :
    ∃ b t, FreeArea.removeRect rect s = some (b, t) ∧
      (0 < rect.w → 0 < rect.h → (∃ q ∈ s.Rects, rect.Inside q) → b = true) ∧
      ∀ Q : RECT, 0 < Q.w → 0 < Q.h → ¬ Q.Overlaps rect → (∃ q ∈ s.Rects, Q.Inside q) →
        ∃ p ∈ t.Rects, Q.Inside p := by
  obtain ⟨⟨b, t⟩, hres⟩ := FreeArea.removeRect_terminates rect s
  refine ⟨b, t, hres, ?_⟩
  have hres2 := hres
  unfold FreeArea.removeRect at hres2
  obtain ⟨n, hn, hF, hK⟩ := FreeArea.removeRectLoop_invariant rect
    (fun i c u => FreeArea.FullInv rect s i c u ∧
      ∀ Q : RECT, 0 < Q.w → 0 < Q.h → ¬ Q.Overlaps rect → (∃ q ∈ s.Rects, Q.Inside q) →
        ∃ p ∈ u.Rects, Q.Inside p)
    (by
      intro i c u r hP hi hr
      refine ⟨FreeArea.fullInv_hit hrect hs hP.1 hi hr, ?_⟩
      intro Q hw hh hdis hq
      obtain ⟨p, hpm, hins⟩ := hP.2 Q hw hh hdis hq
      obtain ⟨hL, ⟨hp1, _, _⟩, _⟩ := hP.1
      have huR : u.InRange := FreeArea.inRange_of_slotInv hs hL.1
      have hrR : r.InRange := huR r (List.getElem?_mem hi)
      have h1R : FreeArea.InRange ⟨u.Rects.set i { r with w := 0 }, i :: u.Recycled⟩ := by
        intro p1 hp1m
        rcases List.mem_or_eq_of_mem_set hp1m with hp1m | rfl
        · exact huR p1 hp1m
        · exact FreeArea.RECT_inside_inRange (FreeArea.emptied_inside r) hrR
      have hpe := FreeArea.poolOK_emptied hp1 hi (FreeArea.intersects_w_ne_zero hr)
      have hrem : ∀ a ∈ FreeArea.remainders rect r, a.InRange ∧ a.w ≠ 0 := fun a ha =>
        ⟨FreeArea.RECT_inside_inRange (FreeArea.remainder_inside hrect hrR hr ha).1 hrR,
          (FreeArea.remainder_inside hrect hrR hr ha).2⟩
      obtain ⟨_, _, k3, _⟩ := FreeArea.foldl_addRect_pool (FreeArea.remainders rect r) _ hpe h1R
        (fun a ha => (hrem a ha).1)
      have kst := foldl_addRect_stored (FreeArea.remainders rect r) _ hpe h1R hrem
      rw [← FreeArea.addRemainders_eq_foldl] at k3 kst
      obtain ⟨j, hj⟩ := List.mem_iff_getElem?.mp hpm
      have hpw : p.w ≠ 0 := by
        unfold RECT.Inside at hins
        omega
      by_cases hji : j = i
      · subst hji
        rw [hi] at hj
        cases hj
        obtain ⟨a, ha, hQa⟩ := remainder_contains hrect hrR hw hh hins hdis
        obtain ⟨p2, hp2, hap2⟩ := kst a ha
        exact ⟨p2, hp2, FreeArea.RECT_inside_trans hQa hap2⟩
      · refine ⟨p, List.getElem?_mem (k3 j p ?_ hpw), hins⟩
        have hne2 : i ≠ j := fun e => hji e.symm
        simp only [List.getElem?_set, hne2, if_false]
        exact hj)
    (fun i c u r hP hi hr => ⟨FreeArea.fullInv_miss hrect hs hP.1 hi hr, hP.2⟩)
    _ _ _ _ _ _ ⟨FreeArea.fullInv_init hpool, fun Q _ _ _ hq => hq⟩ hres2
  refine ⟨?_, hK⟩
  intro hw hh ⟨q, hq, hins⟩
  obtain ⟨j, hj⟩ := List.mem_iff_getElem?.mp hq
  obtain ⟨_, ⟨_, hkeep, _⟩, hC⟩ := hF
  obtain ⟨_, hqw⟩ := FreeArea.inside_intersects hrect (hs q hq) hw hh hins
  have hjn : j < n := by
    by_contra hge
    have := hkeep j q (by omega) hj hqw
    rw [List.getElem?_eq_none (by omega)] at this
    cases this
  exact hC hw hh j q hjn hj hins

theorem seeded_init {W H : Nat} (hW : W ≤ INT_MAX) (hH : H ≤ INT_MAX) :
    Seeded (FreeArea.empty.addFreeArea 0 0 W H) W H [] := by
  have e := addFreeArea_eq_addRect 0 0 W H
    (by unfold ULONG_RANGE; unfold INT_MAX at hW; omega)
    (by unfold ULONG_RANGE; unfold INT_MAX at hH; omega) FreeArea.empty
  simp only [Nat.cast_zero] at e
  rw [e]
  have hrects : (FreeArea.addRect ⟨0, 0, W, H⟩ FreeArea.empty).Rects = [⟨0, 0, W, H⟩] := rfl
  refine ⟨⟨hW, hH, ?_, ?_, List.Pairwise.nil, ?_⟩, FreeArea.poolOK_addRect FreeArea.poolOK_empty, ?_⟩
  · intro p hp
    rw [hrects, List.mem_singleton] at hp
    subst hp
    unfold RECT.Within
    simp
  · intro u hu
    cases hu
  · intro p _ _ u hu
    cases hu
  · intro Q _ _ hQ _
    refine ⟨⟨0, 0, W, H⟩, by rw [hrects]; exact List.mem_singleton.mpr rfl, ?_⟩
    unfold RECT.Within at hQ
    unfold RECT.Inside
    simp only
    omega

/-- Marking used a rectangle of the image that overlaps none of the rectangles
in use returns `true` and leaves the free set seeded with it. -/
theorem seeded_removeRect {fa : FreeArea} {W H : Nat} {used : List RECT} {B : RECT}
    (h : Seeded fa W H used) (hB : B.Within W H) (hw : 0 < B.w) (hh : 0 < B.h)
    (hdis : ∀ u ∈ used, ¬ B.Overlaps u) :
    ∃ t, FreeArea.removeRect B fa = some (true, t) ∧ Seeded t W H (B :: used) := by
  have hBR := RECT_within_inRange hB h.packed.width_le h.packed.height_le
  obtain ⟨b, t, hres, htrue, hkeep⟩ :=
    removeRect_keeps_clear hBR (packed_inRange h.packed) h.pool
  have hb : b = true := htrue hw hh (h.maximal B hw hh hB hdis)
  subst hb
  obtain ⟨hP, hclear⟩ := packed_removeRect h.packed hB hres
  refine ⟨t, hres, ⟨hP.width_le, hP.height_le, hP.free_within, ?_, ?_, ?_⟩,
    FreeArea.poolOK_removeRect h.pool hres, ?_⟩
  · intro u hu
    rcases List.mem_cons.mp hu with rfl | hu
    · exact hB
    · exact hP.used_within u hu
  · exact List.pairwise_cons.mpr ⟨hdis, hP.used_disjoint⟩
  · intro p hp hpw u hu
    rcases List.mem_cons.mp hu with rfl | hu
    · exact hclear p hp hpw
    · exact hP.free_disjoint p hp hpw u hu
  · intro Q hQw hQh hQ hQdis
    have hq := h.maximal Q hQw hQh hQ (fun u hu => hQdis u (List.mem_cons_of_mem _ hu))
    exact hkeep Q hQw hQh (hQdis B (List.mem_cons_self _ _)) hq

/-- One valid record whose bordered rectangle overlaps none of the rectangles
seeded so far is read without setting the read-only flag. -/
theorem readRecord_valid {W H : Nat} {used : List RECT} {input : FILEINFO} {s : FilePairImpl}
    (hseed : Seeded s.freearea W H used) (hro : s.readOnly = false)
    (hv : input.ValidIn W H)
    (hdis : ∀ u ∈ used, ¬ input.toFileInfo.bordered.Overlaps u) :
    ∃ s1, readRecord W H input s = Except.ok s1 ∧ s1.readOnly = false ∧
      s1.bitmap = s.bitmap ∧
      Seeded s1.freearea W H (input.toFileInfo.bordered :: used) := by
  obtain ⟨hx, hy, hxw, hyh⟩ := hv
  have hW := hseed.packed.width_le
  have hH := hseed.packed.height_le
  unfold INT_MAX at hW hH
  have hB : input.toFileInfo.bordered.Within W H := by
    unfold FileInfo.bordered FILEINFO.toFileInfo RECT.Within
    simp only
    omega
  obtain ⟨t, hres, hseed1⟩ := seeded_removeRect hseed hB
    (by unfold FileInfo.bordered; simp) (by unfold FileInfo.bordered; simp) hdis
  have e1 : uadd input.x input.w = input.x + input.w :=
    uadd_eq_of_lt (by unfold ULONG_RANGE; omega)
  have e2 : uadd input.y input.h = input.y + input.h :=
    uadd_eq_of_lt (by unfold ULONG_RANGE; omega)
  have e3 : usub W 1 = W - 1 := usub_eq_of_le (by omega) (by unfold ULONG_RANGE; omega)
  have e4 : usub H 1 = H - 1 := usub_eq_of_le (by omega) (by unfold ULONG_RANGE; omega)
  have e5 : usub input.x 1 = input.x - 1 :=
    usub_eq_of_le hx (by unfold ULONG_RANGE; omega)
  have e6 : usub input.y 1 = input.y - 1 :=
    usub_eq_of_le hy (by unfold ULONG_RANGE; omega)
  have e7 : uadd input.w 2 = input.w + 2 := uadd_eq_of_lt (by unfold ULONG_RANGE; omega)
  have e8 : uadd input.h 2 = input.h + 2 := uadd_eq_of_lt (by unfold ULONG_RANGE; omega)
  have hcond : ¬ (input.x = 0 ∨ input.y = 0 ∨ input.x + input.w > W - 1 ∨
      input.y + input.h > H - 1) := by omega
  have hadd := @FreeArea.addUsedArea_natCast input.toFileInfo.bordered
    (RECT_within_inRange hB hseed.packed.width_le hseed.packed.height_le) s.freearea
  rw [hres] at hadd
  unfold FileInfo.bordered FILEINFO.toFileInfo at hadd
  simp only at hadd
  refine ⟨{ s with files := s.files.insert (decodeName input.name) input.toFileInfo,
                   freearea := t }, ?_, hro, rfl, hseed1⟩
  unfold readRecord
  unfold FILEINFO.toFileInfo
  simp only
  rw [e1, e2, e3, e4, if_neg hcond, hro]
  simp only [Bool.not_false, if_true]
  rw [e5, e6, e7, e8, hadd]

/-- Valid records with pairwise disjoint bordered rectangles, disjoint from
the rectangles seeded before, are all read without setting the read-only
flag. -/
theorem readRecords_valid {W H : Nat} :
    ∀ (records : List FILEINFO) (used : List RECT) (s : FilePairImpl),
      Seeded s.freearea W H used → s.readOnly = false →
      (∀ r ∈ records, r.ValidIn W H) →
      (records.map (fun r => r.toFileInfo.bordered)).Pairwise (fun a b => ¬ a.Overlaps b) →
      (∀ r ∈ records, ∀ u ∈ used, ¬ r.toFileInfo.bordered.Overlaps u) →
      ∃ s1, readRecords W H records.length records s = Except.ok (none, s1) ∧
        s1.readOnly = false ∧ s1.bitmap = s.bitmap ∧
        Seeded s1.freearea W H ((records.map (fun r => r.toFileInfo.bordered)).reverse ++ used) := by
  intro records
  induction records with
  | nil =>
    intro used s hseed hro _ _ _
    exact ⟨s, rfl, hro, rfl, by simpa using hseed⟩
  | cons r rs ih =>
    intro used s hseed hro hv hpw hdis
    rw [List.map_cons, List.pairwise_cons] at hpw
    obtain ⟨s1, h1, hro1, hb1, hseed1⟩ := readRecord_valid hseed hro
      (hv r (List.mem_cons_self _ _)) (hdis r (List.mem_cons_self _ _))
    obtain ⟨s2, h2, hro2, hb2, hseed2⟩ := ih (r.toFileInfo.bordered :: used) s1 hseed1 hro1
      (fun q hq => hv q (List.mem_cons_of_mem _ hq)) hpw.2
      (by
        intro q hq u hu
        rcases List.mem_cons.mp hu with rfl | hu
        · intro hov
          exact hpw.1 q.toFileInfo.bordered (List.mem_map.mpr ⟨q, hq, rfl⟩)
            (RECT_overlaps_symm hov)
        · exact hdis q (List.mem_cons_of_mem _ hq) u hu)
    refine ⟨s2, ?_, hro2, hb2.trans hb1, ?_⟩
    · simp only [List.length_cons, readRecords, h1, h2]
    · simpa using hseed2

/-- C25: for every image of `int` size that can be read and every sequence of
records in which each record satisfies `x ≥ 1`, `y ≥ 1`, `x + w + 1 ≤ width`,
`y + h + 1 ≤ height` and the bordered rectangles are pairwise non-overlapping,
the load succeeds with the read-only flag `false`; and each record, when its
turn comes after the records before it, has its bordered rectangle marked used
by a call of `addUsedArea` that returns `true`. -/
theorem load_valid_index_writable (lib : FreeImage) (filename1 filename2 : wstring)
    (dib : FIBITMAP) (records : List FILEINFO)
    (hbm : lib.Load filename2 = LoadResult.loaded dib)
    (hW : dib.width ≤ INT_MAX) (hH : dib.height ≤ INT_MAX)
    (hvalid : ∀ r ∈ records, r.ValidIn dib.width dib.height)
    (hdisj : (records.map (fun r => r.toFileInfo.bordered)).Pairwise
      (fun a b => ¬ a.Overlaps b)) :
    (∃ s, FilePairImpl.load lib filename1 filename2 records.length records =
        Except.ok (Except.ok s) ∧ s.readOnly = false) ∧
    ∀ (pre : List FILEINFO) (r : FILEINFO) (post : List FILEINFO),
      records = pre ++ r :: post →
      ∃ sk t, readRecords dib.width dib.height pre.length pre (loadStart dib) =
          Except.ok (none, sk) ∧ sk.readOnly = false ∧
        sk.freearea.addUsedArea (usub r.x 1) (usub r.y 1) (uadd r.w 2) (uadd r.h 2) =
          some (true, t) := by
  have hstart : Seeded (loadStart dib).freearea dib.width dib.height [] := seeded_init hW hH
  have hW2 := hW
  have hH2 := hH
  unfold INT_MAX at hW2 hH2
  constructor
  · obtain ⟨s1, h1, hro1, _, _⟩ := readRecords_valid records [] (loadStart dib) hstart rfl
      hvalid hdisj (fun r _ u hu => by cases hu)
    have hread : ReadBitmapFile lib filename2 = Except.ok dib := by
      unfold ReadBitmapFile; rw [hbm]
    refine ⟨{ s1 with indexFilename := filename1, imageFilename := filename2,
                      selected := none, modified := 0 }, ?_, hro1⟩
    unfold FilePairImpl.load
    rw [hread]
    have h1b : readRecords dib.width dib.height records.length records
        { selected := none, indexFilename := [], imageFilename := [],
          freearea := FreeArea.empty.addFreeArea 0 0 dib.width dib.height,
          bitmap := dib, readOnly := false, modified := 0, files := [] } =
        Except.ok (none, s1) := h1
    simp only [FilePairImpl.ReadIndexFile, h1b]
  · intro pre r post hrec
    subst hrec
    rw [List.map_append, List.map_cons, List.pairwise_append] at hdisj
    obtain ⟨hpre, hrest, hcross⟩ := hdisj
    obtain ⟨sk, hk, hrok, _, hseedk⟩ := readRecords_valid pre [] (loadStart dib) hstart rfl
      (fun q hq => hvalid q (List.mem_append_left _ hq)) hpre (fun q _ u hu => by cases hu)
    obtain ⟨hx, hy, hxw, hyh⟩ := hvalid r (List.mem_append_right _ (List.mem_cons_self _ _))
    have hB : r.toFileInfo.bordered.Within dib.width dib.height := by
      unfold FileInfo.bordered FILEINFO.toFileInfo RECT.Within
      simp only
      omega
    have hdis : ∀ u ∈ (pre.map (fun q => q.toFileInfo.bordered)).reverse ++ [],
        ¬ r.toFileInfo.bordered.Overlaps u := by
      intro u hu hov
      rw [List.append_nil, List.mem_reverse] at hu
      exact hcross u hu r.toFileInfo.bordered (List.mem_cons_self _ _) (RECT_overlaps_symm hov)
    obtain ⟨t, hres, _⟩ := seeded_removeRect hseedk hB
      (by unfold FileInfo.bordered; simp) (by unfold FileInfo.bordered; simp) hdis
    have hadd := @FreeArea.addUsedArea_natCast r.toFileInfo.bordered
      (RECT_within_inRange hB hW hH) sk.freearea
    rw [hres] at hadd
    unfold FileInfo.bordered FILEINFO.toFileInfo at hadd
    simp only at hadd
    have e5 : usub r.x 1 = r.x - 1 := usub_eq_of_le hx (by unfold ULONG_RANGE; omega)
    have e6 : usub r.y 1 = r.y - 1 := usub_eq_of_le hy (by unfold ULONG_RANGE; omega)
    have e7 : uadd r.w 2 = r.w + 2 := uadd_eq_of_lt (by unfold ULONG_RANGE; omega)
    have e8 : uadd r.h 2 = r.h + 2 := uadd_eq_of_lt (by unfold ULONG_RANGE; omega)
    refine ⟨sk, t, hk, hrok, ?_⟩
    rw [e5, e6, e7, e8, hadd]

/-- Witness of C25: the records `A` (1, 1, 10, 10) and `B` (20, 1, 5, 5) for
the 62 x 62 image `a`. -/
theorem load_valid_index_writable_witness :
    (∃ s, FilePairImpl.load (exampleLib true) ['i'] ['a'] 2
        [⟨[65], 1, 1, 10, 10, 1⟩, ⟨[66], 20, 1, 5, 5, 1⟩] = Except.ok (Except.ok s) ∧
      s.readOnly = false) ∧
    ∀ (pre : List FILEINFO) (r : FILEINFO) (post : List FILEINFO),
      [⟨[65], 1, 1, 10, 10, 1⟩, (⟨[66], 20, 1, 5, 5, 1⟩ : FILEINFO)] = pre ++ r :: post →
      ∃ sk t, readRecords 62 62 pre.length pre (loadStart ⟨62, 62, fun _ _ => 7⟩) =
          Except.ok (none, sk) ∧ sk.readOnly = false ∧
        sk.freearea.addUsedArea (usub r.x 1) (usub r.y 1) (uadd r.w 2) (uadd r.h 2) =
          some (true, t) :=
  load_valid_index_writable (exampleLib true) ['i'] ['a'] ⟨62, 62, fun _ _ => 7⟩
    [⟨[65], 1, 1, 10, 10, 1⟩, ⟨[66], 20, 1, 5, 5, 1⟩] rfl (by decide) (by decide)
    (by decide) (by decide)

/-! ## The sort is not stable, and needs a batch that is not empty -/

/-- C22, amended: the sort step of `insertFiles` is not stable.  For every
batch of two items whose images have equal area, `QuickSortAreaDesc` as called
by `insertFiles` returns the two items exchanged, names and bitmaps alike. -/
theorem QuickSortAreaDesc_exchanges_equal_pair (f1 f2 : wstring) (b1 b2 : FIBITMAP)
    (h : GetArea b1 = GetArea b2) :
    QuickSortAreaDesc ([f1, f2].length + 1) [f1, f2] [b1, b2] 0 (([f1, f2].length : Int) - 1) =
      Except.ok ([f2, f1], [b2, b1]) := by
  have hv0 : vecGet [b1, b2] 0 = Except.ok b1 := rfl
  have hv1 : vecGet [b1, b2] 1 = Except.ok b2 := rfl
  have hsu : scanUp [b1, b2] (GetArea b1) 3 0 = Except.ok 0 := by
    unfold scanUp
    rw [hv0]
    simp only [gt_iff_lt, lt_self_iff_false, if_false]
  have hsd : scanDown [b1, b2] (GetArea b1) 3 1 = Except.ok 1 := by
    unfold scanDown
    rw [hv1]
    simp only [← h, lt_self_iff_false, if_false]
  have hsf : vecSwap [f1, f2] 0 1 = Except.ok [f2, f1] := rfl
  have hsb : vecSwap [b1, b2] 0 1 = Except.ok [b2, b1] := rfl
  have hpl : partitionLoop (GetArea b1) 3 ⟨[f1, f2], [b1, b2], 0, 1⟩ =
      Except.ok ⟨[f2, f1], [b2, b1], 1, 0⟩ := by
    unfold partitionLoop
    simp only [List.length_cons, List.length_nil, Nat.zero_add, Nat.reduceAdd]
    rw [hsu, hsd]
    simp only [hsf, hsb]
    rfl
  show QuickSortAreaDesc 3 [f1, f2] [b1, b2] 0 1 = Except.ok ([f2, f1], [b2, b1])
  unfold QuickSortAreaDesc
  have t : ((0 : Int) + 1).tdiv 2 = 0 := by decide
  rw [t, hv0]
  simp only [List.length_cons, List.length_nil, Nat.zero_add, Nat.reduceAdd]
  rw [hpl]
  rfl

/-- Witness of the amended C22: two 1 x 1 images. -/
theorem QuickSortAreaDesc_exchanges_equal_pair_witness :
    GetArea ⟨1, 1, fun _ _ => 9⟩ = GetArea ⟨1, 1, fun _ _ => 8⟩ ∧
    QuickSortAreaDesc ([['x'], ['y']].length + 1) [['x'], ['y']]
        [⟨1, 1, fun _ _ => 9⟩, ⟨1, 1, fun _ _ => 8⟩] 0 (([['x'], ['y']].length : Int) - 1) =
      Except.ok ([['y'], ['x']], [⟨1, 1, fun _ _ => 8⟩, ⟨1, 1, fun _ _ => 9⟩]) :=
  ⟨rfl, QuickSortAreaDesc_exchanges_equal_pair ['x'] ['y'] ⟨1, 1, fun _ _ => 9⟩
    ⟨1, 1, fun _ _ => 8⟩ rfl⟩

/-- C22 fails as stated: the batch `x`, `y` of two 1 x 1 images inserted into
the 160 x 100 atlas comes back in the order `y`, `x`, and `y` is placed first,
at (1, 1), `x` after it at (4, 1). -/
theorem equal_areas_change_order :
    ∃ o, FilePairImpl.insertFiles tieLib 4 [['x'], ['y']] twoHoleAtlas = Except.ok o ∧
      o.error = none ∧
      o.filenames = [['y'], ['x']] ∧
      o.state.files.find ['Y'] = some ⟨1, 1, 1, 1, 1⟩ ∧
      o.state.files.find ['X'] = some ⟨4, 1, 1, 1, 1⟩ ∧
      o.filenames ≠ [['x'], ['y']] :=
  ⟨_, rfl, rfl, rfl, rfl, rfl, by decide⟩

/-- C27, amended: for every batch that is not empty and whose files can all be
read, the call of `QuickSortAreaDesc` made by `insertFiles` returns: it ends
within the recursion depth `n + 1` and the iteration bounds of its loops, and
no element is read or swapped outside the two vectors (a read or swap outside
them is the fault `bounds` of the model); the vectors keep their lengths. -/
theorem QuickSortAreaDesc_nonempty_in_bounds (lib : FreeImage) (filenames : List wstring)
    (bitmaps : List FIBITMAP) (hread : readFiles lib filenames = Except.ok bitmaps)
    (hne : filenames ≠ []) :
    ∃ fn bm, QuickSortAreaDesc (filenames.length + 1) filenames bitmaps 0
        ((filenames.length : Int) - 1) = Except.ok (fn, bm) ∧
      fn.length = filenames.length ∧ bm.length = bitmaps.length := by
  have hlen := (readFiles_spec filenames bitmaps hread).1
  cases filenames with
  | nil => exact absurd rfl hne
  | cons f fs =>
    have e : (((f :: fs).length : Nat) : Int) - 1 = (((f :: fs).length - 1 : Nat) : Int) := by
      simp
    have e0 : (0 : Int) = ((0 : Nat) : Int) := rfl
    obtain ⟨fn1, bm1, h1, ⟨r1, r2, _, _, _⟩, _⟩ := quickSort_spec ((f :: fs).length + 1)
      (f :: fs) bitmaps 0 ((f :: fs).length - 1) hlen.symm (by omega)
      (by rw [hlen]; simp) (by omega)
    refine ⟨fn1, bm1, ?_, r1, r2⟩
    rw [e, e0, h1]

/-- Witness of the amended C27: the batch `a`, `b`, `d`. -/
theorem QuickSortAreaDesc_nonempty_in_bounds_witness :
    readFiles (exampleLib true) [['a'], ['b'], ['d']] =
      Except.ok [⟨62, 62, fun _ _ => 7⟩, ⟨1, 1, fun _ _ => 9⟩, ⟨88, 88, fun _ _ => 3⟩] ∧
    ∃ fn bm, QuickSortAreaDesc ([['a'], ['b'], ['d']].length + 1) [['a'], ['b'], ['d']]
        [⟨62, 62, fun _ _ => 7⟩, ⟨1, 1, fun _ _ => 9⟩, ⟨88, 88, fun _ _ => 3⟩] 0
        (([['a'], ['b'], ['d']].length : Int) - 1) = Except.ok (fn, bm) ∧
      fn.length = [['a'], ['b'], ['d']].length ∧
      bm.length =
        [(⟨62, 62, fun _ _ => 7⟩ : FIBITMAP), ⟨1, 1, fun _ _ => 9⟩, ⟨88, 88, fun _ _ => 3⟩].length :=
  ⟨rfl, QuickSortAreaDesc_nonempty_in_bounds (exampleLib true) [['a'], ['b'], ['d']]
    [⟨62, 62, fun _ _ => 7⟩, ⟨1, 1, fun _ _ => 9⟩, ⟨88, 88, fun _ _ => 3⟩] rfl (by decide)⟩

/-- C27 fails as stated: for the empty batch `insertFiles` calls
`QuickSortAreaDesc(filenames, bitmaps, 0, -1)`, whose first statement reads
`bitmaps[(0 + -1) / 2]`, that is `bitmaps[0]` of an empty vector: the model
stops with the fault `bounds`. -/
theorem empty_batch_reads_outside :
    readFiles (exampleLib true) [] = Except.ok [] ∧
    ((0 : Int) + (((([] : List wstring).length : Nat) : Int) - 1)).tdiv 2 = 0 ∧
    vecGet ([] : List FIBITMAP) 0 = Except.error Fault.bounds ∧
    QuickSortAreaDesc (([] : List wstring).length + 1) [] []
      0 (((([] : List wstring).length : Nat) : Int) - 1) = Except.error Fault.bounds ∧
    fullAtlas64.readOnly = false ∧
    ∃ f, FilePairImpl.insertFiles (exampleLib true) 4 [] fullAtlas64 = Except.error f ∧
      f = Fault.bounds :=
  ⟨rfl, by decide, rfl, rfl, rfl, _, rfl, rfl⟩

/-! ## Growth of the atlas -/

/-- The two cases of a growth step on locals of `int` size: the height is
doubled and `(0, H, W, H)` is added to the free set, or the width is doubled
and `(W, 0, W, H)` is added. -/
theorem growStep_cases (st : AllocState) (hW : st.newWidth ≤ INT_MAX)
    (hH : st.newHeight ≤ INT_MAX) :
    (st.newHeight < st.newWidth ∧ (growStep st).newHeight = 2 * st.newHeight ∧
      (growStep st).newWidth = st.newWidth ∧
      (growStep st).freearea =
        FreeArea.addRect ⟨0, st.newHeight, st.newWidth, st.newHeight⟩ st.freearea) ∨
    (¬ st.newHeight < st.newWidth ∧ (growStep st).newWidth = 2 * st.newWidth ∧
      (growStep st).newHeight = st.newHeight ∧
      (growStep st).freearea =
        FreeArea.addRect ⟨st.newWidth, 0, st.newWidth, st.newHeight⟩ st.freearea) := by
  have hW2 := hW
  have hH2 := hH
  unfold INT_MAX at hW2 hH2
  by_cases h : st.newHeight < st.newWidth
  · left
    have e := addFreeArea_eq_addRect 0 st.newHeight st.newWidth st.newHeight
      (by unfold ULONG_RANGE; omega) (by unfold ULONG_RANGE; omega) st.freearea
    simp only [Nat.cast_zero] at e
    refine ⟨h, ?_, ?_, ?_⟩
    · simp only [growStep, h, if_true]; exact umul_two_eq hH
    · simp only [growStep, h, if_true]
    · simp only [growStep, h, if_true]; exact e
  · right
    have e := addFreeArea_eq_addRect st.newWidth 0 st.newWidth st.newHeight
      (by unfold ULONG_RANGE; omega) (by unfold ULONG_RANGE; omega) st.freearea
    simp only [Nat.cast_zero] at e
    refine ⟨h, ?_, ?_, ?_⟩
    · simp only [growStep, h, if_false]; exact umul_two_eq hW
    · simp only [growStep, h, if_false]
    · simp only [growStep, h, if_false]; exact e

theorem getFreeArea_total (area : RECT) (s : FreeArea) :
    ∃ b found fa, s.getFreeArea area = some (b, found, fa) ∧
      (b = true → found.w = area.w ∧ found.h = area.h) := by
  unfold FreeArea.getFreeArea
  cases s.Rects.find? (fun p => decide (p.w ≥ area.w) && decide (p.h ≥ area.h)) with
  | none => exact ⟨false, area, s, rfl, fun h => by cases h⟩
  | some p =>
    obtain ⟨⟨c, t⟩, hres⟩ := FreeArea.removeRect_terminates ⟨p.x, p.y, area.w, area.h⟩ s
    exact ⟨true, ⟨p.x, p.y, area.w, area.h⟩, t, by simp only [hres, Option.map_some'],
      fun _ => ⟨rfl, rfl⟩⟩

theorem allocArea_grown {lib : FreeImage} (hlib : lib.WellBehaved) (area : RECT)
    {W0 H0 : Nat} :
    ∀ (fuel : Nat) (st : AllocState) (found : RECT) (st1 : AllocState),
      st.GrownFrom W0 H0 → allocArea lib area fuel st = Except.ok (Except.ok (found, st1)) →
      st1.GrownFrom W0 H0 := by
  intro fuel
  induction fuel with
  | zero => intro st found st1 _ h; simp [allocArea] at h
  | succ fuel ih =>
    intro st found st1 hG h
    unfold allocArea at h
    split at h
    · cases h
    · cases h
      exact hG
    · rename_i a fa hg
      simp only at h
      split at h
      · cases h
      · rename_i nb hnb
        obtain ⟨hW, hH, ⟨ka, ha⟩, ⟨kb, hb⟩, _⟩ := hG
        obtain ⟨e1, e2, _, e4, _, e6⟩ := FreeImage_Allocate_some hlib hnb
        refine ih _ found st1 ?_ h
        refine ⟨e4, e6, ?_, ?_, ?_⟩
        · rcases growStep_cases { st with freearea := fa } hW hH with
            ⟨_, _, k2, _⟩ | ⟨_, k1, _, _⟩
          · exact ⟨ka, by rw [k2]; exact ha⟩
          · refine ⟨ka + 1, ?_⟩
            rw [k1]
            show 2 * st.newWidth = W0 * 2 ^ (ka + 1)
            rw [ha, pow_succ]
            ring
        · rcases growStep_cases { st with freearea := fa } hW hH with
            ⟨_, k1, _, _⟩ | ⟨_, _, k2, _⟩
          · refine ⟨kb + 1, ?_⟩
            rw [k1]
            show 2 * st.newHeight = H0 * 2 ^ (kb + 1)
            rw [hb, pow_succ]
            ring
          · exact ⟨kb, by rw [k2]; exact hb⟩
        · exact ⟨e1, e2⟩

theorem allocAreas_grown {lib : FreeImage} (hlib : lib.WellBehaved) (fuel : Nat)
    {W0 H0 : Nat} :
    ∀ (bitmaps : List FIBITMAP) (st : AllocState) (areas : List RECT) (st1 : AllocState),
      st.GrownFrom W0 H0 →
      allocAreas lib fuel bitmaps st = Except.ok (Except.ok (areas, st1)) →
      st1.GrownFrom W0 H0 := by
  intro bitmaps
  induction bitmaps with
  | nil => intro st areas st1 hG h; cases h; exact hG
  | cons dib rest ih =>
    intro st areas st1 hG h
    unfold allocAreas at h
    split at h
    · cases h
    · cases h
    · rename_i area st2 ha
      split at h
      · cases h
      · cases h
      · rename_i areas2 st3 hb
        cases h
        exact ih st2 areas2 st1 (allocArea_grown hlib _ fuel st area st2 hG ha) hb

theorem placeFile_dims (lib : FreeImage) (s : FilePairImpl) (filename : wstring)
    (dib : FIBITMAP) (area : RECT) :
    (placeFile lib s filename dib area).bitmap.width = s.bitmap.width ∧
    (placeFile lib s filename dib area).bitmap.height = s.bitmap.height := by
  obtain ⟨prev, hw, hh, hbm⟩ := placeFile_bitmap lib s filename dib area
  rw [hbm]
  have hc := copyBorder_dims ⟨uadd area.x 1, uadd area.y 1, usub area.w 2, usub area.h 2, 1⟩
    (FreeImage_Paste lib prev dib (uadd area.x 1) (uadd area.y 1))
  have hp := FreeImage_Paste_dims lib prev dib (uadd area.x 1) (uadd area.y 1)
  exact ⟨hc.1.trans (hp.1.trans hw), hc.2.trans (hp.2.trans hh)⟩

theorem placeFiles_dims (lib : FreeImage) :
    ∀ (fn : List wstring) (s : FilePairImpl) (bm : List FIBITMAP) (areas : List RECT),
      (placeFiles lib s fn bm areas).bitmap.width = s.bitmap.width ∧
      (placeFiles lib s fn bm areas).bitmap.height = s.bitmap.height := by
  intro fn
  induction fn with
  | nil => intro s bm areas; unfold placeFiles; exact ⟨rfl, rfl⟩
  | cons f fs ih =>
    intro s bm areas
    cases bm with
    | nil => unfold placeFiles; exact ⟨rfl, rfl⟩
    | cons d ds =>
      cases areas with
      | nil => unfold placeFiles; exact ⟨rfl, rfl⟩
      | cons a as =>
        unfold placeFiles
        have h1 := ih (placeFile lib s f d a) ds as
        have h2 := placeFile_dims lib s f d a
        exact ⟨h1.1.trans h2.1, h1.2.trans h2.2⟩

/-- C23: every growth step on locals of `int` size doubles exactly one of
width and height and leaves the other unchanged, and the rectangle it marks
free is exactly the set of pixels inside the new bounds and outside the old
ones, `(W, 0, W, H)` when the width is doubled and `(0, H, W, H)` when the
height is doubled; and after every call of `insertFiles` that returns, for a
library that only hands out bitmaps of `int` size, the width and the height
of the bitmap are the ones before the call times powers of two. -/
theorem insertFiles_grows_by_doubling (lib : FreeImage) (hlib : lib.WellBehaved) :
    (∀ st : AllocState, st.newWidth ≤ INT_MAX → st.newHeight ≤ INT_MAX →
      ((growStep st).newWidth = 2 * st.newWidth ∧ (growStep st).newHeight = st.newHeight ∧
        (growStep st).freearea =
          FreeArea.addRect ⟨st.newWidth, 0, st.newWidth, st.newHeight⟩ st.freearea ∧
        ∀ px py, RECT.HasPixel ⟨st.newWidth, 0, st.newWidth, st.newHeight⟩ px py ↔
          (px < (growStep st).newWidth ∧ py < (growStep st).newHeight ∧
            ¬ (px < st.newWidth ∧ py < st.newHeight))) ∨
      ((growStep st).newHeight = 2 * st.newHeight ∧ (growStep st).newWidth = st.newWidth ∧
        (growStep st).freearea =
          FreeArea.addRect ⟨0, st.newHeight, st.newWidth, st.newHeight⟩ st.freearea ∧
        ∀ px py, RECT.HasPixel ⟨0, st.newHeight, st.newWidth, st.newHeight⟩ px py ↔
          (px < (growStep st).newWidth ∧ py < (growStep st).newHeight ∧
            ¬ (px < st.newWidth ∧ py < st.newHeight)))) ∧
    (∀ (fuel : Nat) (filenames : List wstring) (s : FilePairImpl) (o : InsertOutcome),
      s.bitmap.width ≤ INT_MAX → s.bitmap.height ≤ INT_MAX →
      FilePairImpl.insertFiles lib fuel filenames s = Except.ok o →
      (∃ a, o.state.bitmap.width = s.bitmap.width * 2 ^ a) ∧
      (∃ b, o.state.bitmap.height = s.bitmap.height * 2 ^ b) ∧
      s.bitmap.width ≤ o.state.bitmap.width ∧ s.bitmap.height ≤ o.state.bitmap.height) := by
  constructor
  · intro st hW hH
    rcases growStep_cases st hW hH with ⟨_, k1, k2, k3⟩ | ⟨_, k1, k2, k3⟩
    · right
      refine ⟨k1, k2, k3, ?_⟩
      intro px py
      rw [k1, k2]
      unfold RECT.HasPixel
      simp only
      omega
    · left
      refine ⟨k1, k2, k3, ?_⟩
      intro px py
      rw [k1, k2]
      unfold RECT.HasPixel
      simp only
      omega
  · intro fuel filenames s o hW hH h
    have hsame : (∃ a, s.bitmap.width = s.bitmap.width * 2 ^ a) ∧
        (∃ b, s.bitmap.height = s.bitmap.height * 2 ^ b) ∧
        s.bitmap.width ≤ s.bitmap.width ∧ s.bitmap.height ≤ s.bitmap.height :=
      ⟨⟨0, by simp⟩, ⟨0, by simp⟩, le_refl _, le_refl _⟩
    unfold FilePairImpl.insertFiles at h
    split at h
    · cases h; exact hsame
    · split at h
      · cases h; exact hsame
      · split at h
        · cases h
        · rename_i fn bm hsort
          split at h
          · cases h
          · cases h; exact hsame
          · rename_i areas st halloc
            cases h
            obtain ⟨_, _, ⟨ka, ha⟩, ⟨kb, hb⟩, hD⟩ := @allocAreas_grown lib hlib fuel
              s.bitmap.width s.bitmap.height bm
              ⟨s.freearea, none, s.bitmap.width, s.bitmap.height⟩ areas st
              ⟨hW, hH, ⟨0, by simp⟩, ⟨0, by simp⟩, ⟨rfl, rfl⟩⟩ halloc
            have hpd := placeFiles_dims lib fn
              { s with
                freearea := st.freearea
                bitmap := (match st.newBitmap with
                  | some nb => FreeImage_Paste lib nb s.bitmap 0 0
                  | none => s.bitmap) } bm areas
            have hdimsB : (match st.newBitmap with
                | some nb => FreeImage_Paste lib nb s.bitmap 0 0
                | none => s.bitmap).width = st.newWidth ∧
                (match st.newBitmap with
                | some nb => FreeImage_Paste lib nb s.bitmap 0 0
                | none => s.bitmap).height = st.newHeight := by
              unfold AllocState.DimsOf at hD
              cases hnb : st.newBitmap with
              | none =>
                rw [hnb] at hD
                simp only at hD ⊢
                exact ⟨hD.1.symm, hD.2.symm⟩
              | some nb =>
                rw [hnb] at hD
                simp only at hD ⊢
                have := FreeImage_Paste_dims lib nb s.bitmap 0 0
                exact ⟨this.1.trans hD.1, this.2.trans hD.2⟩
            have ew := hpd.1.trans hdimsB.1
            have eh := hpd.2.trans hdimsB.2
            refine ⟨⟨ka, ew.trans ha⟩, ⟨kb, eh.trans hb⟩, ?_, ?_⟩
            · show s.bitmap.width ≤ _
              rw [show (_ : FIBITMAP).width = st.newWidth from ew, ha]
              exact Nat.le_mul_of_pos_right _ (Nat.pow_pos (by decide))
            · show s.bitmap.height ≤ _
              rw [show (_ : FIBITMAP).height = st.newHeight from eh, hb]
              exact Nat.le_mul_of_pos_right _ (Nat.pow_pos (by decide))

/-- Witness of C23: an 88 x 88 image inserted into the full 64 x 64 atlas
grows it to 256 x 128. -/
theorem insertFiles_grows_by_doubling_witness :
    ∃ o, FilePairImpl.insertFiles (exampleLib true) 6 [['d']] fullAtlas64 = Except.ok o ∧
      o.state.bitmap.width = 256 ∧ o.state.bitmap.height = 128 ∧
      (growStep ⟨fullAtlas64.freearea, none, 64, 64⟩).newWidth = 128 ∧
      (growStep ⟨fullAtlas64.freearea, none, 64, 64⟩).newHeight = 64 ∧
      (∃ a, o.state.bitmap.width = fullAtlas64.bitmap.width * 2 ^ a) ∧
      (∃ b, o.state.bitmap.height = fullAtlas64.bitmap.height * 2 ^ b) ∧
      fullAtlas64.bitmap.width ≤ o.state.bitmap.width ∧
      fullAtlas64.bitmap.height ≤ o.state.bitmap.height :=
  ⟨_, rfl, rfl, rfl, rfl, rfl,
    (insertFiles_grows_by_doubling (exampleLib true) exampleLib_wellBehaved).2 6 [['d']]
      fullAtlas64 _ (by decide) (by decide) rfl⟩

/-! ## Termination of the growth loop -/

/-- The growth loop for one item returns when the fuel exceeds the number of
doublings that keep the product of width and height below the square of
`INT_MAX`. -/
theorem allocArea_returns {lib : FreeImage} (hlib : lib.WellBehaved) (area : RECT) :
    ∀ (n : Nat) (st : AllocState) (fuel : Nat),
      1 ≤ st.newWidth → st.newWidth ≤ INT_MAX → 1 ≤ st.newHeight → st.newHeight ≤ INT_MAX →
      INT_MAX * INT_MAX < st.newWidth * st.newHeight * 2 ^ n → n < fuel →
      ∃ r, allocArea lib area fuel st = Except.ok r ∧
        (r = Except.error wruntime_error.IDS_ERROR_BITMAP_EXPAND ∨
          ∃ found st1, r = Except.ok (found, st1) ∧ found.w = area.w ∧ found.h = area.h) := by
  intro n
  induction n with
  | zero =>
    intro st fuel _ hW _ hH hbig _
    exfalso
    have := Nat.mul_le_mul hW hH
    simp only [pow_zero, Nat.mul_one] at hbig
    omega
  | succ n ih =>
    intro st fuel hW1 hW hH1 hH hbig hfuel
    cases fuel with
    | zero => omega
    | succ fuel =>
      obtain ⟨b, found, fa, hg, hsize⟩ := getFreeArea_total area st.freearea
      unfold allocArea
      cases b with
      | true =>
        simp only [hg]
        exact ⟨_, rfl, Or.inr ⟨found, _, rfl, hsize rfl⟩⟩
      | false =>
        simp only [hg]
        cases hnb : FreeImage_Allocate lib (growStep { st with freearea := fa }).newWidth
            (growStep { st with freearea := fa }).newHeight with
        | none => exact ⟨_, rfl, Or.inl rfl⟩
        | some nb =>
          obtain ⟨_, _, e3, e4, e5, e6⟩ := FreeImage_Allocate_some hlib hnb
          simp only
          apply ih { growStep { st with freearea := fa } with newBitmap := some nb } fuel
            e3 e4 e5 e6 _ (by omega)
          show INT_MAX * INT_MAX < (growStep { st with freearea := fa }).newWidth *
            (growStep { st with freearea := fa }).newHeight * 2 ^ n
          have hprod : (growStep { st with freearea := fa }).newWidth *
              (growStep { st with freearea := fa }).newHeight * 2 ^ n =
              st.newWidth * st.newHeight * 2 ^ (n + 1) := by
            rcases growStep_cases { st with freearea := fa } hW hH with
              ⟨_, k1, k2, _⟩ | ⟨_, k1, k2, _⟩
            · rw [k1, k2]
              show st.newWidth * (2 * st.newHeight) * 2 ^ n = _
              rw [pow_succ]; ring
            · rw [k1, k2]
              show 2 * st.newWidth * st.newHeight * 2 ^ n = _
              rw [pow_succ]; ring
          rw [hprod]
          exact hbig

/-- The growth loop ends:
for every atlas of at least 1 x 1 pixels (of `int` size), every
free set and every requested padded size, the growth loop of `insertFiles`
for one item ends within 63 iterations, for a library that only hands out
bitmaps of `int` size: it returns the exception of a failed bitmap
allocation, or, when no allocation fails, an area of the requested size. -/
theorem allocArea_terminates (lib : FreeImage) (hlib : lib.WellBehaved) (area : RECT)
    (st : AllocState) (fuel : Nat) (hW1 : 1 ≤ st.newWidth) (hW : st.newWidth ≤ INT_MAX)
    (hH1 : 1 ≤ st.newHeight) (hH : st.newHeight ≤ INT_MAX) (hfuel : 63 ≤ fuel) :
    ∃ r, allocArea lib area fuel st = Except.ok r ∧
      (r = Except.error wruntime_error.IDS_ERROR_BITMAP_EXPAND ∨
        ∃ found st1, r = Except.ok (found, st1) ∧ found.w = area.w ∧ found.h = area.h) := by
  apply allocArea_returns hlib area 62 st fuel hW1 hW hH1 hH _ (by omega)
  have h1 : 1 ≤ st.newWidth * st.newHeight := Nat.mul_le_mul hW1 hH1
  have h2 : 1 * 2 ^ 62 ≤ st.newWidth * st.newHeight * 2 ^ 62 := Nat.mul_le_mul_right _ h1
  have h3 : INT_MAX * INT_MAX < 1 * 2 ^ 62 := by decide
  omega

/-- Example of `allocArea_terminates`: the request of 90 x 90 pixels on the full 64 x 64 atlas
is granted after three growth steps, at 256 x 128. -/
theorem allocArea_terminates_witness :
    (∃ found st1, allocArea (exampleLib true) ⟨0, 0, 90, 90⟩ 63
        ⟨fullAtlas64.freearea, none, 64, 64⟩ = Except.ok (Except.ok (found, st1)) ∧
      st1.newWidth = 256 ∧ st1.newHeight = 128 ∧ found = ⟨128, 0, 90, 90⟩) ∧
    ∃ r, allocArea (exampleLib true) ⟨0, 0, 90, 90⟩ 63
        ⟨fullAtlas64.freearea, none, 64, 64⟩ = Except.ok r ∧
      (r = Except.error wruntime_error.IDS_ERROR_BITMAP_EXPAND ∨
        ∃ found st1, r = Except.ok (found, st1) ∧ found.w = 90 ∧ found.h = 90) :=
  ⟨⟨_, _, rfl, rfl, rfl, rfl⟩,
    allocArea_terminates (exampleLib true) exampleLib_wellBehaved ⟨0, 0, 90, 90⟩
      ⟨fullAtlas64.freearea, none, 64, 64⟩ 63 (by decide) (by decide) (by decide) (by decide)
      (by decide)⟩

/-! ## The free-set tests on rectangles that reach beyond 2^32

The containment test of `addRect` and the intersection and containment tests
of `removeRect` add `x + w` in 32-bit arithmetic.  `ReadIndexFile` hands them
the bordered rectangle `(4, 0, 4294967294, 3)` of the record
`(5, 1, 4294967292, 1)`, whose right edge wraps to 2. -/

/-- C3: `removeRect` of `(4, 0, 4294967294, 3)` (and `addUsedArea` with the
same four values) on the free set of a fresh 62 x 62 image, the call that
`ReadIndexFile` makes for the record `(5, 1, 4294967292, 1)`, returns `true`
although the only stored rectangle `(0, 0, 62, 62)` does not contain it; the
loaded pair stays writable. -/
theorem removeRect_true_without_container :
    FreeArea.addFreeArea (0 : Nat) (0 : Nat) (62 : Nat) (62 : Nat) FreeArea.empty =
      ⟨[⟨0, 0, 62, 62⟩], []⟩ ∧
    FreeArea.removeRect ⟨4, 0, 4294967294, 3⟩ ⟨[⟨0, 0, 62, 62⟩], []⟩ =
      some (true, ⟨[⟨0, 0, 4, 62⟩, ⟨2, 0, 60, 62⟩, ⟨0, 3, 62, 59⟩], []⟩) ∧
    FreeArea.addUsedArea (4 : Nat) (0 : Nat) (4294967294 : Nat) (3 : Nat)
        ⟨[⟨0, 0, 62, 62⟩], []⟩ =
      some (true, ⟨[⟨0, 0, 4, 62⟩, ⟨2, 0, 60, 62⟩, ⟨0, 3, 62, 59⟩], []⟩) ∧
    (¬ ∃ q ∈ (⟨[⟨0, 0, 62, 62⟩], []⟩ : FreeArea).Rects,
        RECT.Inside ⟨4, 0, 4294967294, 3⟩ q) ∧
    wrapAtlas.readOnly = false :=
  ⟨rfl, rfl, rfl, by decide, rfl⟩

/-- C4: after `removeRect` of `(4, 0, 4294967294, 3)` on the free set of a
fresh 62 x 62 image the stored rectangle `(2, 0, 60, 62)` still overlaps the
rectangle: the pixel `(10, 1)` of the rectangle is covered by the free set
afterwards.  The right edge of the rectangle wraps to 2, so the part of the
free rectangle to the right of column 2 is kept as a residual. -/
theorem removeRect_leaves_rect_covered :
    FreeArea.removeRect ⟨4, 0, 4294967294, 3⟩ ⟨[⟨0, 0, 62, 62⟩], []⟩ =
      some (true, ⟨[⟨0, 0, 4, 62⟩, ⟨2, 0, 60, 62⟩, ⟨0, 3, 62, 59⟩], []⟩) ∧
    RECT.HasPixel ⟨4, 0, 4294967294, 3⟩ 10 1 ∧
    FreeArea.Covered ⟨[⟨0, 0, 4, 62⟩, ⟨2, 0, 60, 62⟩, ⟨0, 3, 62, 59⟩], []⟩ 10 1 ∧
    RECT.Overlaps ⟨2, 0, 60, 62⟩ ⟨4, 0, 4294967294, 3⟩ ∧
    wrapAtlas.freearea = ⟨[⟨0, 0, 4, 62⟩, ⟨2, 0, 60, 62⟩, ⟨0, 3, 62, 59⟩], []⟩ :=
  ⟨rfl, by decide, ⟨⟨2, 0, 60, 62⟩, by decide, by decide⟩, by decide, rfl⟩

/-- C5: `addRect` of `(4, 0, 4294967294, 3)` (and `addFreeArea` with the same
four values) on the free set `(0,0,4,62)`, `(2,0,60,62)`, `(0,3,62,59)` with
an empty recycle pool leaves the free set unchanged although no stored
rectangle contains the rectangle, which therefore is not appended.  This is
the call that `deleteFile` of `B` makes on the pair loaded from the record
`(5, 1, 4294967292, 1)` and a 62 x 62 image. -/
theorem addRect_drops_uncontained_rect :
    (¬ ∃ p ∈ (⟨[⟨0, 0, 4, 62⟩, ⟨2, 0, 60, 62⟩, ⟨0, 3, 62, 59⟩], []⟩ : FreeArea).Rects,
        RECT.Inside ⟨4, 0, 4294967294, 3⟩ p) ∧
    FreeArea.addRect ⟨4, 0, 4294967294, 3⟩
        ⟨[⟨0, 0, 4, 62⟩, ⟨2, 0, 60, 62⟩, ⟨0, 3, 62, 59⟩], []⟩ =
      ⟨[⟨0, 0, 4, 62⟩, ⟨2, 0, 60, 62⟩, ⟨0, 3, 62, 59⟩], []⟩ ∧
    FreeArea.addFreeArea (4 : Nat) (0 : Nat) (4294967294 : Nat) (3 : Nat)
        ⟨[⟨0, 0, 4, 62⟩, ⟨2, 0, 60, 62⟩, ⟨0, 3, 62, 59⟩], []⟩ =
      ⟨[⟨0, 0, 4, 62⟩, ⟨2, 0, 60, 62⟩, ⟨0, 3, 62, 59⟩], []⟩ ∧
    FreeArea.addRect ⟨4, 0, 4294967294, 3⟩
        ⟨[⟨0, 0, 4, 62⟩, ⟨2, 0, 60, 62⟩, ⟨0, 3, 62, 59⟩], []⟩ ≠
      ⟨[⟨0, 0, 4, 62⟩, ⟨2, 0, 60, 62⟩, ⟨0, 3, 62, 59⟩, ⟨4, 0, 4294967294, 3⟩], []⟩ ∧
    wrapAtlas.freearea = ⟨[⟨0, 0, 4, 62⟩, ⟨2, 0, 60, 62⟩, ⟨0, 3, 62, 59⟩], []⟩ :=
  ⟨by decide, rfl, rfl, by decide, rfl⟩

/-- C6: the batch `x` (65536 x 65536), `y` (1 x 1), `z` (65537 x 65537) is
sorted to `z`, `y`, `x`: `GetArea` multiplies in 32 bits, so the keys are
131073, 1 and 0, and the 1 x 1 item comes ahead of the item of
65536 x 65536 pixels, whose area is larger. -/
theorem QuickSortAreaDesc_orders_by_wrapped_product :
    ∃ fn bm,
      QuickSortAreaDesc (([['x'], ['y'], ['z']] : List wstring).length + 1)
        [['x'], ['y'], ['z']]
        [⟨65536, 65536, fun _ _ => 0⟩, ⟨1, 1, fun _ _ => 0⟩, ⟨65537, 65537, fun _ _ => 0⟩] 0
        (((([['x'], ['y'], ['z']] : List wstring).length : Nat) : Int) - 1) =
          Except.ok (fn, bm) ∧
      fn = [['z'], ['y'], ['x']] ∧
      bm.map (fun b => (b.width, b.height)) = [(65537, 65537), (1, 1), (65536, 65536)] ∧
      bm.map GetArea = [131073, 1, 0] ∧
      ¬ List.Pairwise (fun a b => a.width * a.height ≥ b.width * b.height) bm :=
  ⟨_, _, rfl, rfl, rfl, rfl, by decide⟩

/-- C17: on the writable pair loaded from the record `B` =
`(5, 1, 4294967292, 1)` and a 62 x 62 image, `deleteFile` of `B` removes the
entry but leaves the free set as it was: no stored free rectangle contains
the old bordered rectangle `(4, 0, 4294967294, 3)` afterwards and
`getFreeArea` for its size `(4294967294, 3)` finds nothing. -/
theorem deleteFile_space_not_reclaimed :
    wrapAtlas.readOnly = false ∧
    wrapAtlas.files.find ['B'] = some ⟨5, 1, 4294967292, 1, 1⟩ ∧
    FileInfo.bordered ⟨5, 1, 4294967292, 1, 1⟩ = ⟨4, 0, 4294967294, 3⟩ ∧
    (FilePair.deleteFile (exampleLib true) ['B'] wrapAtlas).files = [] ∧
    (FilePair.deleteFile (exampleLib true) ['B'] wrapAtlas).freearea = wrapAtlas.freearea ∧
    (FilePair.deleteFile (exampleLib true) ['B'] wrapAtlas).freearea =
      ⟨[⟨0, 0, 4, 62⟩, ⟨2, 0, 60, 62⟩, ⟨0, 3, 62, 59⟩], []⟩ ∧
    (¬ ∃ p ∈ (FilePair.deleteFile (exampleLib true) ['B'] wrapAtlas).freearea.Rects,
        RECT.Inside ⟨4, 0, 4294967294, 3⟩ p) ∧
    FreeArea.getFreeArea ⟨0, 0, 4294967294, 3⟩
        (FilePair.deleteFile (exampleLib true) ['B'] wrapAtlas).freearea =
      some (false, ⟨0, 0, 4294967294, 3⟩,
        (FilePair.deleteFile (exampleLib true) ['B'] wrapAtlas).freearea) :=
  ⟨rfl, rfl, rfl, rfl, rfl, rfl, by decide, rfl⟩

/-- C21: on the writable pair loaded from the records `A` =
`(5, 1, 4294967292, 1)` and `B` = `(101, 1, 3, 1)` and a 200 x 62 image,
`deleteFile` of `A` marks `r = (4, 0, 4294967294, 3)` free and stores
nothing; `deleteFile` of `B` then marks `s = (100, 0, 5, 3)` free, which lies
inside `r`, and appends it: the number of stored rectangles grows from 4 to
5. -/
theorem addRect_inside_is_stored :
    wideAtlas.readOnly = false ∧
    wideAtlas.files = [(['A'], ⟨5, 1, 4294967292, 1, 1⟩), (['B'], ⟨101, 1, 3, 1, 1⟩)] ∧
    wideAtlas.freearea =
      ⟨[⟨0, 0, 4, 62⟩, ⟨2, 0, 98, 62⟩, ⟨0, 3, 200, 59⟩, ⟨105, 0, 95, 62⟩], []⟩ ∧
    RECT.Inside ⟨100, 0, 5, 3⟩ ⟨4, 0, 4294967294, 3⟩ ∧
    (FilePair.deleteFile wideLib ['A'] wideAtlas).freearea =
      FreeArea.addRect ⟨4, 0, 4294967294, 3⟩ wideAtlas.freearea ∧
    FreeArea.addRect ⟨4, 0, 4294967294, 3⟩ wideAtlas.freearea = wideAtlas.freearea ∧
    (FilePair.deleteFile wideLib ['B'] (FilePair.deleteFile wideLib ['A'] wideAtlas)).freearea =
      FreeArea.addRect ⟨100, 0, 5, 3⟩
        (FreeArea.addRect ⟨4, 0, 4294967294, 3⟩ wideAtlas.freearea) ∧
    FreeArea.addRect ⟨100, 0, 5, 3⟩
        (FreeArea.addRect ⟨4, 0, 4294967294, 3⟩ wideAtlas.freearea) =
      ⟨[⟨0, 0, 4, 62⟩, ⟨2, 0, 98, 62⟩, ⟨0, 3, 200, 59⟩, ⟨105, 0, 95, 62⟩, ⟨100, 0, 5, 3⟩],
        []⟩ ∧
    (FreeArea.addRect ⟨4, 0, 4294967294, 3⟩ wideAtlas.freearea).Rects.length = 4 ∧
    (FreeArea.addRect ⟨100, 0, 5, 3⟩
        (FreeArea.addRect ⟨4, 0, 4294967294, 3⟩ wideAtlas.freearea)).Rects.length = 5 :=
  ⟨rfl, rfl, rfl, by decide, rfl, rfl, rfl, rfl, rfl, rfl⟩

/-! ## The growth loop until the request fits -/

